import Mathlib

/-!
# go-mscfb: the compound-file (CFB / OLE2) reader

A shallow embedding of `parser/context.go` and `parser/reader.go`, with the
`ReadAt` of the readers that `OpenDirectoryStream` hands out (`bytes.Reader` and
the `StreamReader` embedded in the `ReadAdapter` of `parser/readers.go`).

Conventions of the embedding

* Go `uint32` / `uint64` values are `Nat`, Go `int` / `int64` values are `Int`;
  `int` is taken to be 64 bits wide.  Every `int64` operation of the source
  that can leave the 64-bit range is followed by `wrap64`, every conversion
  to `uint64` by `toUint64`.
* A byte is a `Nat`; a byte slice is a `List Nat`.
* A Go call either returns or panics (index out of range, division by zero,
  nil dereference): `Outcome.ret` and `Outcome.panic`.  Loops are run with a
  fuel counter; `Outcome.timeout` is the answer of a loop that used up its
  fuel, and the theorems below show that it is never the answer of a
  top-level function (for `GetOLEContext` with a cap `MAX_SECTORS` below `2^31`).
* An `io.ReaderAt` is a function from the length of the slice it is handed and
  the offset to the bytes it stored at the front of the slice together with
  its error value.
-/

namespace Mscfb

/-! ## Results of Go calls -/

/-- Result of running a Go function: it returned a value, it panicked, or the
fuel of the embedding ran out. -/
inductive Outcome (α : Type) where
  | ret (a : α)
  | panic
  | timeout
  deriving DecidableEq, Repr

/-- Error values produced by the package (and `io` for the ones handed up by
the underlying byte source). -/
inductive Error where
  | EOF
  | notFound
  | invalidDirectoryIndex
  | fatReferenceExceeded (res : List Nat)
  | fatCycle (res : List Nat)
  | miniFatReferenceExceeded (res : List Nat)
  | miniFatCycle (res : List Nat)
  | invalidSignature
  | invalidMiniSectorSize (v : Int)
  | invalidMiniSectorCutoff (v : Nat)
  | sectorSizeInvalid
  | difLoop (sector next : Nat)
  | io (code : Nat)
  deriving DecidableEq, Repr

/-! ## Machine integers -/

/-- Two-complement reduction of an integer to the `int64` range. -/
def wrap64 (x : Int) : Int :=
  (x + 9223372036854775808) % 18446744073709551616 - 9223372036854775808

/-- Conversion `uint64(x)` of an `int64` value. -/
def toUint64 (x : Int) : Nat := (x % 18446744073709551616).toNat

/-- Range of the Go type `int64`. -/
def IsInt64 (x : Int) : Prop := -9223372036854775808 ≤ x ∧ x < 9223372036854775808

instance (x : Int) : Decidable (IsInt64 x) := by unfold IsInt64; infer_instance

/-! ## Constants

The sentinel sector ids are declared in a file of the package that is not part
of the sources at hand; the cap `MAX_SECTORS` is declared there too and is a
parameter of every function that uses it. -/

/-- Modelled from the spec: the constant `ENDOFCHAIN` (declared outside the
files at hand), "last link of a chain", value `0xFFFFFFFE`. -/
def ENDOFCHAIN : Nat := 0xFFFFFFFE

/-- Modelled from the spec: the constant `FREESECT` (declared outside the
files at hand), "free / absent", value `0xFFFFFFFF`. -/
def FREESECT : Nat := 0xFFFFFFFF

/-! ## Data model -/

/-- The interface `io.ReaderAt`: `rd k off` is the answer to `ReadAt(p, off)` with
`len(p) = k`: the bytes stored in `p[0:n]` and the error. -/
abbrev ReaderAt := Nat → Int → List Nat × Option Error

/-- The struct `StreamReader` of `reader.go`. -/
structure StreamReader where
  Reader : ReaderAt
  Size : Int
  ReaderOffset : Int
  Sectors : List Nat
  SectorSize : Int

/-- The struct `DirectoryEntry` of `directories.go`; times are Unix seconds. -/
structure DirectoryEntry where
  Name : String
  Id : Int
  Size : Nat
  Mtime : Int
  Ctime : Int
  Attribute : String
  IsDir : Bool
  FirstSector : Nat
  deriving DecidableEq, Repr

/-- Modelled from the spec: the decoded header fields that `GetOLEContext`
reads through the generated accessors of `CFHeader` (the accessors are not
among the files at hand). -/
structure CFHeader where
  Signature : Nat
  SectorSize : Nat
  MiniSectorShift : Nat
  MiniSectorCutoff : Nat
  DirectorySectorLoc : Nat
  MiniFATSectorLoc : Nat
  DIFATSectorLoc : Nat
  InitialDIFATs : List Nat
  deriving DecidableEq, Repr

/-- The struct `OLEContext` of `context.go`.  `Ministream` is `none` for the nil
interface and otherwise the `*StreamReader` stored by `loadMiniFat`. -/
structure OLEContext where
  Reader : ReaderAt
  Header : CFHeader
  SectorSize : Nat
  MiniSectorCutoff : Nat
  MiniSectorSize : Int
  FatSectors : List Nat
  Fat : List Nat
  MiniFat : List Nat
  Directories : List DirectoryEntry
  Ministream : Option StreamReader

/-! ## Chain walks (`context.go`, `getChain` and `getMiniChain`) -/

/-- The `for` loop of `getChain`.  `seen` is the map of the source: it is
created empty and the loop never stores into it. -/
def OLEContext.getChain.loop (MAX_SECTORS : Nat) (self : OLEContext) (seen : List Nat) :
    Nat → Nat → List Nat → Outcome (List Nat × Option Error)
  | 0, _, _ => .timeout
  | fuel + 1, sector, res =>
    if sector ≠ ENDOFCHAIN then
      let res := res ++ [sector]
      if sector > self.Fat.length then
        .ret (res, some (.fatReferenceExceeded res))
      else
        match self.Fat[sector]? with
        | none => .panic
        | some next =>
          if seen.contains next then
            .ret (res, some (.fatCycle res))
          else if res.length > MAX_SECTORS then
            .ret (res, none)
          else
            OLEContext.getChain.loop MAX_SECTORS self seen fuel next res
    else
      .ret (res, none)

/-- The method `getChain`: the chain and the error it returns. -/
def OLEContext.getChain (MAX_SECTORS : Nat) (self : OLEContext) (start : Nat) :
    Outcome (List Nat × Option Error) :=
  OLEContext.getChain.loop MAX_SECTORS self [] (MAX_SECTORS + 2) start []

/-- The `for` loop of `getMiniChain`. -/
def OLEContext.getMiniChain.loop (MAX_SECTORS : Nat) (self : OLEContext) (seen : List Nat) :
    Nat → Nat → List Nat → Outcome (List Nat × Option Error)
  | 0, _, _ => .timeout
  | fuel + 1, sector, res =>
    if sector ≠ ENDOFCHAIN then
      let res := res ++ [sector]
      if sector > self.MiniFat.length then
        .ret (res, some (.miniFatReferenceExceeded res))
      else
        match self.MiniFat[sector]? with
        | none => .panic
        | some next =>
          if seen.contains next then
            .ret (res, some (.miniFatCycle res))
          else if res.length > MAX_SECTORS then
            .ret (res, none)
          else
            OLEContext.getMiniChain.loop MAX_SECTORS self seen fuel next res
    else
      .ret (res, none)

/-- The method `getMiniChain`. -/
def OLEContext.getMiniChain (MAX_SECTORS : Nat) (self : OLEContext) (start : Nat) :
    Outcome (List Nat × Option Error) :=
  OLEContext.getMiniChain.loop MAX_SECTORS self [] (MAX_SECTORS + 2) start []

/-! ## Stream reads (`reader.go`) -/

/-- What a call of `StreamReader.ReadAt` leaves behind: the two values it
returns, the buffer after the call and the reads `(len, offset)` it issued to
the underlying byte source, in order. -/
structure ReadOut where
  n : Int
  err : Option Error
  buf : List Nat
  reads : List (Nat × Int)
  deriving DecidableEq, Repr

/-- The tail of `ReadAt` after its loop. -/
def StreamReader.ReadAt.finish (current_buff_offset : Nat) (buff : List Nat)
    (reads : List (Nat × Int)) : Outcome ReadOut :=
  if current_buff_offset = 0 then
    .ret { n := 0, err := some .EOF, buf := buff, reads := reads }
  else
    .ret { n := current_buff_offset, err := none, buf := buff, reads := reads }

/-- The `for` loop of `ReadAt`.  Indexing `Sectors` with a negative index and
slicing `buff` with a negative length panic. -/
def StreamReader.ReadAt.loop (self : StreamReader) (off : Int) :
    Nat → Int → Int → Nat → List Nat → List (Nat × Int) → Outcome ReadOut
  | 0, _, _, _, _, _ => .timeout
  | fuel + 1, current_sector, current_sector_offset, current_buff_offset, buff, reads =>
    if current_buff_offset ≤ buff.length ∧ current_sector < self.Sectors.length then
      let available_in_file := wrap64 (self.Size - wrap64 (off + current_buff_offset))
      let available_in_sector := wrap64 (self.SectorSize - current_sector_offset)
      let available_in_buffer : Int := buff.length - current_buff_offset
      let to_read := available_in_sector
      let to_read := if to_read > available_in_buffer then available_in_buffer else to_read
      let to_read := if to_read > available_in_file then available_in_file else to_read
      if to_read = 0 then
        StreamReader.ReadAt.finish current_buff_offset buff reads
      else if current_sector < 0 then
        .panic
      else
        match self.Sectors[current_sector.toNat]? with
        | none => .panic
        | some current_sector_to_read =>
          if to_read < 0 then
            .panic
          else
            let pos := wrap64 (wrap64 (self.ReaderOffset +
              wrap64 (self.SectorSize * current_sector_to_read)) + current_sector_offset)
            let got := self.Reader to_read.toNat pos
            let data := got.1.take to_read.toNat
            let buff := buff.take current_buff_offset ++ data ++
              buff.drop (current_buff_offset + data.length)
            let reads := reads ++ [(to_read.toNat, pos)]
            match got.2 with
            | some err => .ret { n := 0, err := some err, buf := buff, reads := reads }
            | none =>
              StreamReader.ReadAt.loop self off fuel (current_sector + 1) 0
                (current_buff_offset + data.length) buff reads
    else
      StreamReader.ReadAt.finish current_buff_offset buff reads

/-- The method `StreamReader.ReadAt`.  A zero `SectorSize` makes the first
division panic. -/
def StreamReader.ReadAt (self : StreamReader) (buff : List Nat) (off : Int) : Outcome ReadOut :=
  if self.SectorSize = 0 then
    .panic
  else
    let current_sector := wrap64 (Int.tdiv off self.SectorSize)
    if current_sector ≥ self.Sectors.length ∨ off ≥ self.Size then
      .ret { n := 0, err := some .EOF, buf := buff, reads := [] }
    else
      let current_sector_offset := Int.tmod off self.SectorSize
      StreamReader.ReadAt.loop self off (self.Sectors.length + 1)
        current_sector current_sector_offset 0 buff []

/-! ## The context facade (`context.go`) -/

/-- The reader handed out by `OpenDirectoryStream`: `bytes.NewReader(res)` over
an in-memory buffer, or `NewReadAdapter(res)` around a `StreamReader`. -/
inductive Stream where
  | bytesReader (res : List Nat)
  | readAdapter (res : StreamReader)

/-- The method `OpenStream`. -/
def OLEContext.OpenStream (MAX_SECTORS : Nat) (self : OLEContext) (sector : Nat) :
    Outcome (Except Error StreamReader) :=
  match self.getChain MAX_SECTORS sector with
  | .panic => .panic
  | .timeout => .timeout
  | .ret (_, some err) => .ret (.error err)
  | .ret (sectors, none) =>
    .ret (.ok {
      Reader := self.Reader
      Size := wrap64 ((self.SectorSize : Int) * (sectors.length : Int))
      ReaderOffset := self.SectorSize
      SectorSize := self.SectorSize
      Sectors := sectors })

/-- The method `GetDirentry`. -/
def OLEContext.GetDirentry (self : OLEContext) (idx : Nat) : Outcome (Except Error DirectoryEntry) :=
  if idx > self.Directories.length then
    .ret (.error .invalidDirectoryIndex)
  else
    match self.Directories[idx]? with
    | none => .panic
    | some d => .ret (.ok d)

/-- The `range sectors` loop of `OpenDirectoryStream`: `res` collects what each
read of the mini stream returned, the first failing read ends the loop. -/
def OLEContext.OpenDirectoryStream.loop (self : OLEContext) :
    List Nat → List Nat → List Nat → Outcome (List Nat)
  | [], _, res => .ret res
  | s :: sectors, buff, res =>
    match self.Ministream with
    | none => .panic
    | some ministream =>
      match ministream.ReadAt buff (wrap64 ((s : Int) * self.MiniSectorSize)) with
      | .panic => .panic
      | .timeout => .timeout
      | .ret out =>
        match out.err with
        | some _ => .ret res
        | none =>
          OLEContext.OpenDirectoryStream.loop self sectors out.buf
            (res ++ out.buf.take out.n.toNat)

/-- The bound `maxAlloc` of the Go runtime on the size of an allocation on a
64-bit platform (`1 << 48` bytes): `make` panics on a length or a capacity that
is negative or above it. -/
def maxAlloc : Nat := 281474976710656

/-- The method `OpenDirectoryStream`: the reader and the size, or the error.
`make([]byte, 0, dir_entry.Size)` panics on a capacity above `maxAlloc` (a
`uint64` of `2^63` or more is a negative `int`), `make([]byte,
self.MiniSectorSize)` on a length that is negative or above `maxAlloc`;
allocations are otherwise taken to succeed. -/
def OLEContext.OpenDirectoryStream (MAX_SECTORS : Nat) (self : OLEContext) (idx : Nat) :
    Outcome (Except Error (Stream × Int)) :=
  match self.GetDirentry idx with
  | .panic => .panic
  | .timeout => .timeout
  | .ret (.error err) => .ret (.error err)
  | .ret (.ok dir_entry) =>
    if dir_entry.Size < self.MiniSectorCutoff then
      if dir_entry.Size > maxAlloc then
        .panic
      else if self.MiniSectorSize < 0 ∨ self.MiniSectorSize > maxAlloc then
        .panic
      else
        let buff := List.replicate self.MiniSectorSize.toNat 0
        match self.getMiniChain MAX_SECTORS dir_entry.FirstSector with
        | .panic => .panic
        | .timeout => .timeout
        | .ret (_, some err) => .ret (.error err)
        | .ret (sectors, none) =>
          match OLEContext.OpenDirectoryStream.loop self sectors buff [] with
          | .panic => .panic
          | .timeout => .timeout
          | .ret res =>
            let res := if dir_entry.Size < res.length then res.take dir_entry.Size else res
            .ret (.ok (.bytesReader res, wrap64 dir_entry.Size))
    else
      match self.OpenStream MAX_SECTORS dir_entry.FirstSector with
      | .panic => .panic
      | .timeout => .timeout
      | .ret (.error err) => .ret (.error err)
      | .ret (.ok res) =>
        let res := if dir_entry.Size > 0 ∧ dir_entry.Size < toUint64 res.Size then
            { res with Size := wrap64 dir_entry.Size }
          else res
        .ret (.ok (.readAdapter res, res.Size))

/-- The `range self.Directories` loop of `Open`; `idx` is the index of the head
of the list.  The three components are the reader, the entry and the error. -/
def OLEContext.Open.loop (MAX_SECTORS : Nat) (self : OLEContext) (name : String) :
    List DirectoryEntry → Nat → Outcome (Option Stream × Option DirectoryEntry × Option Error)
  | [], _ => .ret (none, none, some .notFound)
  | d :: rest, idx =>
    if name = d.Name then
      match self.OpenDirectoryStream MAX_SECTORS idx with
      | .panic => .panic
      | .timeout => .timeout
      | .ret (.error err) => .ret (none, some d, some err)
      | .ret (.ok (reader, _)) => .ret (some reader, some d, none)
    else
      OLEContext.Open.loop MAX_SECTORS self name rest (idx + 1)

/-- The method `Open`. -/
def OLEContext.Open (MAX_SECTORS : Nat) (self : OLEContext) (name : String) :
    Outcome (Option Stream × Option DirectoryEntry × Option Error) :=
  OLEContext.Open.loop MAX_SECTORS self name self.Directories 0

/-- The `range self.Directories` loop of `Stat`. -/
def OLEContext.Stat.loop (name : String) : List DirectoryEntry → Except Error DirectoryEntry
  | [] => .error .notFound
  | d :: rest => if name = d.Name then .ok d else OLEContext.Stat.loop name rest

/-- The method `Stat`. -/
def OLEContext.Stat (self : OLEContext) (name : String) : Except Error DirectoryEntry :=
  OLEContext.Stat.loop name self.Directories

/-- The expression `1 << shift` evaluated in `int64` for an unsigned shift count. -/
def shl64 (shift : Nat) : Int := if shift < 64 then wrap64 (2 ^ shift) else 0

/-- The header stage of `GetOLEContext` (up to and including the `switch` on
the sector size): the context as it stands before the tables are loaded, or
the error with which `GetOLEContext` returns `nil`. -/
def GetOLEContext.header (reader : ReaderAt) (header : CFHeader) : Except Error OLEContext :=
  if header.Signature ≠ 0xe11ab1a1e011cfd0 then
    .error .invalidSignature
  else
    let MiniSectorCutoff := header.MiniSectorCutoff
    let MiniSectorSize := shl64 header.MiniSectorShift
    if MiniSectorSize ≠ 64 then
      .error (.invalidMiniSectorSize MiniSectorSize)
    else if MiniSectorCutoff ≠ 4096 then
      .error (.invalidMiniSectorCutoff MiniSectorCutoff)
    else
      let self : OLEContext := {
        Reader := reader
        Header := header
        SectorSize := 0
        MiniSectorCutoff := MiniSectorCutoff
        MiniSectorSize := MiniSectorSize
        FatSectors := []
        Fat := []
        MiniFat := []
        Directories := []
        Ministream := none }
      if header.SectorSize = 0x9 then
        .ok { self with SectorSize := 512 }
      else if header.SectorSize = 0xc then
        .ok { self with SectorSize := 4096 }
      else
        .error .sectorSizeInvalid

/-! ## Loading the tables (`context.go`) -/

/-- Reduction of a natural number to the range of `uint32`. -/
def wrap32 (x : Nat) : Nat := x % 4294967296

/-- The error `io.ErrUnexpectedEOF` of the standard library, which the package
only passes on. -/
def ErrUnexpectedEOF : Error := .io 1

/-- The error with which `bytes.Reader.ReadAt` refuses a negative offset. -/
def ErrNegativeOffset : Error := .io 2

/-- The `i`-th little-endian 32-bit value of a byte slice. -/
def le32 (data : List Nat) (i : Nat) : Nat :=
  data.getD (4 * i) 0 % 256 + 256 * (data.getD (4 * i + 1) 0 % 256) +
    65536 * (data.getD (4 * i + 2) 0 % 256) + 16777216 * (data.getD (4 * i + 3) 0 % 256)

/-- The call `binary.Read(r, binary.LittleEndian, values)` of the standard
library for a slice `values` of `count` `uint32` and a reader over `data`: the
decoded values, or the error of `io.ReadFull` when `data` is too short. -/
def binaryRead (count : Nat) (data : List Nat) : Except Error (List Nat) :=
  if data.length < 4 * count then
    if data.length = 0 then .error .EOF else .error ErrUnexpectedEOF
  else
    .ok ((List.range count).map (fun (i : Nat) => le32 data i))

/-- The offset `int64(self.SectorSize*(sector+1))` of `ReadSector`: sum and
product are taken in `uint32`, the type of both operands, and converted after. -/
def OLEContext.ReadSector.offset (self : OLEContext) (sector : Nat) : Int :=
  (wrap32 (self.SectorSize * wrap32 (sector + 1)) : Nat)

/-- The method `ReadSector`: the slice `buf[:n]` and the error. -/
def OLEContext.ReadSector (self : OLEContext) (sector : Nat) : List Nat × Option Error :=
  let got := self.Reader self.SectorSize (OLEContext.ReadSector.offset self sector)
  (got.1.take self.SectorSize, got.2)

/-- The variables of the loop of `loadDIFSectors`: the context (whose
`FatSectors` grows), the current sector, the keys of the map `seen` in the
order in which they were stored, and the sectors handed to `ReadSector` so far. -/
structure DIFState where
  self : OLEContext
  sector : Nat
  seen : List Nat
  reads : List Nat

/-- What `loadDIFSectors` leaves behind: the context, the error it returns, and
the final `seen` and `reads`. -/
structure DIFResult where
  self : OLEContext
  err : Option Error
  seen : List Nat
  reads : List Nat

/-- What one round of the loop of `loadDIFSectors` does: it returns, it panics,
or it goes on with new values of the variables. -/
inductive DIFStep where
  | done (res : DIFResult)
  | panic
  | next (st : DIFState)

/-- The body of the loop of `loadDIFSectors`.  Indexing `dif_values` at
`len - 1` and slicing it at `len - 2` panic when the slice is too short. -/
def OLEContext.loadDIFSectors.body (MAX_SECTORS : Nat) (st : DIFState) : DIFStep :=
  let got := st.self.ReadSector st.sector
  let sector_data := got.1
  let reads := st.reads ++ [st.sector]
  if got.2 ≠ none ∨ sector_data.length < st.self.SectorSize then
    .done { self := st.self, err := got.2, seen := st.seen, reads := reads }
  else
    match binaryRead (st.self.SectorSize / 4) sector_data with
    | .error err => .done { self := st.self, err := some err, seen := st.seen, reads := reads }
    | .ok dif_values =>
      match dif_values[dif_values.length - 1]? with
      | none => .panic
      | some next =>
        if dif_values.length < 2 then
          .panic
        else
          let self := { st.self with
            FatSectors := st.self.FatSectors ++
              (dif_values.take (dif_values.length - 2)).filter (fun value => value ≠ FREESECT) }
          if st.seen.contains next ∨ st.seen.length > MAX_SECTORS then
            .done { self := self, err := some (.difLoop st.sector next), seen := st.seen,
                    reads := reads }
          else
            .next { self := self, sector := next, seen := st.seen ++ [next], reads := reads }

/-- The `for` loop of `loadDIFSectors`. -/
def OLEContext.loadDIFSectors.loop (MAX_SECTORS : Nat) : Nat → DIFState → Outcome DIFResult
  | 0, _ => .timeout
  | fuel + 1, st =>
    if st.sector ≠ FREESECT ∧ st.sector ≠ ENDOFCHAIN then
      match OLEContext.loadDIFSectors.body MAX_SECTORS st with
      | .done res => .ret res
      | .panic => .panic
      | .next st => OLEContext.loadDIFSectors.loop MAX_SECTORS fuel st
    else
      .ret { self := st.self, err := none, seen := st.seen, reads := st.reads }

/-- The method `loadDIFSectors`. -/
def OLEContext.loadDIFSectors (MAX_SECTORS : Nat) (self : OLEContext) : Outcome DIFResult :=
  OLEContext.loadDIFSectors.loop MAX_SECTORS (MAX_SECTORS + 3)
    { self := self, sector := self.Header.DIFATSectorLoc, seen := [], reads := [] }

/-- The `range self.FatSectors` loop of `loadFat`: the context and the error. -/
def OLEContext.loadFat.loop : List Nat → OLEContext → OLEContext × Option Error
  | [], self => (self, none)
  | fat_sect :: rest, self =>
    let got := self.ReadSector fat_sect
    match got.2 with
    | some err => (self, some err)
    | none =>
      match binaryRead (self.SectorSize / 4) got.1 with
      | .error err => (self, some err)
      | .ok sect_longs =>
        OLEContext.loadFat.loop rest { self with Fat := self.Fat ++ sect_longs }

/-- The method `loadFat`. -/
def OLEContext.loadFat (self : OLEContext) : OLEContext × Option Error :=
  OLEContext.loadFat.loop self.FatSectors self

/-- Modelled from the spec: the fields of a directory record as the generated
accessors of `DirectoryHeader` return them (the accessors are not among the
files at hand). -/
structure DirectoryHeader where
  Name : String
  TypeInt : Nat
  CreateTime : Nat
  ModifyTime : Nat
  SectorStart : Nat
  StreamSize : Nat
  deriving DecidableEq, Repr

/-- Modelled from the spec: the value of `dir.Size()`, the size of a directory
record: "fixed-size (128-byte) directory entries". -/
def DirectoryHeader.Size : Int := 128

/-- The conversion `int64(filetime)/10000000-11644473600` of `loadDirectories`
from a `uint64` FILETIME to Unix seconds. -/
def filetimeToUnix (filetime : Nat) : Int :=
  wrap64 (Int.tdiv (wrap64 filetime) 10000000 - 11644473600)

/-- The expression `strings.Split(name, "\x00")[0]`: the part of the name before
its first NUL. -/
def untilNul (name : String) : String :=
  String.mk (name.toList.takeWhile (fun c => c ≠ Char.ofNat 0))

/-- The directory entry that `loadDirectories` appends for a record. -/
def OLEContext.loadDirectories.entry (count : Nat) (dir : DirectoryHeader) : DirectoryEntry :=
  { Name := untilNul dir.Name
    Id := count
    Size := dir.StreamSize
    Ctime := filetimeToUnix dir.CreateTime
    Mtime := filetimeToUnix dir.ModifyTime
    Attribute := ""
    IsDir := dir.TypeInt = 1 ∨ dir.TypeInt = 5
    FirstSector := dir.SectorStart }

/-- The `for` loop of `loadDirectories`; `decode` is `self.Profile.DirectoryHeader`. -/
def OLEContext.loadDirectories.loop (decode : StreamReader → Int → DirectoryHeader)
    (dir_stream : StreamReader) :
    Nat → Int → Nat → List DirectoryEntry → Outcome (List DirectoryEntry)
  | 0, _, _, _ => .timeout
  | fuel + 1, offset, count, Directories =>
    if offset < dir_stream.Size then
      let dir := decode dir_stream offset
      OLEContext.loadDirectories.loop decode dir_stream fuel
        (wrap64 (offset + DirectoryHeader.Size)) (count + 1)
        (Directories ++ [OLEContext.loadDirectories.entry count dir])
    else
      .ret Directories

/-- The method `loadDirectories`: the context and the error. -/
def OLEContext.loadDirectories (MAX_SECTORS : Nat) (decode : StreamReader → Int → DirectoryHeader)
    (self : OLEContext) : Outcome (OLEContext × Option Error) :=
  match self.OpenStream MAX_SECTORS self.Header.DirectorySectorLoc with
  | .panic => .panic
  | .timeout => .timeout
  | .ret (.error err) => .ret (self, some err)
  | .ret (.ok dir_stream) =>
    match OLEContext.loadDirectories.loop decode dir_stream
        ((dir_stream.Size / DirectoryHeader.Size).toNat + 2) 0 0 [] with
    | .panic => .panic
    | .timeout => .timeout
    | .ret Directories => .ret ({ self with Directories := Directories }, none)

/-- The `for` loop of `loadMiniFat` over the sectors of the MiniFAT chain: the
MiniFAT collected.  A failing or empty read and a failing decoding end it. -/
def OLEContext.loadMiniFat.loop (self : OLEContext) (fat_stream : StreamReader) :
    Nat → Int → List Nat → List Nat → Outcome (List Nat)
  | 0, _, _, _ => .timeout
  | fuel + 1, offset, buffer, MiniFat =>
    if offset < fat_stream.Size then
      match fat_stream.ReadAt buffer offset with
      | .panic => .panic
      | .timeout => .timeout
      | .ret out =>
        if out.err ≠ none ∨ out.n = 0 then
          .ret MiniFat
        else
          match binaryRead (out.n / 4).toNat (out.buf.take out.n.toNat) with
          | .error _ => .ret MiniFat
          | .ok fats =>
            OLEContext.loadMiniFat.loop self fat_stream fuel
              (wrap64 (offset + (self.SectorSize : Int))) out.buf (MiniFat ++ fats)
    else
      .ret MiniFat

/-- The part of `loadMiniFat` that builds the mini stream: the stream of the
chain of directory entry 0, cut down to the declared size when that is positive. -/
def OLEContext.loadMiniFat.ministream (MAX_SECTORS : Nat) (self : OLEContext) :
    Outcome (Except Error StreamReader) :=
  match self.GetDirentry 0 with
  | .panic => .panic
  | .timeout => .timeout
  | .ret (.error err) => .ret (.error err)
  | .ret (.ok dir_entry) =>
    match self.OpenStream MAX_SECTORS dir_entry.FirstSector with
    | .panic => .panic
    | .timeout => .timeout
    | .ret (.error err) => .ret (.error err)
    | .ret (.ok ministream) =>
      if dir_entry.Size > 0 ∧ dir_entry.Size < toUint64 ministream.Size then
        .ret (.ok { ministream with Size := wrap64 dir_entry.Size })
      else
        .ret (.ok ministream)

/-- The method `loadMiniFat`: the context and the error. -/
def OLEContext.loadMiniFat (MAX_SECTORS : Nat) (self : OLEContext) :
    Outcome (OLEContext × Option Error) :=
  match OLEContext.loadMiniFat.ministream MAX_SECTORS self with
  | .panic => .panic
  | .timeout => .timeout
  | .ret (.error err) => .ret (self, some err)
  | .ret (.ok ministream) =>
    let self := { self with Ministream := some ministream }
    match self.OpenStream MAX_SECTORS self.Header.MiniFATSectorLoc with
    | .panic => .panic
    | .timeout => .timeout
    | .ret (.error err) => .ret (self, some err)
    | .ret (.ok fat_stream) =>
      let buffer := List.replicate self.SectorSize 0
      match OLEContext.loadMiniFat.loop self fat_stream (fat_stream.Sectors.length + 2) 0
          buffer self.MiniFat with
      | .panic => .panic
      | .timeout => .timeout
      | .ret MiniFat => .ret ({ self with MiniFat := MiniFat }, none)

/-- The context of `GetOLEContext` after the loop over the inline DIFAT entries
of the header. -/
def GetOLEContext.inline (self : OLEContext) : OLEContext :=
  { self with
    FatSectors := self.FatSectors ++ self.Header.InitialDIFATs.filter (fun e => e ≠ FREESECT) }

/-- The steps of `GetOLEContext` after `loadDIFSectors`: `loadFat`,
`loadDirectories` and `loadMiniFat`, each of which can fail. -/
def GetOLEContext.tables (MAX_SECTORS : Nat) (decode : StreamReader → Int → DirectoryHeader)
    (self : OLEContext) : Outcome (Except Error OLEContext) :=
  match self.loadFat with
  | (_, some err) => .ret (.error err)
  | (self, none) =>
    match self.loadDirectories MAX_SECTORS decode with
    | .panic => .panic
    | .timeout => .timeout
    | .ret (_, some err) => .ret (.error err)
    | .ret (self, none) =>
      match self.loadMiniFat MAX_SECTORS with
      | .panic => .panic
      | .timeout => .timeout
      | .ret (_, some err) => .ret (.error err)
      | .ret (self, none) => .ret (.ok self)

/-- The function `GetOLEContext`; `header` is what `profile.CFHeader(reader, 0)`
decodes and `decode` is `profile.DirectoryHeader`. -/
def GetOLEContext (MAX_SECTORS : Nat) (decode : StreamReader → Int → DirectoryHeader)
    (reader : ReaderAt) (header : CFHeader) : Outcome (Except Error OLEContext) :=
  match GetOLEContext.header reader header with
  | .error err => .ret (.error err)
  | .ok self =>
    match (GetOLEContext.inline self).loadDIFSectors MAX_SECTORS with
    | .panic => .panic
    | .timeout => .timeout
    | .ret res =>
      match res.err with
      | some err => .ret (.error err)
      | none => GetOLEContext.tables MAX_SECTORS decode res.self

/-! ## The readers handed out (`readers.go` and `bytes.Reader`) -/

/-- The method `ReadAt` of `bytes.Reader` of the standard library over the bytes
`s`: a negative offset is refused, an offset at or behind the end gives
end-of-stream, otherwise the bytes from `off` on are copied into the buffer,
with end-of-stream when they do not fill it. -/
def bytesReaderReadAt (s : List Nat) (buff : List Nat) (off : Int) : ReadOut :=
  if off < 0 then
    { n := 0, err := some ErrNegativeOffset, buf := buff, reads := [] }
  else if off ≥ s.length then
    { n := 0, err := some .EOF, buf := buff, reads := [] }
  else
    let data := (s.drop off.toNat).take buff.length
    { n := data.length
      err := if data.length < buff.length then some .EOF else none
      buf := data ++ buff.drop data.length
      reads := [] }

/-- The method `ReadAt` of the reader returned by `OpenDirectoryStream`: the one
of `bytes.Reader`, or the one of the `StreamReader` embedded in the `ReadAdapter`. -/
def Stream.ReadAt : Stream → List Nat → Int → Outcome ReadOut
  | .bytesReader res, buff, off => .ret (bytesReaderReadAt res buff off)
  | .readAdapter res, buff, off => res.ReadAt buff off

/-! ## Definitions used to state the properties -/

/-- Successor of a sector in the FAT (0 outside the table). -/
def OLEContext.next (self : OLEContext) (s : Nat) : Nat := self.Fat.getD s 0

/-- Renaming of the two FAT errors into the MiniFAT errors. -/
def toMiniError : Outcome (List Nat × Option Error) → Outcome (List Nat × Option Error)
  | .ret (res, some (.fatReferenceExceeded r)) => .ret (res, some (.miniFatReferenceExceeded r))
  | .ret (res, some (.fatCycle r)) => .ret (res, some (.miniFatCycle r))
  | o => o

/-- What `Open` returns for the entry `d` it stopped at, given the outcome of
`OpenDirectoryStream` for the index of `d`: the reader and the error of that
call, together with `d`. -/
def withEntry (d : DirectoryEntry) :
    Outcome (Except Error (Stream × Int)) →
      Outcome (Option Stream × Option DirectoryEntry × Option Error)
  | .panic => .panic
  | .timeout => .timeout
  | .ret (.error err) => .ret (none, some d, some err)
  | .ret (.ok (reader, _)) => .ret (some reader, some d, none)

/-- A byte source that holds the byte `src o` at every `int64` offset `o` and
whose reads always fill the slice they are given: a read of `k` bytes at offset
`o` returns the bytes at the offsets `o, o + 1, ..., o + k - 1` and no error. -/
def fullReader (src : Int → Nat) : ReaderAt :=
  fun k o => ((List.range k).map (fun (i : Nat) => src (wrap64 (o + (i : Int)))), none)

/-- Offset in the underlying byte source of the byte at the logical position `p`
of the stream: `ReaderOffset + SectorSize * Sectors[p / SectorSize] + p % SectorSize`,
an `int64` as every offset handed to an `io.ReaderAt`. -/
def StreamReader.physical (self : StreamReader) (p : Int) : Int :=
  wrap64 (self.ReaderOffset + self.SectorSize * (self.Sectors.getD (p / self.SectorSize).toNat 0 : Nat)
    + p % self.SectorSize)

/-- The `n` logical bytes of the stream from the logical position `off` on, over
the byte source `src`. -/
def StreamReader.logicalBytes (self : StreamReader) (src : Int → Nat) (off : Int) (n : Nat) :
    List Nat :=
  (List.range n).map (fun (j : Nat) => src (self.physical (off + (j : Int))))

/-- The bytes a call `ReadAt(buff, off)` returns: the first `n` bytes of the
buffer after the call. -/
def readBytes (r : StreamReader) (buff : List Nat) (off : Int) : Outcome (List Nat) :=
  match r.ReadAt buff off with
  | .ret out => .ret (out.buf.take out.n.toNat)
  | .panic => .panic
  | .timeout => .timeout

/-- Reading a stream in chunks: one `ReadAt` per buffer of the list, each at the
offset at which the previous chunk ended, the first at `off`; the result is the
concatenation of the bytes returned by the calls. -/
def readChunks (r : StreamReader) : Int → List (List Nat) → Outcome (List Nat)
  | _, [] => .ret []
  | off, buff :: rest =>
    match readBytes r buff off with
    | .ret bytes =>
      match readChunks r (off + (buff.length : Int)) rest with
      | .ret more => .ret (bytes ++ more)
      | .panic => .panic
      | .timeout => .timeout
    | .panic => .panic
    | .timeout => .timeout

/-! ## Sample inputs -/

/-- A byte source without content: every read returns no byte and no error. -/
def emptyReader : ReaderAt := fun _ _ => ([], none)

/-- A byte source that is filled everywhere: the byte at offset `o` is `o mod 256`,
and every read fills the slice it is given. -/
def patternReader : ReaderAt :=
  fun k o => ((List.range k).map (fun (i : Nat) => ((o + (i : Int)) % 256).toNat), none)

/-- A header with the accepted signature and sizes and no sectors. -/
def sampleHeader : CFHeader :=
  { Signature := 0xe11ab1a1e011cfd0, SectorSize := 9, MiniSectorShift := 6,
    MiniSectorCutoff := 4096, DirectorySectorLoc := ENDOFCHAIN,
    MiniFATSectorLoc := ENDOFCHAIN, DIFATSectorLoc := ENDOFCHAIN, InitialDIFATs := [] }

/-- A context with 512-byte sectors and empty tables. -/
def emptyContext : OLEContext :=
  { Reader := emptyReader, Header := sampleHeader, SectorSize := 512, MiniSectorCutoff := 4096,
    MiniSectorSize := 64, FatSectors := [], Fat := [], MiniFat := [], Directories := [],
    Ministream := none }

/-- A table in which sector 5 is its own successor: `FAT[5] = 5`. -/
def selfLoopTable : List Nat :=
  [ENDOFCHAIN, ENDOFCHAIN, ENDOFCHAIN, ENDOFCHAIN, ENDOFCHAIN, 5]

/-- A table in which sectors 3 and 4 point at each other: `FAT[3] = 4`, `FAT[4] = 3`. -/
def twoCycleTable : List Nat := [ENDOFCHAIN, ENDOFCHAIN, ENDOFCHAIN, 4, 3]

/-- The context `emptyContext` with the FAT `FAT[5] = 5`. -/
def selfLoopContext : OLEContext := { emptyContext with Fat := selfLoopTable }

/-- The context `emptyContext` with the FAT `FAT[3] = 4`, `FAT[4] = 3`. -/
def twoCycleContext : OLEContext := { emptyContext with Fat := twoCycleTable }

/-- The context `emptyContext` with the MiniFAT `MiniFAT[5] = 5`. -/
def miniSelfLoopContext : OLEContext := { emptyContext with MiniFat := selfLoopTable }

/-- The context `emptyContext` with the MiniFAT `MiniFAT[3] = 4`, `MiniFAT[4] = 3`. -/
def miniTwoCycleContext : OLEContext := { emptyContext with MiniFat := twoCycleTable }

/-- A directory entry with the given name, id, size and first sector. -/
def sampleEntry (name : String) (id : Int) (size first : Nat) : DirectoryEntry :=
  { Name := name, Id := id, Size := size, Mtime := 0, Ctime := 0, Attribute := "",
    IsDir := false, FirstSector := first }

/-- The mini stream of `sampleContext`: 128 bytes in sector 10. -/
def sampleMinistream : StreamReader :=
  { Reader := patternReader, Size := 128, ReaderOffset := 512, Sectors := [10],
    SectorSize := 512 }

/-- A context with 512-byte sectors: a stream of 5000 bytes in the ten sectors
`0 .. 9`, the mini stream (128 bytes) in sector 10, whose two 64-byte mini
sectors hold the small stream "Small" of 128 bytes. -/
def sampleContext : OLEContext :=
  { Reader := patternReader, Header := sampleHeader, SectorSize := 512,
    MiniSectorCutoff := 4096, MiniSectorSize := 64, FatSectors := [],
    Fat := [1, 2, 3, 4, 5, 6, 7, 8, 9, ENDOFCHAIN, ENDOFCHAIN],
    MiniFat := [1, ENDOFCHAIN],
    Directories := [
      { (sampleEntry "Root Entry" 0 128 10) with IsDir := true },
      sampleEntry "Small" 1 128 0,
      sampleEntry "Big" 2 5000 0,
      sampleEntry "Small" 3 64 1 ],
    Ministream := some sampleMinistream }

/-- The stream of the spec's scenario: 2000 bytes in the four 512-byte sectors
`[4, 5, 6, 7]` of a byte source whose byte at offset `o` is `o mod 256`. -/
def sampleStream : StreamReader :=
  { Reader := fullReader (fun o => (o % 256).toNat), Size := 2000, ReaderOffset := 512,
    Sectors := [4, 5, 6, 7], SectorSize := 512 }

/-- A stream reader whose `SectorSize` is zero (the zero value of the struct). -/
def zeroSectorSizeReader : StreamReader :=
  { Reader := emptyReader, Size := 0, ReaderOffset := 0, Sectors := [], SectorSize := 0 }

/-- A stream reader with `SectorSize` zero over a byte source whose reads fill
the slice: no sectors, size 0. -/
def zeroSectorSizeStream : StreamReader :=
  { Reader := fullReader (fun _ => 0), Size := 0, ReaderOffset := 0, Sectors := [],
    SectorSize := 0 }

/-! ## Further definitions used to state the properties -/

/-- The value of `to_read` in a round of the loop of `ReadAt`, for a buffer of
`len` bytes. -/
def StreamReader.ReadAt.toRead (self : StreamReader) (off cso : Int) (cbo len : Nat) : Int :=
  let available_in_file := wrap64 (self.Size - wrap64 (off + cbo))
  let available_in_sector := wrap64 (self.SectorSize - cso)
  let available_in_buffer : Int := len - cbo
  let to_read := available_in_sector
  let to_read := if to_read > available_in_buffer then available_in_buffer else to_read
  if to_read > available_in_file then available_in_file else to_read

/-- The offset at which a round of the loop of `ReadAt` reads sector `s`. -/
def StreamReader.ReadAt.pos (self : StreamReader) (s : Nat) (cso : Int) : Int :=
  wrap64 (wrap64 (self.ReaderOffset + wrap64 (self.SectorSize * s)) + cso)

/-- The bytes that the underlying read of a round of the loop of `ReadAt` stores. -/
def StreamReader.ReadAt.data (self : StreamReader) (t : Int) (pos : Int) : List Nat :=
  (self.Reader t.toNat pos).1.take t.toNat

/-- What a caller of `ReadAt` can see of its result: `n`, the error, the bytes
`buf[:n]` and the reads issued. -/
def ReadOut.observed (out : ReadOut) : Int × Option Error × List Nat × List (Nat × Int) :=
  (out.n, out.err, out.buf.take out.n.toNat, out.reads)

/-- Applies a function to the value a call returned. -/
def Outcome.map {α β : Type} (f : α → β) : Outcome α → Outcome β
  | .ret a => .ret (f a)
  | .panic => .panic
  | .timeout => .timeout

/-- The slice `[64 * m, 64 * m + 64)` of the mini stream `ms`: the bytes that a
read of 64 bytes at offset `64 * m` returns (none when the read does not return). -/
def miniSlice (ms : StreamReader) (m : Nat) : List Nat :=
  match readBytes ms (List.replicate 64 0) (64 * (m : Int)) with
  | .ret bytes => bytes
  | .panic => []
  | .timeout => []

/-- A context whose only directory entry declares 100 bytes and has no mini
sector at all (`FirstSector = ENDOFCHAIN`). -/
def declaredOnlyContext : OLEContext :=
  { emptyContext with Directories := [sampleEntry "Stream" 0 100 ENDOFCHAIN] }

/-- A context whose root entry declares size 0 and starts at sector 0, a chain
of one sector. -/
def zeroRootContext : OLEContext :=
  { emptyContext with Fat := [ENDOFCHAIN], Directories := [sampleEntry "Root Entry" 0 0 0] }

/-- A context whose only directory entry has size 0 and a first sector beyond
the (empty) MiniFAT. -/
def strayEmptyContext : OLEContext :=
  { emptyContext with Directories := [sampleEntry "Empty" 0 0 5] }

/-- A context whose root entry is empty: size 0 and no mini sector
(`FirstSector = ENDOFCHAIN`), as in a minimal file with an empty mini stream. -/
def emptyRootContext : OLEContext :=
  { emptyContext with
    Fat := [ENDOFCHAIN]
    Directories := [{ (sampleEntry "Root Entry" 0 0 ENDOFCHAIN) with IsDir := true }] }

/-- The decoded 32-bit values that `loadDIFSectors` gets for a DIFAT sector:
those of the bytes that `ReadSector` returns (none when they do not decode). -/
def OLEContext.difValues (self : OLEContext) (sector : Nat) : List Nat :=
  match binaryRead (self.SectorSize / 4) (self.ReadSector sector).1 with
  | .ok values => values
  | .error _ => []

/-- The link that `loadDIFSectors` gets for a DIFAT sector: the value at
position `SectorSize / 4 - 1` of what `ReadSector` returns. -/
def OLEContext.difLink (self : OLEContext) (sector : Nat) : Nat :=
  (self.difValues sector).getD (self.SectorSize / 4 - 1) 0

/-- The FAT sectors that `loadDIFSectors` appends for a DIFAT sector: the
values other than `FREESECT` at the positions `[0, SectorSize / 4 - 2)` of what
`ReadSector` returns, in order. -/
def OLEContext.difEntries (self : OLEContext) (sector : Nat) : List Nat :=
  ((self.difValues sector).take (self.SectorSize / 4 - 2)).filter (fun value => value ≠ FREESECT)

/-- The sector is read in full: `ReadSector` returns `SectorSize` bytes and no error. -/
def OLEContext.readsInFull (self : OLEContext) (sector : Nat) : Prop :=
  (self.ReadSector sector).2 = none ∧ (self.ReadSector sector).1.length = self.SectorSize

/-- The DIFAT sectors `ds` are the chain from `start` up to (not including) `stop`:
each is a sector id other than the sentinels, is read in full and links to the
next one, the last to `stop`. -/
def OLEContext.difChain (self : OLEContext) : Nat → List Nat → Nat → Prop
  | start, [], stop => start = stop
  | start, d :: ds, stop =>
    start = d ∧ d ≠ FREESECT ∧ d ≠ ENDOFCHAIN ∧ self.readsInFull d ∧
      OLEContext.difChain self (self.difLink d) ds stop

/-- The observable part of the result of `loadDIFSectors`: the error, the list
`FatSectors`, and the sectors read. -/
def DIFResult.observed (res : DIFResult) : Option Error × List Nat × List Nat :=
  (res.err, res.self.FatSectors, res.reads)

/-- A byte source with a single DIFAT sector, sector 0 of 512 bytes, all of
whose entries are `FREESECT` and whose link is 0, the sector itself. -/
def selfLinkedReader : ReaderAt :=
  fun k o => ((List.range k).map
    (fun (i : Nat) => if 1020 ≤ o + (i : Int) ∧ o + (i : Int) < 1024 then 0 else 255), none)

/-- A context with 512-byte sectors whose DIFAT starts at sector 0 over
`selfLinkedReader`. -/
def selfLinkedContext : OLEContext :=
  { emptyContext with
    Reader := selfLinkedReader
    Header := { sampleHeader with DIFATSectorLoc := 0 } }

/-- A byte source with a single DIFAT sector, sector 0 of 512 bytes: its entry 0
is 7, its entry 126 (the one before the link) is 9, its link (entry 127) is
`ENDOFCHAIN`, and all other entries are `FREESECT`. -/
def singleDifReader : ReaderAt :=
  fun k o => ((List.range k).map
    (fun (i : Nat) =>
      if o + (i : Int) = 512 then 7
      else if 513 ≤ o + (i : Int) ∧ o + (i : Int) < 516 then 0
      else if o + (i : Int) = 1016 then 9
      else if 1017 ≤ o + (i : Int) ∧ o + (i : Int) < 1020 then 0
      else if o + (i : Int) = 1020 then 254
      else 255), none)

/-- A header with 512-byte sectors whose DIFAT starts at sector 0 and whose
inline DIFAT entries are 3, `FREESECT` and 4. -/
def singleDifHeader : CFHeader :=
  { sampleHeader with DIFATSectorLoc := 0, InitialDIFATs := [3, FREESECT, 4] }

/-- The context that the header stage of `GetOLEContext` builds from
`singleDifReader` and `singleDifHeader`. -/
def singleDifContext : OLEContext :=
  { emptyContext with Reader := singleDifReader, Header := singleDifHeader }

/-- A byte source for a file of 1000 bytes, all of them 255: a read gives the
bytes of the file from the offset on, and `io.EOF` when they do not fill the slice. -/
def truncatedReader : ReaderAt :=
  fun k o =>
    (List.replicate (min k (1000 - o).toNat) 255,
      if min k (1000 - o).toNat < k then some .EOF else none)

/-- A header with 512-byte sectors whose DIFAT starts at sector 0. -/
def difAtZeroHeader : CFHeader := { sampleHeader with DIFATSectorLoc := 0 }

/-- The context that the header stage of `GetOLEContext` builds from
`truncatedReader` and `difAtZeroHeader`. -/
def truncatedContext : OLEContext :=
  { emptyContext with Reader := truncatedReader, Header := difAtZeroHeader }

/-- The context that the header stage of `GetOLEContext` builds from
`emptyReader` and `difAtZeroHeader`. -/
def shortReadContext : OLEContext :=
  { emptyContext with Reader := emptyReader, Header := difAtZeroHeader }

/-- A decoder of directory records that gives an empty record everywhere. -/
def emptyDecode : StreamReader → Int → DirectoryHeader :=
  fun _ _ =>
    { Name := "", TypeInt := 0, CreateTime := 0, ModifyTime := 0, SectorStart := 0,
      StreamSize := 0 }

/-- The bytes of sector `d` as the format lays the file out: what the byte
source holds in the `SectorSize` bytes at the file offset
`(d + 1) * SectorSize`, the product taken exactly. -/
def OLEContext.sectorBytes (self : OLEContext) (d : Nat) : List Nat :=
  (self.Reader self.SectorSize (((d + 1) * self.SectorSize : Nat) : Int)).1.take
    self.SectorSize

/-- The FAT sectors that sector `d` of the file names as a DIFAT sector: the
little-endian values other than `FREESECT` at the positions
`[0, SectorSize / 4 - 2)` of its bytes, in order. -/
def OLEContext.sectorEntries (self : OLEContext) (d : Nat) : List Nat :=
  ((List.range (self.SectorSize / 4 - 2)).map
    (fun (i : Nat) => le32 (self.sectorBytes d) i)).filter (fun value => value ≠ FREESECT)

/-- The link that sector `d` of the file holds as a DIFAT sector: the
little-endian value at the position `SectorSize / 4 - 1` of its bytes. -/
def OLEContext.sectorLink (self : OLEContext) (d : Nat) : Nat :=
  le32 (self.sectorBytes d) (self.SectorSize / 4 - 1)

theorem getChain_loop_steps (M : Nat) (self : OLEContext) (n : Nat) :
    ∀ (fuel sector : Nat) (res : List Nat),
      (∀ k, k < n → self.next^[k] sector ≠ ENDOFCHAIN ∧ self.next^[k] sector < self.Fat.length) →
      res.length + n ≤ M →
      OLEContext.getChain.loop M self [] (fuel + n) sector res =
        OLEContext.getChain.loop M self [] fuel (self.next^[n] sector)
          (res ++ (List.range n).map (fun k => self.next^[k] sector)) := by
  induction n with
  | zero => intro fuel sector res _ _; simp
  | succ n ih =>
    intro fuel sector res hk hlen
    have h0 := hk 0 (Nat.succ_pos n)
    simp only [Function.iterate_zero, id_eq] at h0
    have hnext : self.Fat[sector]? = some (self.next sector) := by
      simp [OLEContext.next, List.getD, List.getElem?_eq_getElem h0.2]
    have hfuel : fuel + (n + 1) = (fuel + n) + 1 := by omega
    rw [hfuel, OLEContext.getChain.loop]
    have hnot : ¬ sector > self.Fat.length := by omega
    have hlen2 : ¬ (res ++ [sector]).length > M := by simp; omega
    simp only [ne_eq, h0.1, not_false_eq_true, if_true, hnot, if_false, hnext, hlen2,
      List.contains_nil, Bool.false_eq_true]
    rw [ih fuel (self.next sector) (res ++ [sector])]
    · congr 1
      rw [List.range_succ_eq_map]
      simp [List.map_map, Function.comp_def, Function.iterate_succ_apply]
    · intro k hk2
      have := hk (k + 1) (by omega)
      simpa [Function.iterate_succ_apply] using this
    · simp; omega

/-- The round of the loop in which the cap is passed: the sector is appended and
the walk ends without error. -/
theorem getChain_loop_cap (M : Nat) (self : OLEContext) (fuel sector : Nat) (res : List Nat)
    (h1 : sector ≠ ENDOFCHAIN) (h2 : sector < self.Fat.length) (hlen : res.length = M) :
    OLEContext.getChain.loop M self [] (fuel + 1) sector res = .ret (res ++ [sector], none) := by
  have hnext : self.Fat[sector]? = some (self.next sector) := by
    simp [OLEContext.next, List.getD, List.getElem?_eq_getElem h2]
  have hnot : ¬ sector > self.Fat.length := by omega
  have hlen2 : (res ++ [sector]).length > M := by simp; omega
  rw [OLEContext.getChain.loop]
  simp only [ne_eq, h1, not_false_eq_true, if_true, hnot, if_false, hnext, hlen2,
    List.contains_nil, Bool.false_eq_true]

/-- A walk that meets neither `ENDOFCHAIN` nor the end of the table in its first
`M + 1` sectors returns exactly these sectors, without error. -/
theorem getChain_of_unending (M : Nat) (self : OLEContext) (start : Nat)
    (h : ∀ k, k ≤ M → self.next^[k] start ≠ ENDOFCHAIN ∧ self.next^[k] start < self.Fat.length) :
    self.getChain M start = .ret ((List.range (M + 1)).map (fun k => self.next^[k] start), none) := by
  have hsteps := getChain_loop_steps M self M 2 start []
    (fun k hk => h k (Nat.le_of_lt hk)) (by simp)
  have hfuel : M + 2 = 2 + M := by omega
  rw [OLEContext.getChain, hfuel, hsteps]
  have hcap := getChain_loop_cap M self 1 (self.next^[M] start)
    ([] ++ (List.range M).map (fun k => self.next^[k] start)) (h M le_rfl).1 (h M le_rfl).2 (by simp)
  rw [hcap, List.range_succ]
  simp

/-- The walk over the MiniFAT is the walk over the FAT of the context whose FAT
is the MiniFAT, up to the names of the errors. -/
theorem getMiniChain_loop_eq (M : Nat) (self : OLEContext) (seen : List Nat) :
    ∀ (fuel sector : Nat) (res : List Nat),
      OLEContext.getMiniChain.loop M self seen fuel sector res =
        toMiniError (OLEContext.getChain.loop M { self with Fat := self.MiniFat } seen fuel sector res) := by
  intro fuel
  induction fuel with
  | zero => intro sector res; simp [OLEContext.getMiniChain.loop, OLEContext.getChain.loop, toMiniError]
  | succ fuel ih =>
    intro sector res
    rw [OLEContext.getMiniChain.loop, OLEContext.getChain.loop]
    by_cases h1 : sector = ENDOFCHAIN
    · simp [h1, toMiniError]
    · by_cases h2 : sector > self.MiniFat.length
      · simp [h1, h2, toMiniError]
      · simp only [ne_eq, h1, not_false_eq_true, if_true, h2, if_false]
        cases hn : self.MiniFat[sector]? with
        | none => simp [toMiniError]
        | some next =>
          by_cases h3 : next ∈ seen
          · simp [h3, toMiniError]
          · by_cases h4 : M < res.length + 1
            · simp [h3, h4, toMiniError]
            · simp [h3, h4, ih]

theorem getMiniChain_eq (M : Nat) (self : OLEContext) (start : Nat) :
    self.getMiniChain M start =
      toMiniError (OLEContext.getChain M { self with Fat := self.MiniFat } start) := by
  simp [OLEContext.getMiniChain, OLEContext.getChain, getMiniChain_loop_eq]

/-- The only error a walk over the FAT returns is the reference error, and the
walk never runs out of fuel when it is given two rounds more than the cap. -/
theorem getChain_loop_result (M : Nat) (self : OLEContext) :
    ∀ (fuel sector : Nat) (res : List Nat), res.length ≤ M → M + 2 ≤ fuel + res.length →
      OLEContext.getChain.loop M self [] fuel sector res = .panic ∨
      (∃ chain, OLEContext.getChain.loop M self [] fuel sector res = .ret (chain, none)) ∨
      (∃ chain, OLEContext.getChain.loop M self [] fuel sector res =
        .ret (chain, some (.fatReferenceExceeded chain))) := by
  intro fuel
  induction fuel with
  | zero => intro sector res hl hf; omega
  | succ fuel ih =>
    intro sector res hl hf
    rw [OLEContext.getChain.loop]
    by_cases h1 : sector = ENDOFCHAIN
    · simp [h1]
    · by_cases h2 : sector > self.Fat.length
      · simp [h1, h2]
      · simp only [ne_eq, h1, not_false_eq_true, if_true, h2, if_false]
        cases hn : self.Fat[sector]? with
        | none => simp
        | some next =>
          by_cases h4 : M < res.length + 1
          · simp [h4]
          · simp only [List.contains_nil, Bool.false_eq_true, if_false, List.length_append,
              List.length_singleton, gt_iff_lt, h4]
            exact ih next (res ++ [sector]) (by simp; omega) (by simp; omega)

theorem getChain_result (M : Nat) (self : OLEContext) (start : Nat) :
    self.getChain M start = .panic ∨
    (∃ chain, self.getChain M start = .ret (chain, none)) ∨
    (∃ chain, self.getChain M start = .ret (chain, some (.fatReferenceExceeded chain))) :=
  getChain_loop_result M self (M + 2) start [] (by simp) (by simp)

theorem getMiniChain_result (M : Nat) (self : OLEContext) (start : Nat) :
    self.getMiniChain M start = .panic ∨
    (∃ chain, self.getMiniChain M start = .ret (chain, none)) ∨
    (∃ chain, self.getMiniChain M start = .ret (chain, some (.miniFatReferenceExceeded chain))) := by
  rw [getMiniChain_eq]
  rcases getChain_result M { self with Fat := self.MiniFat } start with h | ⟨c, h⟩ | ⟨c, h⟩
  · left; rw [h]; rfl
  · right; left; exact ⟨c, by rw [h]; rfl⟩
  · right; right; exact ⟨c, by rw [h]; rfl⟩

/-! ## Chain walks: what the code does on cyclic and on out-of-range tables -/

theorem next_iterate_selfLoop (self : OLEContext) (h : self.Fat = selfLoopTable) (k : Nat) :
    self.next^[k] 5 = 5 := by
  induction k with
  | zero => rfl
  | succ k ih =>
    rw [Function.iterate_succ_apply', ih]
    simp [OLEContext.next, h, selfLoopTable]

theorem next_iterate_twoCycle (self : OLEContext) (h : self.Fat = twoCycleTable) (k : Nat) :
    self.next^[2 * k] 3 = 3 ∧ self.next^[2 * k + 1] 3 = 4 := by
  induction k with
  | zero => simp [OLEContext.next, h, twoCycleTable]
  | succ k ih =>
    have e1 : 2 * (k + 1) = (2 * k + 1) + 1 := by omega
    have e2 : 2 * (k + 1) + 1 = (2 * k + 1 + 1) + 1 := by omega
    have h3 : self.next^[2 * k + 1 + 1] 3 = 3 := by
      rw [Function.iterate_succ_apply', ih.2]; simp [OLEContext.next, h, twoCycleTable]
    refine ⟨by rw [e1]; exact h3, ?_⟩
    rw [e2, Function.iterate_succ_apply', h3]; simp [OLEContext.next, h, twoCycleTable]

theorem next_iterate_twoCycle_mem (self : OLEContext) (h : self.Fat = twoCycleTable) (k : Nat) :
    self.next^[k] 3 = 3 ∨ self.next^[k] 3 = 4 := by
  rcases Nat.even_or_odd' k with ⟨m, hm | hm⟩
  · left; rw [hm]; exact (next_iterate_twoCycle self h m).1
  · right; rw [hm]; exact (next_iterate_twoCycle self h m).2

theorem getChain_selfLoop (M : Nat) (self : OLEContext) (h : self.Fat = selfLoopTable) :
    self.getChain M 5 = .ret (List.replicate (M + 1) 5, none) := by
  rw [getChain_of_unending M self 5]
  · congr 2
    apply List.ext_getElem <;> simp [next_iterate_selfLoop self h]
  · intro k _
    rw [next_iterate_selfLoop self h]
    simp [h, selfLoopTable, ENDOFCHAIN]

theorem getChain_twoCycle (M : Nat) (self : OLEContext) (h : self.Fat = twoCycleTable) :
    self.getChain M 3 = .ret ((List.range (M + 1)).map (fun k => self.next^[k] 3), none) := by
  apply getChain_of_unending
  intro k _
  rcases next_iterate_twoCycle_mem self h k with e | e <;> rw [e] <;>
    simp [h, twoCycleTable, ENDOFCHAIN]

theorem not_nodup_of_getElem_eq {l : List Nat} (i j : Nat) (hi : i < l.length) (hj : j < l.length)
    (hij : i ≠ j) (h : l[i] = l[j]) : ¬ l.Nodup := by
  intro hn
  exact hij ((List.Nodup.getElem_inj_iff hn).1 h)

theorem twoCycle_chain_not_nodup (M : Nat) (h : 2 ≤ M) (self : OLEContext)
    (hf : self.Fat = twoCycleTable) :
    ¬ ((List.range (M + 1)).map (fun k => self.next^[k] 3)).Nodup := by
  apply not_nodup_of_getElem_eq 0 2 (by simp) (by simp; omega) (by decide)
  simp only [List.getElem_map, List.getElem_range]
  exact ((next_iterate_twoCycle self hf 0).1).trans ((next_iterate_twoCycle self hf 1).1).symm

theorem getChain_no_cycle_error (M : Nat) (self : OLEContext) (start : Nat)
    (chain r : List Nat) :
    self.getChain M start ≠ .ret (chain, some (.fatCycle r)) ∧
    self.getMiniChain M start ≠ .ret (chain, some (.miniFatCycle r)) := by
  constructor
  · rcases getChain_result M self start with h | ⟨c, h⟩ | ⟨c, h⟩ <;> rw [h] <;> simp
  · rcases getMiniChain_result M self start with h | ⟨c, h⟩ | ⟨c, h⟩ <;> rw [h] <;> simp

/-- C3 (what the code does): nothing is ever stored into `seen`, so a walk over
a cyclic table is not stopped by the cycle test.  With `FAT[5] = 5` the walk
from 5 returns `MAX_SECTORS + 1` copies of 5 and no error; with `FAT[3] = 4`,
`FAT[4] = 3` the walk from 3 returns a chain and no error and `OpenStream(3)`
returns a reader; `getMiniChain` does the same over the MiniFAT; and no walk
at all, over any table, returns the cycle error. -/
theorem getChain_cycle_not_detected (M : Nat) :
    selfLoopContext.getChain M 5 = .ret (List.replicate (M + 1) 5, none) ∧
    (∃ chain, twoCycleContext.getChain M 3 = .ret (chain, none)) ∧
    (∃ r, twoCycleContext.OpenStream M 3 = .ret (.ok r)) ∧
    miniSelfLoopContext.getMiniChain M 5 = .ret (List.replicate (M + 1) 5, none) ∧
    (∀ (self : OLEContext) (start : Nat) (chain r : List Nat),
      self.getChain M start ≠ .ret (chain, some (.fatCycle r)) ∧
      self.getMiniChain M start ≠ .ret (chain, some (.miniFatCycle r))) := by
  refine ⟨getChain_selfLoop M _ rfl, ⟨_, getChain_twoCycle M _ rfl⟩, ?_, ?_,
    fun self start chain r => getChain_no_cycle_error M self start chain r⟩
  · simp only [OLEContext.OpenStream, getChain_twoCycle M twoCycleContext rfl]
    exact ⟨_, rfl⟩
  · rw [getMiniChain_eq, getChain_selfLoop M _ rfl]
    rfl

/-- C4 (what the code does): the test before the table access is
`sector > len(table)`, so a sector id equal to the length of the table is not
rejected and the access `table[sector]` panics: `getChain(0)` over an empty FAT
and `getMiniChain(0)` over an empty MiniFAT panic, and so does every walk
started at `len(Fat)`. -/
theorem getChain_at_table_length_panics (M : Nat) (self : OLEContext) :
    emptyContext.getChain M 0 = .panic ∧
    emptyContext.getMiniChain M 0 = .panic ∧
    (self.Fat.length = ENDOFCHAIN ∨ self.getChain M self.Fat.length = .panic) := by
  refine ⟨?_, ?_, ?_⟩
  · simp [OLEContext.getChain, OLEContext.getChain.loop, emptyContext, ENDOFCHAIN]
  · simp [OLEContext.getMiniChain, OLEContext.getMiniChain.loop, emptyContext, ENDOFCHAIN]
  · by_cases h : self.Fat.length = ENDOFCHAIN
    · exact Or.inl h
    · right
      simp [OLEContext.getChain, OLEContext.getChain.loop, h]

/-- C5 (what the code does): the test of `GetDirentry` is
`idx > len(Directories)`, so the index `len(Directories)` is not rejected and
`Directories[idx]` panics, in `GetDirentry` and in `OpenDirectoryStream`; this
includes index 0 of an empty directory array. -/
theorem GetDirentry_at_length_panics (M : Nat) (self : OLEContext) :
    self.GetDirentry self.Directories.length = .panic ∧
    self.OpenDirectoryStream M self.Directories.length = .panic ∧
    emptyContext.GetDirentry 0 = .panic := by
  have h : self.GetDirentry self.Directories.length = .panic := by
    simp [OLEContext.GetDirentry]
  refine ⟨h, ?_, ?_⟩
  · simp [OLEContext.OpenDirectoryStream, h]
  · simp [OLEContext.GetDirentry, emptyContext]

/-- C8 (what the code does): with `FAT[3] = 4` and `FAT[4] = 3` and a cap of at
least 2, the chain that `getChain(3)` returns without error holds sector 3
twice; `getMiniChain` does the same over the MiniFAT. -/
theorem getChain_returns_repeated_sector (M : Nat) (h : 2 ≤ M) :
    (∃ chain, twoCycleContext.getChain M 3 = .ret (chain, none) ∧ ¬ chain.Nodup) ∧
    (∃ chain, miniTwoCycleContext.getMiniChain M 3 = .ret (chain, none) ∧ ¬ chain.Nodup) := by
  refine ⟨⟨_, getChain_twoCycle M _ rfl, twoCycle_chain_not_nodup M h _ rfl⟩, ?_⟩
  refine ⟨_, ?_, twoCycle_chain_not_nodup M h { miniTwoCycleContext with Fat := miniTwoCycleContext.MiniFat } rfl⟩
  rw [getMiniChain_eq, getChain_twoCycle M _ rfl]
  rfl

/-- Witness of `getChain_returns_repeated_sector` at the cap `1 << 20`. -/
theorem getChain_returns_repeated_sector_witness :
    2 ≤ 1048576 ∧
    ((∃ chain, twoCycleContext.getChain 1048576 3 = .ret (chain, none) ∧ ¬ chain.Nodup) ∧
     (∃ chain, miniTwoCycleContext.getMiniChain 1048576 3 = .ret (chain, none) ∧ ¬ chain.Nodup)) :=
  ⟨by decide, getChain_returns_repeated_sector 1048576 (by decide)⟩

/-! ## Machine integers and the end-of-stream test -/

theorem wrap64_of_IsInt64 (x : Int) (h : IsInt64 x) : wrap64 x = x := by
  unfold IsInt64 at h
  unfold wrap64
  omega

theorem ReadAt_past_end_aux (r : StreamReader) (buff : List Nat) (off : Int)
    (hSS : r.SectorSize ≠ 0)
    (h : off ≥ r.Size ∨ wrap64 (Int.tdiv off r.SectorSize) ≥ r.Sectors.length) :
    r.ReadAt buff off = .ret { n := 0, err := some .EOF, buf := buff, reads := [] } := by
  unfold StreamReader.ReadAt
  rw [if_neg hSS]
  simp only []
  rw [if_pos (Or.symm h)]

/-! ## Header validation -/

theorem shl64_eq_64 (s : Nat) : shl64 s = 64 ↔ s = 6 := by
  unfold shl64
  by_cases h : s < 64
  · rw [if_pos h]
    interval_cases s <;> simp [wrap64]
  · rw [if_neg h]
    constructor
    · intro h0; omega
    · intro h6; omega

/-- C10: the header stage of `GetOLEContext` accepts a header exactly when the
signature is `0xE11AB1A1E011CFD0`, the mini-sector shift is 6, the mini-sector
cutoff is 4096 and the sector shift is 9 or 12; otherwise it returns an error
and no context; a wrong signature gives the signature error whatever the other
fields hold; an accepted header gives `SectorSize` 512 for shift 9 and 4096 for
shift 12 (and mini-sector size 64, cutoff 4096). -/
theorem GetOLEContext_header_accepts_iff (reader : ReaderAt) (h : CFHeader) :
    ((∃ ctx, GetOLEContext.header reader h = .ok ctx) ↔
      (h.Signature = 0xe11ab1a1e011cfd0 ∧ h.MiniSectorShift = 6 ∧ h.MiniSectorCutoff = 4096 ∧
        (h.SectorSize = 9 ∨ h.SectorSize = 12))) ∧
    ((∃ ctx, GetOLEContext.header reader h = .ok ctx) ∨
      (∃ err, GetOLEContext.header reader h = .error err)) ∧
    (h.Signature ≠ 0xe11ab1a1e011cfd0 →
      GetOLEContext.header reader h = .error .invalidSignature) ∧
    (∀ ctx, GetOLEContext.header reader h = .ok ctx →
      (h.SectorSize = 9 → ctx.SectorSize = 512) ∧ (h.SectorSize = 12 → ctx.SectorSize = 4096) ∧
      ctx.MiniSectorSize = 64 ∧ ctx.MiniSectorCutoff = 4096) := by
  unfold GetOLEContext.header
  by_cases hsig : h.Signature = 0xe11ab1a1e011cfd0
  · by_cases hshift : h.MiniSectorShift = 6
    · have hs : shl64 6 = 64 := (shl64_eq_64 6).2 rfl
      by_cases hcut : h.MiniSectorCutoff = 4096
      · by_cases h9 : h.SectorSize = 9
        · simp [hsig, hs, hshift, hcut, h9]
        · by_cases h12 : h.SectorSize = 12
          · simp [hsig, hs, hshift, hcut, h12]
          · simp [hsig, hs, hshift, hcut, h9, h12]
      · simp [hsig, hs, hshift, hcut]
    · have hs : ¬ shl64 h.MiniSectorShift = 64 := fun e => hshift ((shl64_eq_64 _).1 e)
      simp [hsig, hs, hshift]
  · simp [hsig]

/-- Witness of `GetOLEContext_header_accepts_iff`: the sample header is accepted
with 512-byte sectors, and a header of zeros is refused for its signature. -/
theorem GetOLEContext_header_accepts_iff_witness :
    (∃ ctx, GetOLEContext.header emptyReader sampleHeader = .ok ctx ∧ ctx.SectorSize = 512) ∧
    GetOLEContext.header emptyReader
      { sampleHeader with Signature := 0 } = .error .invalidSignature := by
  have hw := GetOLEContext_header_accepts_iff emptyReader sampleHeader
  have hz := GetOLEContext_header_accepts_iff emptyReader { sampleHeader with Signature := 0 }
  obtain ⟨ctx, hctx⟩ := hw.1.2 (by decide)
  exact ⟨⟨ctx, hctx, (hw.2.2.2 ctx hctx).1 rfl⟩, hz.2.2.1 (by decide)⟩

/-! ## Reads past the end -/

/-- C7 (amended): for every stream reader whose `SectorSize` is not zero, every
buffer and every offset with `off >= Size` or `off / SectorSize >= len(Sectors)`
(the quotient as Go computes it), `ReadAt` returns 0 and end-of-stream, issues
no read to the underlying byte source and leaves the buffer as it was. -/
theorem ReadAt_past_end (r : StreamReader) (buff : List Nat) (off : Int)
    (hSS : r.SectorSize ≠ 0)
    (h : off ≥ r.Size ∨ wrap64 (Int.tdiv off r.SectorSize) ≥ r.Sectors.length) :
    r.ReadAt buff off = .ret { n := 0, err := some .EOF, buf := buff, reads := [] } := by
  exact ReadAt_past_end_aux r buff off hSS h

/-- Witness of `ReadAt_past_end`: a stream of 2000 bytes in four 512-byte
sectors read at offset 2000. -/
theorem ReadAt_past_end_witness :
    ({ Reader := emptyReader, Size := 2000, ReaderOffset := 512, Sectors := [4, 5, 6, 7],
       SectorSize := 512 } : StreamReader).ReadAt [1, 2, 3] 2000 =
      .ret { n := 0, err := some .EOF, buf := [1, 2, 3], reads := [] } :=
  ReadAt_past_end _ [1, 2, 3] 2000 (by decide) (Or.inl (by decide))

/-- C7 as stated fails: a reader whose `SectorSize` is zero panics in the
division `off / SectorSize`, also at an offset beyond its size. -/
theorem ReadAt_past_end_zero_SectorSize :
    (5 : Int) ≥ zeroSectorSizeReader.Size ∧
    zeroSectorSizeReader.ReadAt [0, 0] 5 = .panic ∧
    zeroSectorSizeReader.ReadAt [0, 0] 5 ≠
      .ret { n := 0, err := some .EOF, buf := [0, 0], reads := [] } := by
  decide

/-! ## Lookup by name -/

theorem GetDirentry_error (self : OLEContext) (idx : Nat) (e : Error)
    (h : self.GetDirentry idx = .ret (.error e)) : e = .invalidDirectoryIndex := by
  unfold OLEContext.GetDirentry at h
  split at h
  · simp at h; exact h.symm
  · split at h <;> simp at h

theorem OpenStream_error (M : Nat) (self : OLEContext) (s : Nat) (e : Error)
    (h : self.OpenStream M s = .ret (.error e)) : ∃ c, e = .fatReferenceExceeded c := by
  unfold OLEContext.OpenStream at h
  rcases getChain_result M self s with hp | ⟨c, hc⟩ | ⟨c, hc⟩
  · rw [hp] at h; simp at h
  · rw [hc] at h; simp at h
  · rw [hc] at h; simp at h; exact ⟨c, h.symm⟩

theorem OpenDirectoryStream_error (M : Nat) (self : OLEContext) (idx : Nat) (e : Error)
    (h : self.OpenDirectoryStream M idx = .ret (.error e)) : e ≠ .notFound := by
  unfold OLEContext.OpenDirectoryStream at h
  split at h
  · simp at h
  · simp at h
  · rename_i err hg
    simp at h
    rw [← h, GetDirentry_error self idx err hg]; simp
  · rename_i d hg
    split at h
    · split at h
      · simp at h
      · split at h
        · simp at h
        · rcases getMiniChain_result M self d.FirstSector with hp | ⟨c, hc⟩ | ⟨c, hc⟩
          · rw [hp] at h; simp at h
          · rw [hc] at h
            simp only [] at h
            split at h <;> simp at h
          · rw [hc] at h; simp at h; rw [← h]; simp
    · split at h
      · simp at h
      · simp at h
      · rename_i err ho
        simp at h
        obtain ⟨c, hc⟩ := OpenStream_error M self d.FirstSector err ho
        rw [← h, hc]; simp
      · simp at h

theorem Open_loop_no_match (M : Nat) (self : OLEContext) (name : String) :
    ∀ (l : List DirectoryEntry) (b : Nat), (∀ d ∈ l, d.Name ≠ name) →
      OLEContext.Open.loop M self name l b = .ret (none, none, some .notFound) := by
  intro l
  induction l with
  | nil => intro b _; rfl
  | cons d rest ih =>
    intro b h
    have hd : ¬ name = d.Name := fun e => h d (List.mem_cons_self _ _) e.symm
    rw [OLEContext.Open.loop, if_neg hd]
    exact ih (b + 1) (fun d' hd' => h d' (List.mem_cons_of_mem _ hd'))

theorem Open_loop_first_match (M : Nat) (self : OLEContext) (name : String) :
    ∀ (l : List DirectoryEntry) (b i : Nat) (d : DirectoryEntry),
      l[i]? = some d → d.Name = name →
      (∀ j d', j < i → l[j]? = some d' → d'.Name ≠ name) →
      OLEContext.Open.loop M self name l b =
        withEntry d (self.OpenDirectoryStream M (b + i)) := by
  intro l
  induction l with
  | nil => intro b i d h; simp at h
  | cons x rest ih =>
    intro b i d hi hname hmin
    cases i with
    | zero =>
      simp at hi
      subst hi
      rw [OLEContext.Open.loop, if_pos hname.symm]
      simp only [Nat.add_zero]
      cases h : self.OpenDirectoryStream M b with
      | panic => rfl
      | timeout => rfl
      | ret a =>
        cases a with
        | error e => rfl
        | ok p => cases p; rfl
    | succ i =>
      have hx : ¬ name = x.Name := fun e => hmin 0 x (Nat.succ_pos i) (by simp) e.symm
      rw [OLEContext.Open.loop, if_neg hx]
      have := ih (b + 1) i d (by simpa using hi) hname
        (fun j d' hj hd' => hmin (j + 1) d' (by omega) (by simpa using hd'))
      rw [this]
      congr 2
      omega

theorem withEntry_notFound (M : Nat) (self : OLEContext) (idx : Nat) (d : DirectoryEntry)
    (rd : Option Stream) (d' : Option DirectoryEntry) :
    withEntry d (self.OpenDirectoryStream M idx) ≠ .ret (rd, d', some .notFound) := by
  intro h
  cases ho : self.OpenDirectoryStream M idx with
  | panic => rw [ho] at h; simp [withEntry] at h
  | timeout => rw [ho] at h; simp [withEntry] at h
  | ret a =>
    cases a with
    | error e =>
      rw [ho] at h
      simp [withEntry] at h
      exact OpenDirectoryStream_error M self idx e ho h.2.2
    | ok p =>
      cases p
      rw [ho] at h
      simp [withEntry] at h

theorem Open_loop_notFound (M : Nat) (self : OLEContext) (name : String) :
    ∀ (l : List DirectoryEntry) (b : Nat) (rd : Option Stream) (d' : Option DirectoryEntry),
      OLEContext.Open.loop M self name l b = .ret (rd, d', some .notFound) →
      ∀ d ∈ l, d.Name ≠ name := by
  intro l
  induction l with
  | nil => intro b rd d' _ d hd; simp at hd
  | cons x rest ih =>
    intro b rd d' h d hd
    by_cases hx : name = x.Name
    · exfalso
      have := Open_loop_first_match M self name (x :: rest) b 0 x (by simp) hx.symm
        (fun j _ hj => by omega)
      rw [this] at h
      exact withEntry_notFound M self _ x rd d' h
    · rw [OLEContext.Open.loop, if_neg hx] at h
      rcases List.mem_cons.1 hd with e | e
      · rw [e]; exact fun e' => hx e'.symm
      · exact ih (b + 1) rd d' h d e

theorem Stat_loop_no_match (name : String) :
    ∀ (l : List DirectoryEntry),
      (∃ e, OLEContext.Stat.loop name l = .error e) ↔ (∀ d ∈ l, d.Name ≠ name) := by
  intro l
  induction l with
  | nil => simp [OLEContext.Stat.loop]
  | cons x rest ih =>
    by_cases hx : name = x.Name
    · simp [OLEContext.Stat.loop, hx]
    · have hx' : ¬ x.Name = name := fun e => hx e.symm
      simp [OLEContext.Stat.loop, hx, hx', ih]

theorem Stat_loop_error (name : String) :
    ∀ (l : List DirectoryEntry) (e : Error), OLEContext.Stat.loop name l = .error e →
      e = .notFound := by
  intro l
  induction l with
  | nil => intro e h; simp [OLEContext.Stat.loop] at h; exact h.symm
  | cons x rest ih =>
    intro e h
    by_cases hx : name = x.Name
    · simp [OLEContext.Stat.loop, hx] at h
    · simp [OLEContext.Stat.loop, hx] at h; exact ih e h

theorem Stat_loop_first_match (name : String) :
    ∀ (l : List DirectoryEntry) (i : Nat) (d : DirectoryEntry),
      l[i]? = some d → d.Name = name →
      (∀ j d', j < i → l[j]? = some d' → d'.Name ≠ name) →
      OLEContext.Stat.loop name l = .ok d := by
  intro l
  induction l with
  | nil => intro i d h; simp at h
  | cons x rest ih =>
    intro i d hi hname hmin
    cases i with
    | zero =>
      simp at hi
      subst hi
      rw [OLEContext.Stat.loop, if_pos hname.symm]
    | succ i =>
      have hx : ¬ name = x.Name := fun e => hmin 0 x (Nat.succ_pos i) (by simp) e.symm
      rw [OLEContext.Stat.loop, if_neg hx]
      exact ih i d (by simpa using hi) hname
        (fun j d' hj hd' => hmin (j + 1) d' (by omega) (by simpa using hd'))

/-- C9: `Open(name)` is a first-match linear scan.  It fails with the not-found
error iff no entry of `Directories` has the name, and so does `Stat(name)`,
whose only error is not-found; if `i` is the smallest index whose entry `d` has
the name, `Open(name)` returns `d` together with exactly the reader and the
error of `OpenDirectoryStream(i)` (and panics iff that call panics), and
`Stat(name)` returns `d`. -/
theorem Open_first_match (M : Nat) (self : OLEContext) (name : String) :
    ((∃ rd d, self.Open M name = .ret (rd, d, some .notFound)) ↔
      (∀ d ∈ self.Directories, d.Name ≠ name)) ∧
    ((∃ e, self.Stat name = .error e) ↔ (∀ d ∈ self.Directories, d.Name ≠ name)) ∧
    (∀ e, self.Stat name = .error e → e = .notFound) ∧
    (∀ i d, self.Directories[i]? = some d → d.Name = name →
      (∀ j d', j < i → self.Directories[j]? = some d' → d'.Name ≠ name) →
      self.Open M name = withEntry d (self.OpenDirectoryStream M i) ∧
      self.Stat name = .ok d) := by
  refine ⟨⟨?_, ?_⟩, Stat_loop_no_match name self.Directories,
    Stat_loop_error name self.Directories, ?_⟩
  · rintro ⟨rd, d, h⟩
    exact Open_loop_notFound M self name self.Directories 0 rd d h
  · intro h
    exact ⟨none, none, Open_loop_no_match M self name self.Directories 0 h⟩
  · intro i d hi hname hmin
    refine ⟨?_, Stat_loop_first_match name self.Directories i d hi hname hmin⟩
    have := Open_loop_first_match M self name self.Directories 0 i d hi hname hmin
    simpa [OLEContext.Open] using this

/-- Witness of `Open_first_match`: in the sample context the name "Small" is
carried by the entries 1 and 3; `Open` and `Stat` return entry 1, and the
reader of `Open` is the one of `OpenDirectoryStream(1)`. -/
theorem Open_first_match_witness :
    sampleContext.Open 1048576 "Small" =
      withEntry (sampleEntry "Small" 1 128 0) (sampleContext.OpenDirectoryStream 1048576 1) ∧
    sampleContext.Stat "Small" = .ok (sampleEntry "Small" 1 128 0) :=
  (Open_first_match 1048576 sampleContext "Small").2.2.2 1 (sampleEntry "Small" 1 128 0)
    (by decide) (by decide) (by
      intro j d' hj hd'
      have hj0 : j = 0 := by omega
      subst hj0
      have : d' = { (sampleEntry "Root Entry" 0 128 10) with IsDir := true } := by
        simpa [sampleContext] using hd'.symm
      rw [this]; decide)

/-! ## Sizes handed out by `OpenDirectoryStream` -/

theorem getChain_loop_length (M : Nat) (self : OLEContext) :
    ∀ (fuel sector : Nat) (res chain : List Nat) (e : Option Error), res.length ≤ M →
      OLEContext.getChain.loop M self [] fuel sector res = .ret (chain, e) →
      chain.length ≤ M + 1 := by
  intro fuel
  induction fuel with
  | zero => intro sector res chain e _ h; simp [OLEContext.getChain.loop] at h
  | succ fuel ih =>
    intro sector res chain e hl h
    rw [OLEContext.getChain.loop] at h
    by_cases h1 : sector = ENDOFCHAIN
    · simp [h1] at h; rw [← h.1]; omega
    · by_cases h2 : sector > self.Fat.length
      · simp [h1, h2] at h; rw [← h.1]; simp; omega
      · simp only [ne_eq, h1, not_false_eq_true, if_true, h2, if_false] at h
        cases hn : self.Fat[sector]? with
        | none => rw [hn] at h; simp at h
        | some next =>
          rw [hn] at h
          by_cases h4 : M < res.length + 1
          · simp [h4] at h; rw [← h.1]; simp; omega
          · simp only [List.contains_nil, Bool.false_eq_true, if_false, List.length_append,
              List.length_singleton, gt_iff_lt, h4] at h
            exact ih next (res ++ [sector]) chain e (by simp; omega) h

theorem getChain_length (M : Nat) (self : OLEContext) (start : Nat) (chain : List Nat)
    (e : Option Error) (h : self.getChain M start = .ret (chain, e)) : chain.length ≤ M + 1 :=
  getChain_loop_length M self (M + 2) start [] chain e (by simp) h

theorem OpenStream_ok (M : Nat) (self : OLEContext) (s : Nat) (r : StreamReader)
    (h : self.OpenStream M s = .ret (.ok r)) :
    ∃ chain, self.getChain M s = .ret (chain, none) ∧
      r = { Reader := self.Reader
            Size := wrap64 ((self.SectorSize : Int) * (chain.length : Int))
            ReaderOffset := self.SectorSize
            SectorSize := self.SectorSize
            Sectors := chain } := by
  unfold OLEContext.OpenStream at h
  rcases getChain_result M self s with hp | ⟨c, hc⟩ | ⟨c, hc⟩
  · rw [hp] at h; simp at h
  · rw [hc] at h
    simp at h
    exact ⟨c, hc, h.symm⟩
  · rw [hc] at h; simp at h

/-- C2: for a valid directory index `i` for which `OpenDirectoryStream(i)`
succeeds (cutoff 4096, `SectorSize` a `uint32`, `Size` a `uint64`, cap below
`2^31`), the size returned is `min(Directories[i].Size, chain_length * SectorSize)`
when `Size >= 4096`, where the chain is the one `getChain` returns for
`FirstSector`, and is `Directories[i].Size` when `Size < 4096`. -/
theorem OpenDirectoryStream_size (M : Nat) (self : OLEContext) (i : Nat) (d : DirectoryEntry)
    (rd : Stream) (size : Int)
    (hcut : self.MiniSectorCutoff = 4096)
    (hSS : self.SectorSize < 4294967296) (hM : M < 2147483648)
    (hsz : d.Size < 18446744073709551616)
    (hd : self.Directories[i]? = some d)
    (hok : self.OpenDirectoryStream M i = .ret (.ok (rd, size))) :
    (4096 ≤ d.Size → ∃ chain, self.getChain M d.FirstSector = .ret (chain, none) ∧
      size = ((min d.Size (chain.length * self.SectorSize) : Nat) : Int)) ∧
    (d.Size < 4096 → size = (d.Size : Int)) := by
  have hi : i < self.Directories.length := by
    by_contra hc
    rw [List.getElem?_eq_none (by omega)] at hd
    simp at hd
  have hg : self.GetDirentry i = .ret (.ok d) := by
    unfold OLEContext.GetDirentry
    rw [if_neg (by omega), hd]
  unfold OLEContext.OpenDirectoryStream at hok
  rw [hg, hcut] at hok
  simp only [] at hok
  by_cases hsmall : d.Size < 4096
  · refine ⟨fun h => by omega, fun _ => ?_⟩
    rw [if_pos hsmall] at hok
    split at hok
    · simp at hok
    · split at hok
      · simp at hok
      · split at hok
        · simp at hok
        · simp at hok
        · simp at hok
        · split at hok
          · simp at hok
          · simp at hok
          · simp at hok
            rw [← hok.2]
            apply wrap64_of_IsInt64
            unfold IsInt64
            omega
  · refine ⟨fun _ => ?_, fun h => absurd h hsmall⟩
    rw [if_neg hsmall] at hok
    split at hok
    · simp at hok
    · simp at hok
    · simp at hok
    · rename_i res ho
      obtain ⟨chain, hc, hres⟩ := OpenStream_ok M self d.FirstSector res ho
      refine ⟨chain, hc, ?_⟩
      have hlen := getChain_length M self d.FirstSector chain none hc
      have hprod : (self.SectorSize : Int) * (chain.length : Int) < 9223372036854775808 := by
        have h1 : self.SectorSize * chain.length ≤ 4294967295 * 2147483648 :=
          Nat.mul_le_mul (by omega) (by omega)
        have h2 : ((self.SectorSize * chain.length : Nat) : Int) ≤ 4294967295 * 2147483648 := by
          exact_mod_cast h1
        push_cast at h2
        omega
      have hprod0 : 0 ≤ (self.SectorSize : Int) * (chain.length : Int) :=
        mul_nonneg (Int.natCast_nonneg _) (Int.natCast_nonneg _)
      have hS : res.Size = (self.SectorSize : Int) * (chain.length : Int) := by
        rw [hres]
        exact wrap64_of_IsInt64 _ ⟨by omega, hprod⟩
      have hU : toUint64 res.Size = self.SectorSize * chain.length := by
        rw [hS]
        unfold toUint64
        have : ((self.SectorSize : Int) * (chain.length : Int)) % 18446744073709551616
            = (self.SectorSize : Int) * (chain.length : Int) := by omega
        rw [this]
        have h3 : (self.SectorSize : Int) * (chain.length : Int)
            = ((self.SectorSize * chain.length : Nat) : Int) := by push_cast; rfl
        rw [h3, Int.toNat_ofNat]
      simp only [Outcome.ret.injEq, Except.ok.injEq, Prod.mk.injEq] at hok
      rw [← hok.2, hU]
      by_cases hlt : d.Size < self.SectorSize * chain.length
      · rw [if_pos ⟨by omega, hlt⟩]
        simp only []
        rw [wrap64_of_IsInt64 _ ⟨by omega, by omega⟩, Nat.mul_comm chain.length,
          Nat.min_eq_left (Nat.le_of_lt hlt)]
      · rw [if_neg (fun h => hlt h.2), hS, Nat.mul_comm chain.length,
          Nat.min_eq_right (Nat.le_of_not_lt hlt)]
        push_cast; rfl

/-- Witness of `OpenDirectoryStream_size` in the sample context: entry 2
(5000 bytes declared, ten 512-byte sectors) gets size 5000 and entry 1
(128 bytes, in the mini stream) gets size 128. -/
theorem OpenDirectoryStream_size_witness :
    (∃ rd size, sampleContext.OpenDirectoryStream 1048576 2 = .ret (.ok (rd, size)) ∧
      size = 5000) ∧
    (∃ rd size, sampleContext.OpenDirectoryStream 1048576 1 = .ret (.ok (rd, size)) ∧
      size = 128) := by
  have h2 : ∃ rd size, sampleContext.OpenDirectoryStream 1048576 2 = .ret (.ok (rd, size)) :=
    ⟨_, _, rfl⟩
  have h1 : ∃ rd size, sampleContext.OpenDirectoryStream 1048576 1 = .ret (.ok (rd, size)) :=
    ⟨_, _, rfl⟩
  obtain ⟨rd2, size2, hok2⟩ := h2
  obtain ⟨rd1, size1, hok1⟩ := h1
  have t2 := OpenDirectoryStream_size 1048576 sampleContext 2 (sampleEntry "Big" 2 5000 0) rd2 size2
    rfl (by decide) (by decide) (by decide) rfl hok2
  have t1 := OpenDirectoryStream_size 1048576 sampleContext 1 (sampleEntry "Small" 1 128 0) rd1 size1
    rfl (by decide) (by decide) (by decide) rfl hok1
  refine ⟨⟨rd2, size2, hok2, ?_⟩, ⟨rd1, size1, hok1, t1.2 (by decide)⟩⟩
  obtain ⟨chain, hc, hs⟩ := t2.1 (by decide)
  have hchain : sampleContext.getChain 1048576 0 = .ret ([0, 1, 2, 3, 4, 5, 6, 7, 8, 9], none) := by
    decide
  have : chain = [0, 1, 2, 3, 4, 5, 6, 7, 8, 9] := by
    have hc' : sampleContext.getChain 1048576 0 = .ret (chain, none) := hc
    rw [hchain] at hc'
    simp at hc'
    exact hc'.symm
  rw [hs, this]
  decide

/-! ## Stream reads over a byte source whose reads fill the slice -/

theorem ReadAt_loop_step (r : StreamReader) (src : Int → Nat) (off : Int)
    (hrd : r.Reader = fullReader src)
    (hSS : 0 < r.SectorSize) (hSS64 : r.SectorSize < 9223372036854775808)
    (hS64 : r.Size < 9223372036854775808) (hoff : 0 ≤ off)
    (fuel cs cbo : Nat) (cso : Int) (buff : List Nat) (reads : List (Nat × Int)) (s : Nat)
    (hcs : r.Sectors[cs]? = some s)
    (hcso : 0 ≤ cso ∧ cso < r.SectorSize) (hcbo : cbo ≤ buff.length)
    (hfile : off + cbo ≤ r.Size)
    (t : Nat)
    (ht : (t : Int) = min (min (r.SectorSize - cso) ((buff.length : Int) - cbo)) (r.Size - (off + cbo))) :
    StreamReader.ReadAt.loop r off (fuel + 1) cs cso cbo buff reads =
      if t = 0 then StreamReader.ReadAt.finish cbo buff reads
      else
        StreamReader.ReadAt.loop r off fuel ((cs : Int) + 1) 0 (cbo + t)
          (buff.take cbo ++ (List.range t).map (fun (i : Nat) => src (wrap64 (
              wrap64 (wrap64 (r.ReaderOffset + wrap64 (r.SectorSize * s)) + cso) + (i : Int))))
            ++ buff.drop (cbo + t))
          (reads ++ [(t, wrap64 (wrap64 (r.ReaderOffset + wrap64 (r.SectorSize * s)) + cso))]) := by
  have hlen : cs < r.Sectors.length := by
    by_contra hc
    rw [List.getElem?_eq_none (by omega)] at hcs
    simp at hcs
  have hw1 : wrap64 (off + cbo) = off + cbo := wrap64_of_IsInt64 _ ⟨by omega, by omega⟩
  have hw2 : wrap64 (r.Size - (off + cbo)) = r.Size - (off + cbo) :=
    wrap64_of_IsInt64 _ ⟨by omega, by omega⟩
  have hw3 : wrap64 (r.SectorSize - cso) = r.SectorSize - cso :=
    wrap64_of_IsInt64 _ ⟨by omega, by omega⟩
  rw [StreamReader.ReadAt.loop]
  have hcond : cbo ≤ buff.length ∧ (cs : Int) < r.Sectors.length := ⟨hcbo, by exact_mod_cast hlen⟩
  rw [if_pos hcond]
  simp only [hw1, hw2, hw3]
  have htr : (if (if r.SectorSize - cso > (buff.length : Int) - cbo then (buff.length : Int) - cbo
        else r.SectorSize - cso) > r.Size - (off + cbo) then r.Size - (off + cbo)
      else (if r.SectorSize - cso > (buff.length : Int) - cbo then (buff.length : Int) - cbo
        else r.SectorSize - cso)) = (t : Int) := by
    rw [ht]
    split_ifs <;> omega
  rw [htr]
  by_cases ht0 : t = 0
  · simp [ht0]
  · have h1 : ¬ (t : Int) = 0 := by exact_mod_cast ht0
    have h2 : ¬ (cs : Int) < 0 := by omega
    have h3 : ¬ (t : Int) < 0 := by omega
    rw [if_neg h1, if_neg h2, if_neg ht0]
    simp only [Int.toNat_ofNat, hcs, if_neg h3, hrd, fullReader, List.take_of_length_le,
      List.length_map, List.length_range, le_refl]

theorem ReadAt_loop_done (r : StreamReader) (off : Int)
    (hSS : 0 < r.SectorSize) (hSS64 : r.SectorSize < 9223372036854775808)
    (hS64 : r.Size < 9223372036854775808) (hoff : 0 ≤ off)
    (fuel cbo : Nat) (cs : Int) (buff : List Nat) (reads : List (Nat × Int))
    (hcbo : cbo ≤ buff.length) (hfile : off + cbo ≤ r.Size)
    (hdone : cbo = buff.length ∨ off + cbo = r.Size) :
    StreamReader.ReadAt.loop r off (fuel + 1) cs 0 cbo buff reads =
      StreamReader.ReadAt.finish cbo buff reads := by
  have hw1 : wrap64 (off + cbo) = off + cbo := wrap64_of_IsInt64 _ ⟨by omega, by omega⟩
  have hw2 : wrap64 (r.Size - (off + cbo)) = r.Size - (off + cbo) :=
    wrap64_of_IsInt64 _ ⟨by omega, by omega⟩
  have hw3 : wrap64 (r.SectorSize - 0) = r.SectorSize - 0 :=
    wrap64_of_IsInt64 _ ⟨by omega, by omega⟩
  rw [StreamReader.ReadAt.loop]
  split
  · simp only [hw1, hw2, hw3]
    have htr : (if (if r.SectorSize - 0 > (buff.length : Int) - cbo then (buff.length : Int) - cbo
          else r.SectorSize - 0) > r.Size - (off + cbo) then r.Size - (off + cbo)
        else (if r.SectorSize - 0 > (buff.length : Int) - cbo then (buff.length : Int) - cbo
          else r.SectorSize - 0)) = 0 := by
      split_ifs <;> omega
    rw [htr]
    simp
  · rfl

theorem physical_eq (r : StreamReader) (cs s : Nat) (x : Int)
    (hSS : 0 < r.SectorSize) (hcs : r.Sectors[cs]? = some s) (hx : 0 ≤ x ∧ x < r.SectorSize) :
    r.physical ((cs : Int) * r.SectorSize + x) =
      wrap64 (r.ReaderOffset + r.SectorSize * (s : Int) + x) := by
  have hne : r.SectorSize ≠ 0 := by omega
  have hdiv : ((cs : Int) * r.SectorSize + x) / r.SectorSize = cs := by
    rw [Int.add_comm, Int.add_mul_ediv_right _ _ hne, Int.ediv_eq_zero_of_lt hx.1 hx.2]
    simp
  have hmod : ((cs : Int) * r.SectorSize + x) % r.SectorSize = x := by
    rw [Int.add_comm, Int.add_mul_emod_self, Int.emod_eq_of_lt hx.1 hx.2]
  unfold StreamReader.physical
  rw [hdiv, hmod]
  simp [List.getD, hcs]

theorem wrap64_nested (a b c d : Int) :
    wrap64 (wrap64 (wrap64 (a + wrap64 b) + c) + d) = wrap64 (a + b + (c + d)) := by
  unfold wrap64
  omega

theorem logicalBytes_add (r : StreamReader) (src : Int → Nat) (off : Int) (a b : Nat) :
    r.logicalBytes src off (a + b) =
      r.logicalBytes src off a ++ r.logicalBytes src (off + a) b := by
  unfold StreamReader.logicalBytes
  rw [List.range_add, List.map_append, List.map_map]
  congr 1
  apply List.map_congr_left
  intro j _
  simp only [Function.comp_apply]
  congr 2
  push_cast
  ring

theorem length_logicalBytes (r : StreamReader) (src : Int → Nat) (off : Int) (n : Nat) :
    (r.logicalBytes src off n).length = n := by
  simp [StreamReader.logicalBytes]

theorem ReadAt_data_eq (r : StreamReader) (src : Int → Nat) (off : Int) (cs s cbo t : Nat) (cso : Int)
    (hSS : 0 < r.SectorSize) (hcs : r.Sectors[cs]? = some s)
    (halign : off + cbo = (cs : Int) * r.SectorSize + cso)
    (hcso : 0 ≤ cso) (ht : cso + (t : Int) ≤ r.SectorSize) :
    (List.range t).map (fun (i : Nat) => src (wrap64 (
      wrap64 (wrap64 (r.ReaderOffset + wrap64 (r.SectorSize * s)) + cso) + (i : Int)))) =
    r.logicalBytes src (off + cbo) t := by
  unfold StreamReader.logicalBytes
  apply List.map_congr_left
  intro i hi
  have hi' : i < t := List.mem_range.1 hi
  congr 1
  rw [wrap64_nested, halign]
  have : (cs : Int) * r.SectorSize + cso + (i : Int) = (cs : Int) * r.SectorSize + (cso + i) := by
    ring
  rw [this, physical_eq r cs s (cso + i) hSS hcs ⟨by omega, by omega⟩]

theorem ReadAt_loop_correct (r : StreamReader) (src : Int → Nat) (off : Int)
    (hrd : r.Reader = fullReader src)
    (hSS : 0 < r.SectorSize) (hSS64 : r.SectorSize < 9223372036854775808)
    (hS64 : r.Size < 9223372036854775808) (hoff : 0 ≤ off)
    (hSz : r.Size ≤ (r.Sectors.length : Int) * r.SectorSize) :
    ∀ (fuel cs cbo : Nat) (cso : Int) (buff : List Nat) (reads : List (Nat × Int)),
      r.Sectors.length + 1 ≤ fuel + cs → cs ≤ r.Sectors.length →
      off + cbo = (cs : Int) * r.SectorSize + cso → 0 ≤ cso → cso < r.SectorSize →
      cbo ≤ buff.length → off + cbo ≤ r.Size →
      buff.take cbo = r.logicalBytes src off cbo →
      ∃ buf reads1,
        StreamReader.ReadAt.loop r off fuel cs cso cbo buff reads =
          StreamReader.ReadAt.finish (min buff.length (r.Size - off).toNat) buf reads1 ∧
        buf.length = buff.length ∧
        buf.take (min buff.length (r.Size - off).toNat) =
          r.logicalBytes src off (min buff.length (r.Size - off).toNat) := by
  intro fuel
  induction fuel with
  | zero => intro cs cbo cso buff reads h1 h2; omega
  | succ fuel ih =>
    intro cs cbo cso buff reads hfuel hcsle halign hcso0 hcso1 hcbo hfile hbuf
    by_cases hcs : cs = r.Sectors.length
    · -- the chain is used up: the loop condition fails
      subst hcs
      have hm : min buff.length (r.Size - off).toNat = cbo := by omega
      refine ⟨buff, reads, ?_, rfl, ?_⟩
      · rw [hm, StreamReader.ReadAt.loop, if_neg]
        intro hc
        exact absurd hc.2 (lt_irrefl _)
      · rw [hm]; exact hbuf
    · have hlt : cs < r.Sectors.length := by omega
      obtain ⟨s, hs⟩ : ∃ s, r.Sectors[cs]? = some s :=
        ⟨r.Sectors[cs], List.getElem?_eq_getElem hlt⟩
      have ht0 : 0 ≤ min (min (r.SectorSize - cso) ((buff.length : Int) - cbo))
          (r.Size - (off + cbo)) := by omega
      obtain ⟨t, ht⟩ : ∃ t : Nat, (t : Int) =
          min (min (r.SectorSize - cso) ((buff.length : Int) - cbo)) (r.Size - (off + cbo)) :=
        ⟨_, Int.toNat_of_nonneg ht0⟩
      rw [ReadAt_loop_step r src off hrd hSS hSS64 hS64 hoff fuel cs cbo cso buff reads s hs
        ⟨hcso0, hcso1⟩ hcbo hfile t ht]
      by_cases htz : t = 0
      · rw [if_pos htz]
        have hm : min buff.length (r.Size - off).toNat = cbo := by omega
        exact ⟨buff, reads, by rw [hm], rfl, by rw [hm]; exact hbuf⟩
      · rw [if_neg htz]
        have hdata := ReadAt_data_eq r src off cs s cbo t cso hSS hs halign hcso0 (by omega)
        rw [hdata]
        have hlenA : (buff.take cbo).length = cbo := by simp; omega
        have hlen' : (buff.take cbo ++ r.logicalBytes src (off + cbo) t ++
            buff.drop (cbo + t)).length = buff.length := by
          simp [length_logicalBytes]; omega
        have htake' : (buff.take cbo ++ r.logicalBytes src (off + cbo) t ++
            buff.drop (cbo + t)).take (cbo + t) = r.logicalBytes src off (cbo + t) := by
          have hl1 : (buff.take cbo ++ r.logicalBytes src (off + cbo) t).length = cbo + t := by
            rw [List.length_append, hlenA, length_logicalBytes]
          rw [List.take_append_of_le_length (by rw [hl1]),
            List.take_of_length_le (by rw [hl1]), logicalBytes_add, hbuf]
        by_cases hfull : (t : Int) = r.SectorSize - cso
        · -- the rest of the sector was read: the invariant holds for the next sector
          have hal : off + ((cbo + t : Nat) : Int) = ((cs + 1 : Nat) : Int) * r.SectorSize + 0 := by
            push_cast
            have : ((cs : Int) + 1) * r.SectorSize = (cs : Int) * r.SectorSize + r.SectorSize := by
              ring
            omega
          have := ih (cs + 1) (cbo + t) 0 _ (reads ++ [(t, wrap64 (wrap64 (r.ReaderOffset +
              wrap64 (r.SectorSize * s)) + cso))]) (by omega) (by omega) hal (le_refl _) hSS
              (by rw [hlen']; omega) (by push_cast; omega) htake'
          rw [hlen'] at this
          obtain ⟨buf, reads1, h1, h2, h3⟩ := this
          refine ⟨buf, reads1, ?_, h2, h3⟩
          rw [← h1]
          push_cast
          rfl
        · -- the buffer is full or the stream has ended
          have hm : min buff.length (r.Size - off).toNat = cbo + t := by omega
          have hd := ReadAt_loop_done r off hSS hSS64 hS64 hoff (fuel - 1) (cbo + t) ((cs : Int) + 1)
            (buff.take cbo ++ r.logicalBytes src (off + cbo) t ++ buff.drop (cbo + t))
            (reads ++ [(t, wrap64 (wrap64 (r.ReaderOffset +
              wrap64 (r.SectorSize * s)) + cso))])
            (by rw [hlen']; omega) (by push_cast; omega)
            (by rw [hlen']; push_cast; omega)
          have hf : fuel - 1 + 1 = fuel := by omega
          rw [hf] at hd
          exact ⟨_, _, by rw [hd, hm], hlen', by rw [hm]; exact htake'⟩

theorem ReadAt_full (r : StreamReader) (src : Int → Nat) (buff : List Nat) (off : Int)
    (hrd : r.Reader = fullReader src)
    (hSS : 0 < r.SectorSize) (hSS64 : r.SectorSize < 9223372036854775808)
    (hS64 : r.Size < 9223372036854775808)
    (hSz : r.Size ≤ (r.Sectors.length : Int) * r.SectorSize)
    (hoff : 0 ≤ off) (hoffS : off < r.Size) (hbuf : buff ≠ []) :
    ∃ buf reads,
      r.ReadAt buff off = .ret { n := ((min buff.length (r.Size - off).toNat : Nat) : Int),
                                 err := none, buf := buf, reads := reads } ∧
      buf.length = buff.length ∧
      buf.take (min buff.length (r.Size - off).toNat) =
        r.logicalBytes src off (min buff.length (r.Size - off).toNat) := by
  have hne : r.SectorSize ≠ 0 := by omega
  have hdiv0 : 0 ≤ off / r.SectorSize := Int.ediv_nonneg hoff (le_of_lt hSS)
  have hdivlt : off / r.SectorSize < (r.Sectors.length : Int) :=
    Int.ediv_lt_of_lt_mul hSS (lt_of_lt_of_le hoffS hSz)
  have hdivle : off / r.SectorSize ≤ off := Int.ediv_le_self _ hoff
  have htd : Int.tdiv off r.SectorSize = off / r.SectorSize :=
    Int.tdiv_eq_ediv hoff (le_of_lt hSS)
  have htm : Int.tmod off r.SectorSize = off % r.SectorSize :=
    Int.tmod_eq_emod hoff (le_of_lt hSS)
  have hw : wrap64 (off / r.SectorSize) = off / r.SectorSize :=
    wrap64_of_IsInt64 _ ⟨by omega, by omega⟩
  obtain ⟨cs, hcs⟩ : ∃ cs : Nat, (cs : Int) = off / r.SectorSize :=
    ⟨_, Int.toNat_of_nonneg hdiv0⟩
  have hmod0 : 0 ≤ off % r.SectorSize := Int.emod_nonneg _ hne
  have hmod1 : off % r.SectorSize < r.SectorSize := Int.emod_lt_of_pos _ hSS
  have halign : off + ((0 : Nat) : Int) = (cs : Int) * r.SectorSize + off % r.SectorSize := by
    rw [hcs]
    have := Int.ediv_add_emod off r.SectorSize
    have hc : off / r.SectorSize * r.SectorSize = r.SectorSize * (off / r.SectorSize) :=
      Int.mul_comm _ _
    simp only [Nat.cast_zero, add_zero]
    omega
  have hlen0 : 0 < buff.length := List.length_pos.2 hbuf
  obtain ⟨buf, reads, h1, h2, h3⟩ := ReadAt_loop_correct r src off hrd hSS hSS64 hS64 hoff hSz
    (r.Sectors.length + 1) cs 0 (off % r.SectorSize) buff [] (by omega) (by omega) halign
    hmod0 hmod1 (Nat.zero_le _) (by simpa using le_of_lt hoffS) (by
      simp [StreamReader.logicalBytes])
  have hm : min buff.length (r.Size - off).toNat ≠ 0 := by omega
  refine ⟨buf, reads, ?_, h2, h3⟩
  unfold StreamReader.ReadAt
  rw [if_neg hne]
  simp only [htd, htm, hw]
  rw [if_neg (by omega), ← hcs, h1]
  unfold StreamReader.ReadAt.finish
  rw [if_neg hm]

theorem getElem?_logicalBytes (r : StreamReader) (src : Int → Nat) (off : Int) (n j : Nat)
    (hj : j < n) : (r.logicalBytes src off n)[j]? = some (src (r.physical (off + j))) := by
  simp [StreamReader.logicalBytes, hj]

/-- C1: for every reader with `SectorSize > 0` and `0 <= Size <= len(Sectors) * SectorSize`
(both `int64`), every offset `0 <= off < Size` and every non-empty buffer, over a
byte source whose reads fill the slice they are given, `ReadAt` returns
`n = min(len(buf), Size - off)` and no error, and for every `j < n` the byte
`buf[j]` is the byte of the source at the offset
`ReaderOffset + SectorSize * Sectors[(off + j) / SectorSize] + (off + j) % SectorSize`
(an `int64`, reduced by `wrap64` as the code computes it). -/
theorem ReadAt_returns_logical_bytes (r : StreamReader) (src : Int → Nat) (buff : List Nat)
    (off : Int)
    (hrd : r.Reader = fullReader src)
    (hSS : 0 < r.SectorSize) (hSS64 : IsInt64 r.SectorSize) (hS64 : IsInt64 r.Size)
    (hSize : 0 ≤ r.Size ∧ r.Size ≤ (r.Sectors.length : Int) * r.SectorSize)
    (hoff : 0 ≤ off ∧ off < r.Size) (hbuf : buff ≠ []) :
    ∃ out, r.ReadAt buff off = .ret out ∧
      out.n = min (buff.length : Int) (r.Size - off) ∧ out.err = none ∧
      ∀ j : Nat, (j : Int) < out.n →
        out.buf[j]? = some (src (wrap64 (r.ReaderOffset +
          r.SectorSize * (r.Sectors.getD ((off + (j : Int)) / r.SectorSize).toNat 0 : Nat) +
          (off + (j : Int)) % r.SectorSize))) := by
  obtain ⟨buf, reads, h1, h2, h3⟩ := ReadAt_full r src buff off hrd hSS hSS64.2 hS64.2 hSize.2
    hoff.1 hoff.2 hbuf
  refine ⟨_, h1, ?_, rfl, ?_⟩
  · simp only []
    omega
  · intro j hj
    simp only [] at hj ⊢
    have hj' : j < min buff.length (r.Size - off).toNat := by exact_mod_cast hj
    have := getElem?_logicalBytes r src off _ j hj'
    rw [← h3, List.getElem?_take_of_lt hj'] at this
    exact this

/-- Witness of `ReadAt_returns_logical_bytes`: the stream of 2000 bytes in the
sectors `[4, 5, 6, 7]` of 512 bytes, read into a buffer of 2048 bytes at offset 0,
gives 2000 bytes and no error. -/
theorem ReadAt_returns_logical_bytes_witness :
    ∃ out, sampleStream.ReadAt (List.replicate 2048 0) 0 = .ret out ∧
      out.n = 2000 ∧ out.err = none ∧ out.buf[1999]? = some 207 := by
  have hne : List.replicate 2048 0 ≠ [] := by
    intro h
    have := congrArg List.length h
    rw [List.length_replicate] at this
    exact absurd this (by decide)
  obtain ⟨out, h1, h2, h3, h4⟩ := ReadAt_returns_logical_bytes sampleStream
    (fun o => (o % 256).toNat) (List.replicate 2048 0) 0 rfl (by decide) (by decide) (by decide)
    (by decide) (by decide) hne
  rw [List.length_replicate] at h2
  have hn : out.n = 2000 := by rw [h2]; decide
  refine ⟨out, h1, hn, h3, ?_⟩
  rw [h4 1999 (by rw [hn]; decide)]
  decide

/-! ## Reading in chunks -/

theorem readBytes_full (r : StreamReader) (src : Int → Nat) (buff : List Nat) (off : Int)
    (hrd : r.Reader = fullReader src)
    (hSS : 0 < r.SectorSize) (hSS64 : r.SectorSize < 9223372036854775808)
    (hS64 : r.Size < 9223372036854775808)
    (hSz : r.Size ≤ (r.Sectors.length : Int) * r.SectorSize)
    (hoff : 0 ≤ off) (hbuf : buff ≠ []) (hfit : off + (buff.length : Int) ≤ r.Size) :
    readBytes r buff off = .ret (r.logicalBytes src off buff.length) := by
  have hlen0 : 0 < buff.length := List.length_pos.2 hbuf
  obtain ⟨buf, reads, h1, _, h3⟩ := ReadAt_full r src buff off hrd hSS hSS64 hS64 hSz hoff
    (by omega) hbuf
  have hm : min buff.length (r.Size - off).toNat = buff.length := by omega
  rw [hm] at h1 h3
  unfold readBytes
  rw [h1]
  simp only [Int.toNat_ofNat, h3]

theorem readChunks_full (r : StreamReader) (src : Int → Nat)
    (hrd : r.Reader = fullReader src)
    (hSS : 0 < r.SectorSize) (hSS64 : r.SectorSize < 9223372036854775808)
    (hS64 : r.Size < 9223372036854775808)
    (hSz : r.Size ≤ (r.Sectors.length : Int) * r.SectorSize) :
    ∀ (chunks : List (List Nat)) (off : Int), 0 ≤ off → (∀ b ∈ chunks, b ≠ []) →
      off + ((chunks.map List.length).sum : Nat) ≤ r.Size →
      readChunks r off chunks = .ret (r.logicalBytes src off (chunks.map List.length).sum) := by
  intro chunks
  induction chunks with
  | nil => intro off _ _ _; simp [readChunks, StreamReader.logicalBytes]
  | cons b rest ih =>
    intro off hoff hne hsum
    simp only [List.map_cons, List.sum_cons, Nat.cast_add] at hsum ⊢
    have hb := readBytes_full r src b off hrd hSS hSS64 hS64 hSz hoff
      (hne b (List.mem_cons_self _ _)) (by omega)
    have hr := ih (off + (b.length : Int)) (by omega)
      (fun c hc => hne c (List.mem_cons_of_mem _ hc)) (by omega)
    rw [readChunks, hb]
    simp only [hr]
    rw [logicalBytes_add]

theorem chunks_nil_of_sum_zero (chunks : List (List Nat)) (hne : ∀ b ∈ chunks, b ≠ [])
    (hsum : (chunks.map List.length).sum = 0) : chunks = [] := by
  cases chunks with
  | nil => rfl
  | cons b rest =>
    exfalso
    have := List.length_pos.2 (hne b (List.mem_cons_self _ _))
    simp only [List.map_cons, List.sum_cons] at hsum
    omega

/-- C6 (amended): for every stream reader with `SectorSize` not zero and
`0 <= Size <= len(Sectors) * SectorSize` (both `int64`) over a byte source whose
reads always fill the slice, and every split of `[0, Size)` into consecutive
non-empty chunks, the bytes returned by one `ReadAt` per chunk (buffer length =
chunk length, offset = chunk start), concatenated, are the bytes returned by one
`ReadAt` of `Size` bytes at offset 0; both are the logical bytes of the stream. -/
theorem ReadAt_chunk_independent (r : StreamReader) (src : Int → Nat)
    (chunks : List (List Nat)) (whole : List Nat)
    (hrd : r.Reader = fullReader src)
    (hSS : r.SectorSize ≠ 0) (hSS64 : IsInt64 r.SectorSize) (hS64 : IsInt64 r.Size)
    (hSize : 0 ≤ r.Size ∧ r.Size ≤ (r.Sectors.length : Int) * r.SectorSize)
    (hne : ∀ b ∈ chunks, b ≠ [])
    (hsum : (((chunks.map List.length).sum : Nat) : Int) = r.Size)
    (hwhole : (whole.length : Int) = r.Size) :
    readChunks r 0 chunks = readBytes r whole 0 ∧
    readBytes r whole 0 = .ret (r.logicalBytes src 0 whole.length) := by
  by_cases h0 : r.Size = 0
  · -- an empty stream: no chunk, and the single read is at the end of the stream
    have hc : chunks = [] := chunks_nil_of_sum_zero chunks hne (by omega)
    have hw : whole = [] := List.length_eq_zero.1 (by omega)
    have hread : readBytes r [] 0 = .ret [] := by
      unfold readBytes
      rw [ReadAt_past_end_aux r [] 0 hSS (Or.inl (by omega))]
      rfl
    subst hc hw
    simp [readChunks, hread, StreamReader.logicalBytes]
  · have hpos : 0 < r.SectorSize := by
      by_contra hc
      have : (r.Sectors.length : Int) * r.SectorSize ≤ 0 :=
        Int.mul_nonpos_of_nonneg_of_nonpos (Int.natCast_nonneg _) (by omega)
      omega
    have hwne : whole ≠ [] := by
      intro h
      rw [h] at hwhole
      simp at hwhole
      omega
    have h1 := readChunks_full r src hrd hpos hSS64.2 hS64.2 hSize.2 chunks 0 (le_refl _) hne
      (by omega)
    have h2 := readBytes_full r src whole 0 hrd hpos hSS64.2 hS64.2 hSize.2 (le_refl _) hwne
      (by omega)
    have hl : (chunks.map List.length).sum = whole.length := by omega
    rw [h1, h2, hl]
    exact ⟨rfl, rfl⟩

/-- Witness of `ReadAt_chunk_independent`: the sample stream of 2000 bytes read
in chunks of 1000, 999 and 1 bytes and read at once. -/
theorem ReadAt_chunk_independent_witness :
    readChunks sampleStream 0
        [List.replicate 1000 0, List.replicate 999 0, List.replicate 1 0] =
      readBytes sampleStream (List.replicate 2000 0) 0 :=
  (ReadAt_chunk_independent sampleStream (fun o => (o % 256).toNat)
    [List.replicate 1000 0, List.replicate 999 0, List.replicate 1 0] (List.replicate 2000 0)
    rfl (by decide) (by decide) (by decide) (by decide)
    (by
      intro b hb h
      subst h
      simp only [List.mem_cons, List.mem_singleton, List.not_mem_nil, or_false] at hb
      rcases hb with e | e | e <;>
        · have := congrArg List.length e
          rw [List.length_replicate] at this
          simp at this)
    (by simp only [List.map_cons, List.map_nil, List.length_replicate]; decide)
    (by rw [List.length_replicate]; decide)).1

/-- C6 as stated fails: a reader with `SectorSize = 0` and `Size = 0` meets
`0 <= Size <= len(Sectors) * SectorSize`; the only split of the empty range
has no chunk and yields no byte, while the single `ReadAt` of 0 bytes at offset
0 panics in the division by `SectorSize`. -/
theorem ReadAt_chunk_zero_SectorSize :
    (0 ≤ zeroSectorSizeStream.Size ∧
      zeroSectorSizeStream.Size ≤
        (zeroSectorSizeStream.Sectors.length : Int) * zeroSectorSizeStream.SectorSize) ∧
    readChunks zeroSectorSizeStream 0 [] = .ret [] ∧
    readBytes zeroSectorSizeStream [] 0 = .panic ∧
    readChunks zeroSectorSizeStream 0 [] ≠ readBytes zeroSectorSizeStream [] 0 := by
  decide

/-! ## The fuel of the loops is never used up -/

theorem ReadAt_finish_ne_timeout (cbo : Nat) (buff : List Nat) (reads : List (Nat × Int)) :
    StreamReader.ReadAt.finish cbo buff reads ≠ .timeout := by
  unfold StreamReader.ReadAt.finish
  split <;> simp

theorem ReadAt_loop_ne_timeout (r : StreamReader) (off : Int) :
    ∀ (fuel : Nat) (cs cso : Int) (cbo : Nat) (buff : List Nat) (reads : List (Nat × Int)),
      1 ≤ fuel → (cs < 0 ∨ (r.Sectors.length : Int) + 1 ≤ fuel + cs) →
      StreamReader.ReadAt.loop r off fuel cs cso cbo buff reads ≠ .timeout := by
  intro fuel
  induction fuel with
  | zero => intro cs cso cbo buff reads h; omega
  | succ fuel ih =>
    intro cs cso cbo buff reads _ hcs
    rw [StreamReader.ReadAt.loop]
    split
    · rename_i hcond
      generalize wrap64 (r.Size - wrap64 (off + cbo)) = available_in_file
      generalize wrap64 (r.SectorSize - cso) = available_in_sector
      simp only []
      generalize (if (if available_in_sector > (buff.length : Int) - cbo
          then (buff.length : Int) - cbo else available_in_sector) > available_in_file
        then available_in_file
        else (if available_in_sector > (buff.length : Int) - cbo
          then (buff.length : Int) - cbo else available_in_sector)) = to_read
      repeat' split
      all_goals first
        | exact ReadAt_finish_ne_timeout _ _ _
        | (simp; done)
        | (apply ih <;> omega)
    · exact ReadAt_finish_ne_timeout _ _ _

/-- `ReadAt` returns or panics: its loop never uses up the fuel. -/
theorem ReadAt_ne_timeout (r : StreamReader) (buff : List Nat) (off : Int) :
    r.ReadAt buff off ≠ .timeout := by
  unfold StreamReader.ReadAt
  split
  · simp
  · simp only []
    split
    · simp
    · apply ReadAt_loop_ne_timeout
      · omega
      · rename_i h
        omega

theorem getChain_ne_timeout (M : Nat) (self : OLEContext) (start : Nat) :
    self.getChain M start ≠ .timeout := by
  rcases getChain_result M self start with h | ⟨c, h⟩ | ⟨c, h⟩ <;> rw [h] <;> simp

theorem getMiniChain_ne_timeout (M : Nat) (self : OLEContext) (start : Nat) :
    self.getMiniChain M start ≠ .timeout := by
  rcases getMiniChain_result M self start with h | ⟨c, h⟩ | ⟨c, h⟩ <;> rw [h] <;> simp

theorem OpenStream_ne_timeout (M : Nat) (self : OLEContext) (s : Nat) :
    self.OpenStream M s ≠ .timeout := by
  unfold OLEContext.OpenStream
  rcases getChain_result M self s with h | ⟨c, h⟩ | ⟨c, h⟩ <;> rw [h] <;> simp

theorem OpenDirectoryStream_loop_ne_timeout (self : OLEContext) :
    ∀ (sectors buff res : List Nat),
      OLEContext.OpenDirectoryStream.loop self sectors buff res ≠ .timeout := by
  intro sectors
  induction sectors with
  | nil => intro buff res; simp [OLEContext.OpenDirectoryStream.loop]
  | cons s rest ih =>
    intro buff res
    rw [OLEContext.OpenDirectoryStream.loop]
    split
    · simp
    · rename_i ministream _
      split
      · simp
      · rename_i h
        exact absurd h (ReadAt_ne_timeout _ _ _)
      · split
        · simp
        · exact ih _ _

theorem GetDirentry_ne_timeout (self : OLEContext) (idx : Nat) :
    self.GetDirentry idx ≠ .timeout := by
  unfold OLEContext.GetDirentry
  split
  · simp
  · split <;> simp

/-- `OpenDirectoryStream` returns or panics: none of its loops uses up the fuel. -/
theorem OpenDirectoryStream_ne_timeout (M : Nat) (self : OLEContext) (idx : Nat) :
    self.OpenDirectoryStream M idx ≠ .timeout := by
  unfold OLEContext.OpenDirectoryStream
  split
  · simp
  · rename_i h; exact absurd h (GetDirentry_ne_timeout _ _)
  · simp
  · split
    · split
      · simp
      · split
        · simp
        · split
          · simp
          · rename_i h; exact absurd h (getMiniChain_ne_timeout _ _ _)
          · simp
          · simp only []
            split
            · simp
            · rename_i h; exact absurd h (OpenDirectoryStream_loop_ne_timeout _ _ _ _)
            · simp
    · split
      · simp
      · rename_i h; exact absurd h (OpenStream_ne_timeout _ _ _)
      · simp
      · simp

/-- `Open` returns or panics. -/
theorem Open_ne_timeout (M : Nat) (self : OLEContext) (name : String) :
    self.Open M name ≠ .timeout := by
  unfold OLEContext.Open
  generalize (0 : Nat) = b
  induction self.Directories generalizing b with
  | nil => simp [OLEContext.Open.loop]
  | cons d rest ih =>
    rw [OLEContext.Open.loop]
    split
    · split
      · simp
      · rename_i h; exact absurd h (OpenDirectoryStream_ne_timeout _ _ _)
      · simp
      · simp
    · exact ih _

/-! ## Chains that end -/

theorem getChain_loop_end (M : Nat) (self : OLEContext) (fuel : Nat) (res : List Nat) :
    OLEContext.getChain.loop M self [] (fuel + 1) ENDOFCHAIN res = .ret (res, none) := by
  rw [OLEContext.getChain.loop]
  simp

/-- A walk that reaches `ENDOFCHAIN` after `k <= MAX_SECTORS` sectors, all of
them inside the table, returns exactly these sectors. -/
theorem getChain_of_terminating (M : Nat) (self : OLEContext) (s0 k : Nat) (hk : k ≤ M)
    (hwalk : ∀ j, j < k →
      self.next^[j] s0 ≠ ENDOFCHAIN ∧ self.next^[j] s0 < self.Fat.length)
    (hend : self.next^[k] s0 = ENDOFCHAIN) :
    self.getChain M s0 = .ret ((List.range k).map (fun j => self.next^[j] s0), none) := by
  have hfuel : M + 2 = (M + 1 - k + 1) + k := by omega
  rw [OLEContext.getChain, hfuel, getChain_loop_steps M self k _ s0 [] hwalk (by simpa using hk),
    hend, getChain_loop_end]
  simp

/-- C14: for every FAT and start `s0` whose successor sequence `s0, FAT[s0], ...`
stays below `len(FAT)` and reaches `ENDOFCHAIN` after `k <= MAX_SECTORS` sectors,
`getChain(s0)` returns exactly these `k` sectors in order and no error (the
empty chain for `k = 0`, that is `s0 = ENDOFCHAIN`), and `OpenStream(s0)` returns
a reader over that chain with `Size = k * SectorSize` and
`ReaderOffset = SectorSize` (`SectorSize` a `uint32`, cap below `2^31`). -/
theorem getChain_successor_sequence (M : Nat) (self : OLEContext) (s0 k : Nat)
    (hk : k ≤ M)
    (hwalk : ∀ j, j < k →
      self.next^[j] s0 ≠ ENDOFCHAIN ∧ self.next^[j] s0 < self.Fat.length)
    (hend : self.next^[k] s0 = ENDOFCHAIN)
    (hSS : self.SectorSize < 4294967296) (hM : M < 2147483648) :
    self.getChain M s0 = .ret ((List.range k).map (fun j => self.next^[j] s0), none) ∧
    self.OpenStream M s0 = .ret (.ok
      { Reader := self.Reader
        Size := (k : Int) * (self.SectorSize : Int)
        ReaderOffset := self.SectorSize
        SectorSize := self.SectorSize
        Sectors := (List.range k).map (fun j => self.next^[j] s0) }) := by
  have hc := getChain_of_terminating M self s0 k hk hwalk hend
  refine ⟨hc, ?_⟩
  unfold OLEContext.OpenStream
  rw [hc]
  simp only [List.length_map, List.length_range]
  have h1 : self.SectorSize * k ≤ 4294967295 * 2147483648 :=
    Nat.mul_le_mul (by omega) (by omega)
  have h2 : ((self.SectorSize * k : Nat) : Int) ≤ 4294967295 * 2147483648 := by
    exact_mod_cast h1
  push_cast at h2
  have h0 : 0 ≤ (self.SectorSize : Int) * (k : Int) :=
    mul_nonneg (Int.natCast_nonneg _) (Int.natCast_nonneg _)
  rw [wrap64_of_IsInt64 _ ⟨by omega, by omega⟩, Int.mul_comm]

/-- Witness of `getChain_successor_sequence`: the chain `0, 1, ..., 9` of the
sample context gives a reader of size `10 * 512`. -/
theorem getChain_successor_sequence_witness :
    sampleContext.getChain 1048576 0 =
      .ret ((List.range 10).map (fun j => sampleContext.next^[j] 0), none) ∧
    sampleContext.OpenStream 1048576 0 = .ret (.ok
      { Reader := sampleContext.Reader
        Size := ((10 : Nat) : Int) * (sampleContext.SectorSize : Int)
        ReaderOffset := sampleContext.SectorSize
        SectorSize := sampleContext.SectorSize
        Sectors := (List.range 10).map (fun j => sampleContext.next^[j] 0) }) :=
  getChain_successor_sequence 1048576 sampleContext 0 10 (by decide)
    (by
      intro j hj
      interval_cases j <;> decide)
    (by decide) (by decide) (by decide)

/-! ## The cap of a chain walk -/

theorem getChain_in_bounds (M : Nat) (self : OLEContext) (start : Nat)
    (h : ∀ j, j ≤ M → (∀ i, i < j → self.next^[i] start ≠ ENDOFCHAIN) →
      self.next^[j] start = ENDOFCHAIN ∨ self.next^[j] start < self.Fat.length) :
    ∃ chain, self.getChain M start = .ret (chain, none) ∧ chain.length ≤ M + 1 := by
  by_cases hex : ∃ k, k ≤ M ∧ self.next^[k] start = ENDOFCHAIN
  · -- the walk ends: take the first position of `ENDOFCHAIN`
    have hex' : ∃ k, self.next^[k] start = ENDOFCHAIN := ⟨hex.choose, hex.choose_spec.2⟩
    have hk : Nat.find hex' ≤ M := Nat.find_min' hex' hex.choose_spec.2 |>.trans hex.choose_spec.1
    have hmin : ∀ i, i < Nat.find hex' → self.next^[i] start ≠ ENDOFCHAIN :=
      fun i hi => Nat.find_min hex' hi
    have hwalk : ∀ j, j < Nat.find hex' →
        self.next^[j] start ≠ ENDOFCHAIN ∧ self.next^[j] start < self.Fat.length := by
      intro j hj
      refine ⟨hmin j hj, ?_⟩
      rcases h j (by omega) (fun i hi => hmin i (by omega)) with e | e
      · exact absurd e (hmin j hj)
      · exact e
    refine ⟨_, getChain_of_terminating M self start _ hk hwalk (Nat.find_spec hex'), ?_⟩
    rw [List.length_map, List.length_range]
    omega
  · -- the walk does not end within the cap
    have hne : ∀ j, j ≤ M → self.next^[j] start ≠ ENDOFCHAIN :=
      fun j hj e => hex ⟨j, hj, e⟩
    have hw : ∀ k, k ≤ M →
        self.next^[k] start ≠ ENDOFCHAIN ∧ self.next^[k] start < self.Fat.length := by
      intro k hk
      refine ⟨hne k hk, ?_⟩
      rcases h k hk (fun i hi => hne i (by omega)) with e | e
      · exact absurd e (hne k hk)
      · exact e
    exact ⟨_, getChain_of_unending M self start hw, by simp⟩

/-- C17 (amended): for every FAT (or MiniFAT) whose entries on the walk stay in
bounds and every start sector, `getChain` (`getMiniChain`) returns, without
error, a chain of at most `MAX_SECTORS + 1` entries: longer walks are cut
without error. -/
theorem getChain_capped (M : Nat) (self : OLEContext) (start : Nat)
    (h : ∀ j, j ≤ M → (∀ i, i < j → self.next^[i] start ≠ ENDOFCHAIN) →
      self.next^[j] start = ENDOFCHAIN ∨ self.next^[j] start < self.Fat.length)
    (hmini : ∀ j, j ≤ M →
      (∀ i, i < j → (fun s => self.MiniFat.getD s 0)^[i] start ≠ ENDOFCHAIN) →
      (fun s => self.MiniFat.getD s 0)^[j] start = ENDOFCHAIN ∨
        (fun s => self.MiniFat.getD s 0)^[j] start < self.MiniFat.length) :
    (∃ chain, self.getChain M start = .ret (chain, none) ∧ chain.length ≤ M + 1) ∧
    (∃ chain, self.getMiniChain M start = .ret (chain, none) ∧ chain.length ≤ M + 1) := by
  refine ⟨getChain_in_bounds M self start h, ?_⟩
  obtain ⟨chain, hc, hl⟩ := getChain_in_bounds M { self with Fat := self.MiniFat } start hmini
  refine ⟨chain, ?_, hl⟩
  rw [getMiniChain_eq, hc]
  rfl

/-- Witness of `getChain_capped`: the sample context walked from sector 0 (FAT)
and from mini sector 0 (MiniFAT). -/
theorem getChain_capped_witness :
    (∃ chain, sampleContext.getChain 1048576 0 = .ret (chain, none) ∧
      chain.length ≤ 1048576 + 1) ∧
    (∃ chain, sampleContext.getMiniChain 1048576 0 = .ret (chain, none) ∧
      chain.length ≤ 1048576 + 1) :=
  getChain_capped 1048576 sampleContext 0
    (by
      intro j _ hpre
      by_cases hj : j < 11
      · interval_cases j <;> decide
      · exact absurd (show sampleContext.next^[10] 0 = ENDOFCHAIN by decide) (hpre 10 (by omega)))
    (by
      intro j _ hpre
      by_cases hj : j < 3
      · interval_cases j <;> decide
      · exact absurd (show (fun s => sampleContext.MiniFat.getD s 0)^[2] 0 = ENDOFCHAIN by decide)
          (hpre 2 (by omega)))

/-- C17 as stated fails: with `FAT[5] = 5` and the cap `1 << 20` the walk from 5
stays in bounds and returns, without error, a chain of `MAX_SECTORS + 1`
entries, one more than the cap. -/
theorem getChain_exceeds_cap :
    ∃ chain, selfLoopContext.getChain 1048576 5 = .ret (chain, none) ∧
      chain.length = 1048577 ∧ ¬ chain.length ≤ 1048576 := by
  refine ⟨_, getChain_selfLoop 1048576 selfLoopContext rfl, ?_, ?_⟩
  · rw [List.length_replicate]
  · rw [List.length_replicate]
    decide

/-! ## Timestamps -/

/-- C13 (amended): for every FILETIME value `f` below `2^63` stored in the
create-time or modify-time field of a directory record, the decoded `Ctime` /
`Mtime` in Unix seconds is `floor(f / 10000000) - 11644473600`. -/
theorem filetime_to_unix_seconds (count : Nat) (dir : DirectoryHeader)
    (hc : dir.CreateTime < 9223372036854775808) (hm : dir.ModifyTime < 9223372036854775808) :
    (OLEContext.loadDirectories.entry count dir).Ctime =
      (dir.CreateTime : Int) / 10000000 - 11644473600 ∧
    (OLEContext.loadDirectories.entry count dir).Mtime =
      (dir.ModifyTime : Int) / 10000000 - 11644473600 := by
  have key : ∀ f : Nat, f < 9223372036854775808 →
      filetimeToUnix f = (f : Int) / 10000000 - 11644473600 := by
    intro f hf
    unfold filetimeToUnix
    rw [wrap64_of_IsInt64 (f : Int) ⟨by omega, by omega⟩,
      Int.tdiv_eq_ediv (Int.natCast_nonneg _) (by decide)]
    apply wrap64_of_IsInt64
    constructor <;> omega
  exact ⟨key _ hc, key _ hm⟩

/-- Witness of `filetime_to_unix_seconds`: the FILETIME `132223104000000000`
(2020-01-01 00:00:00 UTC) decodes to the Unix time `1577836800`. -/
theorem filetime_to_unix_seconds_witness :
    (OLEContext.loadDirectories.entry 0
      { Name := "Root Entry", TypeInt := 5, CreateTime := 132223104000000000,
        ModifyTime := 132223104000000000, SectorStart := 0, StreamSize := 0 }).Ctime
      = 1577836800 := by
  rw [(filetime_to_unix_seconds 0
      { Name := "Root Entry", TypeInt := 5, CreateTime := 132223104000000000,
        ModifyTime := 132223104000000000, SectorStart := 0, StreamSize := 0 }
      (by decide) (by decide)).1]
  decide

/-- C13 as stated fails: the FILETIME `2^63` is converted to the negative
`int64` `-2^63` before the division, so the code yields
`-922337203685 - 11644473600` and not `floor(2^63 / 10000000) - 11644473600`. -/
theorem filetime_high_bit :
    (OLEContext.loadDirectories.entry 0
      { Name := "", TypeInt := 2, CreateTime := 9223372036854775808,
        ModifyTime := 0, SectorStart := 0, StreamSize := 0 }).Ctime = -933981677285 ∧
    ((9223372036854775808 : Nat) : Int) / 10000000 - 11644473600 = 910692730085 ∧
    (OLEContext.loadDirectories.entry 0
      { Name := "", TypeInt := 2, CreateTime := 9223372036854775808,
        ModifyTime := 0, SectorStart := 0, StreamSize := 0 }).Ctime ≠
      ((9223372036854775808 : Nat) : Int) / 10000000 - 11644473600 := by
  decide

/-! ## The address of a sector -/

theorem ReadSector_eq (self : OLEContext) (sector : Nat) :
    self.ReadSector sector =
      ((self.Reader self.SectorSize (OLEContext.ReadSector.offset self sector)).1.take
          self.SectorSize,
        (self.Reader self.SectorSize (OLEContext.ReadSector.offset self sector)).2) := rfl

/-- Below `2^32` the offset of `ReadSector` is `(sector + 1) * SectorSize`. -/
theorem ReadSector_offset_exact (self : OLEContext) (sector : Nat)
    (h1 : sector + 1 < 4294967296) (h : (sector + 1) * self.SectorSize < 4294967296) :
    OLEContext.ReadSector.offset self sector = ((sector + 1) * self.SectorSize : Nat) := by
  unfold OLEContext.ReadSector.offset wrap32
  rw [Nat.mod_eq_of_lt h1, Nat.mul_comm, Nat.mod_eq_of_lt h]

theorem ReadSector_offset_512 (self : OLEContext) (h : self.SectorSize = 512) :
    OLEContext.ReadSector.offset self 8388607 = 0 := by
  unfold OLEContext.ReadSector.offset
  rw [h]
  decide

/-- C16 (what the code does): `ReadSector` computes `SectorSize * (sector + 1)` in
`uint32`, so the offset wraps around at `2^32`: with 512-byte sectors sector
`8388607` is read at offset 0 and not at `(8388607 + 1) * 512 = 4294967296`, the
offset at which `StreamReader.ReadAt` (which computes in `int64`) reads the same
sector of a regular-FAT chain; with 4096-byte sectors the same happens for
sector `1048575`. -/
theorem ReadSector_offset_wraps :
    OLEContext.ReadSector.offset { emptyContext with SectorSize := 512 } 8388607 = 0 ∧
    ((8388607 : Int) + 1) * 512 = 4294967296 ∧
    wrap64 (wrap64 ((512 : Int) + wrap64 (512 * ((8388607 : Nat) : Int))) + 0) = 4294967296 ∧
    (∀ reader : ReaderAt,
      ({ emptyContext with Reader := reader, SectorSize := 512 } : OLEContext).ReadSector
        8388607 = ((reader 512 0).1.take 512, (reader 512 0).2)) ∧
    OLEContext.ReadSector.offset { emptyContext with SectorSize := 4096 } 1048575 = 0 := by
  refine ⟨by decide, by decide, by decide, ?_, by decide⟩
  intro reader
  unfold OLEContext.ReadSector
  rw [ReadSector_offset_512 _ rfl]

/-! ## The loop of `ReadAt` over an arbitrary byte source -/

theorem ReadAt_loop_unfold (r : StreamReader) (off : Int) (fuel : Nat) (cs cso : Int)
    (cbo : Nat) (buff : List Nat) (reads : List (Nat × Int)) :
    StreamReader.ReadAt.loop r off (fuel + 1) cs cso cbo buff reads =
      if cbo ≤ buff.length ∧ cs < r.Sectors.length then
        if StreamReader.ReadAt.toRead r off cso cbo buff.length = 0 then
          StreamReader.ReadAt.finish cbo buff reads
        else if cs < 0 then .panic
        else
          match r.Sectors[cs.toNat]? with
          | none => .panic
          | some s =>
            if StreamReader.ReadAt.toRead r off cso cbo buff.length < 0 then .panic
            else
              match (r.Reader (StreamReader.ReadAt.toRead r off cso cbo buff.length).toNat
                  (StreamReader.ReadAt.pos r s cso)).2 with
              | some err =>
                .ret { n := 0, err := some err,
                       buf := buff.take cbo ++
                         StreamReader.ReadAt.data r
                           (StreamReader.ReadAt.toRead r off cso cbo buff.length)
                           (StreamReader.ReadAt.pos r s cso) ++
                         buff.drop (cbo + (StreamReader.ReadAt.data r
                           (StreamReader.ReadAt.toRead r off cso cbo buff.length)
                           (StreamReader.ReadAt.pos r s cso)).length),
                       reads := reads ++
                         [((StreamReader.ReadAt.toRead r off cso cbo buff.length).toNat,
                           StreamReader.ReadAt.pos r s cso)] }
              | none =>
                StreamReader.ReadAt.loop r off fuel (cs + 1) 0
                  (cbo + (StreamReader.ReadAt.data r
                    (StreamReader.ReadAt.toRead r off cso cbo buff.length)
                    (StreamReader.ReadAt.pos r s cso)).length)
                  (buff.take cbo ++
                    StreamReader.ReadAt.data r
                      (StreamReader.ReadAt.toRead r off cso cbo buff.length)
                      (StreamReader.ReadAt.pos r s cso) ++
                    buff.drop (cbo + (StreamReader.ReadAt.data r
                      (StreamReader.ReadAt.toRead r off cso cbo buff.length)
                      (StreamReader.ReadAt.pos r s cso)).length))
                  (reads ++
                    [((StreamReader.ReadAt.toRead r off cso cbo buff.length).toNat,
                      StreamReader.ReadAt.pos r s cso)])
      else StreamReader.ReadAt.finish cbo buff reads := by
  rw [StreamReader.ReadAt.loop]
  rfl

theorem toRead_le_buffer (r : StreamReader) (off cso : Int) (cbo len : Nat) :
    StreamReader.ReadAt.toRead r off cso cbo len ≤ (len : Int) - cbo := by
  unfold StreamReader.ReadAt.toRead
  simp only []
  split_ifs <;> omega

theorem length_data_le (r : StreamReader) (t pos : Int) :
    (StreamReader.ReadAt.data r t pos).length ≤ t.toNat := by
  unfold StreamReader.ReadAt.data
  rw [List.length_take]
  exact Nat.min_le_left _ _

theorem length_patch (buff data : List Nat) (cbo : Nat) (h : cbo + data.length ≤ buff.length) :
    (buff.take cbo ++ data ++ buff.drop (cbo + data.length)).length = buff.length := by
  simp only [List.length_append, List.length_take, List.length_drop]
  omega

theorem take_patch (buff data : List Nat) (cbo : Nat) (h : cbo ≤ buff.length) :
    (buff.take cbo ++ data ++ buff.drop (cbo + data.length)).take (cbo + data.length) =
      buff.take cbo ++ data := by
  have hl : (buff.take cbo ++ data).length = cbo + data.length := by
    simp only [List.length_append, List.length_take]
    omega
  rw [List.take_append_of_le_length (by rw [hl]), List.take_of_length_le (by rw [hl])]

/-- A call of the loop that returns leaves the length of the buffer as it was
and returns a count between 0 and that length. -/
theorem ReadAt_loop_bounds (r : StreamReader) (off : Int) :
    ∀ (fuel : Nat) (cs cso : Int) (cbo : Nat) (buff : List Nat) (reads : List (Nat × Int))
      (out : ReadOut), cbo ≤ buff.length →
      StreamReader.ReadAt.loop r off fuel cs cso cbo buff reads = .ret out →
      out.buf.length = buff.length ∧ 0 ≤ out.n ∧ out.n ≤ buff.length := by
  intro fuel
  induction fuel with
  | zero => intro cs cso cbo buff reads out _ h; simp [StreamReader.ReadAt.loop] at h
  | succ fuel ih =>
    intro cs cso cbo buff reads out hcbo h
    have hfin : ∀ out, StreamReader.ReadAt.finish cbo buff reads = .ret out →
        out.buf.length = buff.length ∧ 0 ≤ out.n ∧ out.n ≤ buff.length := by
      intro out hf
      unfold StreamReader.ReadAt.finish at hf
      split at hf
      · simp at hf; rw [← hf]; simp
      · simp at hf; rw [← hf]; simp; omega
    rw [ReadAt_loop_unfold] at h
    have hle := toRead_le_buffer r off cso cbo buff.length
    generalize StreamReader.ReadAt.toRead r off cso cbo buff.length = t at h hle
    split at h
    · split at h
      · exact hfin out h
      · split at h
        · simp at h
        · split at h
          · simp at h
          · rename_i s _
            split at h
            · simp at h
            · rename_i ht
              have hd := length_data_le r t (StreamReader.ReadAt.pos r s cso)
              generalize StreamReader.ReadAt.data r t (StreamReader.ReadAt.pos r s cso) =
                data at h hd
              have hfit : cbo + data.length ≤ buff.length := by omega
              have hlen := length_patch buff data cbo hfit
              split at h
              · cases h
                exact ⟨hlen, le_refl _, Int.natCast_nonneg _⟩
              · have := ih _ _ _ _ _ out (by rw [hlen]; exact hfit) h
                rw [hlen] at this
                exact this
    · exact hfin out h

/-- `ReadAt` leaves the length of the buffer as it was and returns a count
between 0 and that length. -/
theorem ReadAt_bounds (r : StreamReader) (buff : List Nat) (off : Int) (out : ReadOut)
    (h : r.ReadAt buff off = .ret out) :
    out.buf.length = buff.length ∧ 0 ≤ out.n ∧ out.n ≤ buff.length := by
  unfold StreamReader.ReadAt at h
  split at h
  · simp at h
  · simp only [] at h
    split at h
    · simp at h; rw [← h]; simp
    · exact ReadAt_loop_bounds r off _ _ _ _ _ _ out (Nat.zero_le _) h

/-- What a caller sees of a call of the loop does not depend on what the
buffer held beyond the bytes already read. -/
theorem ReadAt_loop_observed (r : StreamReader) (off : Int) :
    ∀ (fuel : Nat) (cs cso : Int) (cbo : Nat) (b1 b2 : List Nat) (reads : List (Nat × Int)),
      b1.length = b2.length → b1.take cbo = b2.take cbo →
      (StreamReader.ReadAt.loop r off fuel cs cso cbo b1 reads).map ReadOut.observed =
        (StreamReader.ReadAt.loop r off fuel cs cso cbo b2 reads).map ReadOut.observed := by
  intro fuel
  induction fuel with
  | zero => intro cs cso cbo b1 b2 reads _ _; rfl
  | succ fuel ih =>
    intro cs cso cbo b1 b2 reads hlen htake
    have hfin : (StreamReader.ReadAt.finish cbo b1 reads).map ReadOut.observed =
        (StreamReader.ReadAt.finish cbo b2 reads).map ReadOut.observed := by
      unfold StreamReader.ReadAt.finish
      split
      · simp [Outcome.map, ReadOut.observed]
      · simp [Outcome.map, ReadOut.observed, htake]
    rw [ReadAt_loop_unfold, ReadAt_loop_unfold, hlen]
    have hle := toRead_le_buffer r off cso cbo b2.length
    generalize StreamReader.ReadAt.toRead r off cso cbo b2.length = t at hle ⊢
    split
    · rename_i hcond
      split
      · exact hfin
      · split
        · rfl
        · split
          · rfl
          · rename_i s _
            split
            · rfl
            · have hd := length_data_le r t (StreamReader.ReadAt.pos r s cso)
              generalize StreamReader.ReadAt.data r t (StreamReader.ReadAt.pos r s cso) =
                data at hd ⊢
              have hfit : cbo + data.length ≤ b2.length := by omega
              split
              · simp [Outcome.map, ReadOut.observed]
              · apply ih
                · rw [length_patch b1 data cbo (by omega), length_patch b2 data cbo hfit, hlen]
                · rw [take_patch b1 data cbo (by omega), take_patch b2 data cbo (by omega), htake]
    · exact hfin

/-- What a caller sees of `ReadAt` (count, error, bytes returned, reads issued)
depends on the length of the buffer only, not on what it held. -/
theorem ReadAt_observed (r : StreamReader) (b1 b2 : List Nat) (off : Int)
    (hlen : b1.length = b2.length) :
    (r.ReadAt b1 off).map ReadOut.observed = (r.ReadAt b2 off).map ReadOut.observed := by
  unfold StreamReader.ReadAt
  split
  · rfl
  · simp only []
    split
    · simp [Outcome.map, ReadOut.observed]
    · exact ReadAt_loop_observed r off _ _ _ 0 b1 b2 [] hlen rfl

theorem toRead_range (r : StreamReader) (off cso : Int) (cbo len : Nat)
    (hSS64 : r.SectorSize < 9223372036854775808) (hS64 : r.Size < 9223372036854775808)
    (hoff : 0 ≤ off) (hcso : 0 ≤ cso ∧ cso < r.SectorSize) (hcbo : cbo ≤ len)
    (hfile : off + cbo ≤ r.Size) :
    0 ≤ StreamReader.ReadAt.toRead r off cso cbo len ∧
    StreamReader.ReadAt.toRead r off cso cbo len ≤ r.Size - (off + cbo) := by
  have hw1 : wrap64 (off + cbo) = off + cbo := wrap64_of_IsInt64 _ ⟨by omega, by omega⟩
  have hw2 : wrap64 (r.Size - (off + cbo)) = r.Size - (off + cbo) :=
    wrap64_of_IsInt64 _ ⟨by omega, by omega⟩
  have hw3 : wrap64 (r.SectorSize - cso) = r.SectorSize - cso :=
    wrap64_of_IsInt64 _ ⟨by omega, by omega⟩
  unfold StreamReader.ReadAt.toRead
  simp only [hw1, hw2, hw3]
  split_ifs <;> omega

/-- The loop of `ReadAt` does not panic for a reader with a positive sector
size and a non-negative offset. -/
theorem ReadAt_loop_no_panic (r : StreamReader) (off : Int)
    (hSS : 0 < r.SectorSize) (hSS64 : r.SectorSize < 9223372036854775808)
    (hS64 : r.Size < 9223372036854775808) (hoff : 0 ≤ off) :
    ∀ (fuel : Nat) (cs cso : Int) (cbo : Nat) (buff : List Nat) (reads : List (Nat × Int)),
      0 ≤ cs → 0 ≤ cso → cso < r.SectorSize → off + cbo ≤ r.Size →
      StreamReader.ReadAt.loop r off fuel cs cso cbo buff reads ≠ .panic := by
  intro fuel
  induction fuel with
  | zero => intro cs cso cbo buff reads _ _ _ _; simp [StreamReader.ReadAt.loop]
  | succ fuel ih =>
    intro cs cso cbo buff reads hcs hcso0 hcso1 hfile
    have hfin : StreamReader.ReadAt.finish cbo buff reads ≠ .panic := by
      unfold StreamReader.ReadAt.finish
      split <;> simp
    rw [ReadAt_loop_unfold]
    split
    · rename_i hcond
      have hr := toRead_range r off cso cbo buff.length hSS64 hS64 hoff ⟨hcso0, hcso1⟩
        hcond.1 hfile
      generalize StreamReader.ReadAt.toRead r off cso cbo buff.length = t at hr ⊢
      split
      · exact hfin
      · rw [if_neg (by omega)]
        have hlt : cs.toNat < r.Sectors.length := by
          have := hcond.2
          omega
        rw [List.getElem?_eq_getElem hlt]
        simp only []
        rw [if_neg (by omega)]
        have hd := length_data_le r t (StreamReader.ReadAt.pos r r.Sectors[cs.toNat] cso)
        generalize StreamReader.ReadAt.data r t
          (StreamReader.ReadAt.pos r r.Sectors[cs.toNat] cso) = data at hd ⊢
        split
        · simp
        · apply ih
          · omega
          · exact le_refl _
          · exact hSS
          · push_cast
            omega
    · exact hfin

/-- `ReadAt` does not panic for a reader with a positive sector size (sizes in
`int64`) and a non-negative offset. -/
theorem ReadAt_no_panic (r : StreamReader) (buff : List Nat) (off : Int)
    (hSS : 0 < r.SectorSize) (hSS64 : r.SectorSize < 9223372036854775808)
    (hS64 : r.Size < 9223372036854775808) (hoff : 0 ≤ off) (hoff64 : off < 9223372036854775808) :
    r.ReadAt buff off ≠ .panic := by
  have hne : r.SectorSize ≠ 0 := by omega
  have hdiv0 : 0 ≤ off / r.SectorSize := Int.ediv_nonneg hoff (le_of_lt hSS)
  have hdivle : off / r.SectorSize ≤ off := Int.ediv_le_self _ hoff
  have htd : Int.tdiv off r.SectorSize = off / r.SectorSize :=
    Int.tdiv_eq_ediv hoff (le_of_lt hSS)
  have htm : Int.tmod off r.SectorSize = off % r.SectorSize :=
    Int.tmod_eq_emod hoff (le_of_lt hSS)
  have hw : wrap64 (off / r.SectorSize) = off / r.SectorSize :=
    wrap64_of_IsInt64 _ ⟨by omega, by omega⟩
  unfold StreamReader.ReadAt
  rw [if_neg hne]
  simp only [htd, htm, hw]
  split
  · simp
  · rename_i hc
    apply ReadAt_loop_no_panic r off hSS hSS64 hS64 hoff
    · exact hdiv0
    · exact Int.emod_nonneg _ hne
    · exact Int.emod_lt_of_pos _ hSS
    · simp only [Nat.cast_zero, add_zero]
      omega

/-! ## `OpenDirectoryStream`, path by path -/

theorem GetDirentry_of_getElem? (self : OLEContext) (i : Nat) (d : DirectoryEntry)
    (hd : self.Directories[i]? = some d) : self.GetDirentry i = .ret (.ok d) := by
  have hi : i < self.Directories.length := by
    by_contra hc
    rw [List.getElem?_eq_none (by omega)] at hd
    simp at hd
  unfold OLEContext.GetDirentry
  rw [if_neg (by omega), hd]

/-- The MiniFAT path, when it gets through: the reader holds what the loop over
the chain collected, cut to the declared size, and the size is the declared one. -/
theorem OpenDirectoryStream_mini (M : Nat) (self : OLEContext) (i : Nat) (d : DirectoryEntry)
    (chain res : List Nat)
    (hd : self.Directories[i]? = some d) (hsmall : d.Size < self.MiniSectorCutoff)
    (hMSS : 0 ≤ self.MiniSectorSize)
    (hcap : d.Size ≤ maxAlloc) (hlen : self.MiniSectorSize ≤ maxAlloc)
    (hchain : self.getMiniChain M d.FirstSector = .ret (chain, none))
    (hloop : OLEContext.OpenDirectoryStream.loop self chain
      (List.replicate self.MiniSectorSize.toNat 0) [] = .ret res) :
    self.OpenDirectoryStream M i = .ret (.ok (.bytesReader (res.take d.Size), wrap64 d.Size)) := by
  unfold OLEContext.OpenDirectoryStream
  rw [GetDirentry_of_getElem? self i d hd]
  simp only []
  rw [if_pos hsmall, if_neg (by omega), if_neg (by omega)]
  simp only [hchain, hloop]
  congr 4
  split
  · rfl
  · rw [List.take_of_length_le (by omega)]

/-- The MiniFAT path read backwards: a successful call on a small entry has
walked the MiniFAT and collected the bytes of the loop. -/
theorem OpenDirectoryStream_mini_inv (M : Nat) (self : OLEContext) (i : Nat) (d : DirectoryEntry)
    (rd : Stream) (size : Int)
    (hd : self.Directories[i]? = some d) (hsmall : d.Size < self.MiniSectorCutoff)
    (hok : self.OpenDirectoryStream M i = .ret (.ok (rd, size))) :
    0 ≤ self.MiniSectorSize ∧ ∃ chain res,
      self.getMiniChain M d.FirstSector = .ret (chain, none) ∧
      OLEContext.OpenDirectoryStream.loop self chain
        (List.replicate self.MiniSectorSize.toNat 0) [] = .ret res ∧
      rd = .bytesReader (res.take d.Size) ∧ size = wrap64 d.Size := by
  unfold OLEContext.OpenDirectoryStream at hok
  rw [GetDirentry_of_getElem? self i d hd] at hok
  simp only [] at hok
  rw [if_pos hsmall] at hok
  split at hok
  · simp at hok
  · split at hok
    · simp at hok
    · rename_i hm
      refine ⟨by omega, ?_⟩
      split at hok
      · simp at hok
      · simp at hok
      · simp at hok
      · rename_i chain hc
        split at hok
        · simp at hok
        · simp at hok
        · rename_i res hl
          refine ⟨chain, res, hc, hl, ?_⟩
          simp only [Outcome.ret.injEq, Except.ok.injEq, Prod.mk.injEq] at hok
          refine ⟨?_, hok.2.symm⟩
          rw [← hok.1]
          congr 1
          split
          · rfl
          · rw [List.take_of_length_le (by omega)]

/-- The regular-FAT path read backwards. -/
theorem OpenDirectoryStream_regular_inv (M : Nat) (self : OLEContext) (i : Nat)
    (d : DirectoryEntry) (rd : Stream) (size : Int)
    (hd : self.Directories[i]? = some d) (hbig : ¬ d.Size < self.MiniSectorCutoff)
    (hok : self.OpenDirectoryStream M i = .ret (.ok (rd, size))) :
    ∃ res, self.OpenStream M d.FirstSector = .ret (.ok res) ∧
      rd = .readAdapter (if d.Size > 0 ∧ d.Size < toUint64 res.Size then
          { res with Size := wrap64 d.Size } else res) ∧
      size = (if d.Size > 0 ∧ d.Size < toUint64 res.Size then
          { res with Size := wrap64 d.Size } else res).Size := by
  unfold OLEContext.OpenDirectoryStream at hok
  rw [GetDirentry_of_getElem? self i d hd] at hok
  simp only [] at hok
  rw [if_neg hbig] at hok
  split at hok
  · simp at hok
  · simp at hok
  · simp at hok
  · rename_i res ho
    simp only [Outcome.ret.injEq, Except.ok.injEq, Prod.mk.injEq] at hok
    exact ⟨res, ho, hok.1.symm, hok.2.symm⟩

/-- The bytes that the loop over the chain collects: at most one buffer per
mini sector. -/
theorem OpenDirectoryStream_loop_length (self : OLEContext) :
    ∀ (chain buff res out : List Nat),
      OLEContext.OpenDirectoryStream.loop self chain buff res = .ret out →
      out.length ≤ res.length + chain.length * buff.length := by
  intro chain
  induction chain with
  | nil =>
    intro buff res out h
    simp [OLEContext.OpenDirectoryStream.loop] at h
    rw [← h]; simp
  | cons s rest ih =>
    intro buff res out h
    rw [OLEContext.OpenDirectoryStream.loop] at h
    split at h
    · simp at h
    · rename_i ms _
      split at h
      · simp at h
      · simp at h
      · rename_i o ho
        obtain ⟨hb1, hb2, hb3⟩ := ReadAt_bounds ms buff _ o ho
        split at h
        · simp at h
          rw [← h]
          omega
        · have := ih _ _ _ h
          rw [hb1] at this
          have hnat : o.n.toNat ≤ buff.length := by omega
          have hl : (res ++ List.take o.n.toNat o.buf).length ≤ res.length + buff.length := by
            rw [List.length_append, List.length_take]
            omega
          simp only [List.length_cons]
          have hmul : (rest.length + 1) * buff.length =
              rest.length * buff.length + buff.length := by ring
          omega

/-! ## The sectors of a chain are sector ids of the table -/

theorem getChain_loop_mem (M : Nat) (self : OLEContext) :
    ∀ (fuel sector : Nat) (res chain : List Nat) (e : Option Error),
      OLEContext.getChain.loop M self [] fuel sector res = .ret (chain, e) →
      ∀ x ∈ chain, x ∈ res ∨ x = sector ∨ x ∈ self.Fat := by
  intro fuel
  induction fuel with
  | zero => intro sector res chain e h; simp [OLEContext.getChain.loop] at h
  | succ fuel ih =>
    intro sector res chain e h x hx
    rw [OLEContext.getChain.loop] at h
    by_cases h1 : sector = ENDOFCHAIN
    · simp [h1] at h; rw [← h.1] at hx; exact Or.inl hx
    · by_cases h2 : sector > self.Fat.length
      · simp [h1, h2] at h
        rw [← h.1] at hx
        rcases List.mem_append.1 hx with hx | hx
        · exact Or.inl hx
        · exact Or.inr (Or.inl (List.mem_singleton.1 hx))
      · simp only [ne_eq, h1, not_false_eq_true, if_true, h2, if_false] at h
        cases hn : self.Fat[sector]? with
        | none => rw [hn] at h; simp at h
        | some next =>
          rw [hn] at h
          have hnext : next ∈ self.Fat := List.getElem?_mem hn
          by_cases h4 : M < res.length + 1
          · simp [h4] at h
            rw [← h.1] at hx
            rcases List.mem_append.1 hx with hx | hx
            · exact Or.inl hx
            · exact Or.inr (Or.inl (List.mem_singleton.1 hx))
          · simp only [List.contains_nil, Bool.false_eq_true, if_false, List.length_append,
              List.length_singleton, gt_iff_lt, h4] at h
            rcases ih next (res ++ [sector]) chain e h x hx with hx | hx | hx
            · rcases List.mem_append.1 hx with hx | hx
              · exact Or.inl hx
              · exact Or.inr (Or.inl (List.mem_singleton.1 hx))
            · exact Or.inr (Or.inr (hx ▸ hnext))
            · exact Or.inr (Or.inr hx)

theorem toMiniError_ret (o : Outcome (List Nat × Option Error)) (chain : List Nat)
    (e : Option Error) (h : toMiniError o = .ret (chain, e)) : ∃ e', o = .ret (chain, e') := by
  unfold toMiniError at h
  split at h
  · simp at h; exact ⟨_, by rw [h.1]⟩
  · simp at h; exact ⟨_, by rw [h.1]⟩
  · exact ⟨e, h⟩

/-- Every sector of a chain walked over the MiniFAT is the start sector or an
entry of the MiniFAT. -/
theorem getMiniChain_mem (M : Nat) (self : OLEContext) (start : Nat) (chain : List Nat)
    (e : Option Error) (h : self.getMiniChain M start = .ret (chain, e)) :
    ∀ x ∈ chain, x = start ∨ x ∈ self.MiniFat := by
  rw [getMiniChain_eq] at h
  obtain ⟨e', h'⟩ := toMiniError_ret _ chain e h
  intro x hx
  rcases getChain_loop_mem M { self with Fat := self.MiniFat } _ _ _ chain e' h' x hx with
    hx | hx | hx
  · simp at hx
  · exact Or.inl hx
  · exact Or.inr hx

/-- Every sector of a chain walked over the FAT is the start sector or an entry
of the FAT. -/
theorem getChain_mem (M : Nat) (self : OLEContext) (start : Nat) (chain : List Nat)
    (e : Option Error) (h : self.getChain M start = .ret (chain, e)) :
    ∀ x ∈ chain, x = start ∨ x ∈ self.Fat := by
  intro x hx
  rcases getChain_loop_mem M self _ _ _ chain e h x hx with hx | hx | hx
  · simp at hx
  · exact Or.inl hx
  · exact Or.inr hx

/-! ## The loop over the mini sectors -/

theorem miniOffset_eq (m : Nat) (hm : m < 4294967296) :
    wrap64 ((m : Int) * 64) = 64 * (m : Int) :=
  wrap64_of_IsInt64 _ ⟨by omega, by omega⟩ |>.trans (by ring)

/-- The loop over the chain returns when the mini stream is a reader with a
positive sector size. -/
theorem OpenDirectoryStream_loop_returns (self : OLEContext) (ms : StreamReader)
    (hMSS : self.MiniSectorSize = 64) (hms : self.Ministream = some ms)
    (hSS : 0 < ms.SectorSize) (hSS64 : IsInt64 ms.SectorSize) (hS64 : IsInt64 ms.Size) :
    ∀ (chain buff res : List Nat), (∀ m ∈ chain, m < 4294967296) →
      ∃ out, OLEContext.OpenDirectoryStream.loop self chain buff res = .ret out := by
  intro chain
  induction chain with
  | nil => intro buff res _; exact ⟨res, rfl⟩
  | cons s rest ih =>
    intro buff res hu
    have hs : s < 4294967296 := hu s (List.mem_cons_self _ _)
    rw [OLEContext.OpenDirectoryStream.loop, hms, hMSS]
    simp only []
    rw [miniOffset_eq s hs]
    have hnp := ReadAt_no_panic ms buff (64 * (s : Int)) hSS hSS64.2 hS64.2 (by omega) (by omega)
    have hnt := ReadAt_ne_timeout ms buff (64 * (s : Int))
    cases ho : ms.ReadAt buff (64 * (s : Int)) with
    | panic => exact absurd ho hnp
    | timeout => exact absurd ho hnt
    | ret o =>
      simp only []
      split
      · exact ⟨res, rfl⟩
      · exact ih _ _ (fun m hm => hu m (List.mem_cons_of_mem _ hm))

theorem Outcome_map_eq_ret {α β : Type} (f : α → β) (o1 o2 : Outcome α) (a : α)
    (h : o1.map f = o2.map f) (h2 : o2 = .ret a) : ∃ b, o1 = .ret b ∧ f b = f a := by
  subst h2
  cases o1 with
  | ret b => exact ⟨b, rfl, by simpa [Outcome.map] using h⟩
  | panic => simp [Outcome.map] at h
  | timeout => simp [Outcome.map] at h

/-- When every read of the mini stream succeeds, the loop collects the slices of
the mini sectors of the chain, in chain order. -/
theorem OpenDirectoryStream_loop_slices (self : OLEContext) (ms : StreamReader)
    (hMSS : self.MiniSectorSize = 64) (hms : self.Ministream = some ms) :
    ∀ (chain buff res : List Nat), buff.length = 64 →
      (∀ m ∈ chain, m < 4294967296 ∧
        ∃ out, ms.ReadAt (List.replicate 64 0) (64 * (m : Int)) = .ret out ∧ out.err = none) →
      OLEContext.OpenDirectoryStream.loop self chain buff res =
        .ret (res ++ chain.flatMap (miniSlice ms)) := by
  intro chain
  induction chain with
  | nil => intro buff res _ _; simp [OLEContext.OpenDirectoryStream.loop]
  | cons s rest ih =>
    intro buff res hlen hreads
    obtain ⟨hs, out0, hout0, herr0⟩ := hreads s (List.mem_cons_self _ _)
    have hobs := ReadAt_observed ms buff (List.replicate 64 0) (64 * (s : Int))
      (by rw [hlen, List.length_replicate])
    obtain ⟨o, ho, hoo⟩ := Outcome_map_eq_ret ReadOut.observed _ _ out0 hobs hout0
    simp only [ReadOut.observed, Prod.mk.injEq] at hoo
    have hslice : miniSlice ms s = out0.buf.take out0.n.toNat := by
      unfold miniSlice readBytes
      rw [hout0]
    rw [OLEContext.OpenDirectoryStream.loop, hms, hMSS]
    simp only []
    rw [miniOffset_eq s hs, ho]
    simp only []
    have herr : o.err = none := by rw [hoo.2.1]; exact herr0
    rw [herr]
    simp only []
    rw [ih o.buf _ (by rw [(ReadAt_bounds ms buff _ o ho).1, hlen])
      (fun m hm => hreads m (List.mem_cons_of_mem _ hm))]
    rw [List.flatMap_cons, hslice, hoo.2.2.1, List.append_assoc]

/-! ## Small streams -/

/-- C15: for every valid index `i` with `Directories[i].Size < MiniSectorCutoff`
(cutoff 4096, mini sectors of 64 bytes, sector ids `uint32`) whose walk over the
MiniFAT from `FirstSector` succeeds with the chain `chain` and whose reads of
the mini stream all succeed, `OpenDirectoryStream(i)` returns the in-memory
reader over the first `Directories[i].Size` bytes of the concatenation, in
chain order, of the slices `[64 * m, 64 * m + 64)` of the mini stream for the
mini sectors `m` of the chain. -/
theorem OpenDirectoryStream_small_content (M : Nat) (self : OLEContext) (i : Nat)
    (d : DirectoryEntry) (ms : StreamReader) (chain : List Nat)
    (hd : self.Directories[i]? = some d) (hsmall : d.Size < self.MiniSectorCutoff)
    (hcut : self.MiniSectorCutoff = 4096) (hMSS : self.MiniSectorSize = 64)
    (hfirst : d.FirstSector < 4294967296) (hfat : ∀ x ∈ self.MiniFat, x < 4294967296)
    (hms : self.Ministream = some ms)
    (hchain : self.getMiniChain M d.FirstSector = .ret (chain, none))
    (hreads : ∀ m ∈ chain, ∃ out,
      ms.ReadAt (List.replicate 64 0) (64 * (m : Int)) = .ret out ∧ out.err = none) :
    self.OpenDirectoryStream M i =
      .ret (.ok (.bytesReader ((chain.flatMap (miniSlice ms)).take d.Size), wrap64 d.Size)) := by
  have hu : ∀ m ∈ chain, m < 4294967296 := by
    intro m hm
    rcases getMiniChain_mem M self _ chain none hchain m hm with e | e
    · rw [e]; exact hfirst
    · exact hfat m e
  have hloop := OpenDirectoryStream_loop_slices self ms hMSS hms chain
    (List.replicate self.MiniSectorSize.toNat 0) []
    (by rw [hMSS, List.length_replicate]; rfl) (fun m hm => ⟨hu m hm, hreads m hm⟩)
  rw [List.nil_append] at hloop
  have hcap : d.Size ≤ maxAlloc := by
    unfold maxAlloc
    omega
  exact OpenDirectoryStream_mini M self i d chain _ hd hsmall (by omega) hcap
    (by rw [hMSS]; decide) hchain hloop

set_option maxRecDepth 100000 in
/-- Witness of `OpenDirectoryStream_small_content`: entry 1 of the sample
context, a stream of 128 bytes in the mini sectors 0 and 1; of the reader
returned, 8 bytes are readable at offset 120 and none at offset 128. -/
theorem OpenDirectoryStream_small_content_witness :
    ∃ rd size, sampleContext.OpenDirectoryStream 1048576 1 = .ret (.ok (rd, size)) ∧
      (∃ out, rd.ReadAt (List.replicate 8 0) 120 = .ret out ∧ out.n = 8 ∧ out.err = none) ∧
      (∃ out, rd.ReadAt (List.replicate 8 0) 128 = .ret out ∧ out.n = 0 ∧
        out.err = some .EOF) := by
  have h := OpenDirectoryStream_small_content 1048576 sampleContext 1
    (sampleEntry "Small" 1 128 0) sampleMinistream [0, 1] rfl (by decide) rfl rfl (by decide)
    (by decide) rfl (by decide)
    (by
      intro m hm
      simp only [List.mem_cons, List.mem_singleton, List.not_mem_nil, or_false] at hm
      rcases hm with e | e <;> subst e
      · exact ⟨_, rfl, rfl⟩
      · exact ⟨_, rfl, rfl⟩)
  exact ⟨_, _, h, ⟨_, rfl, by decide, by decide⟩, ⟨_, rfl, by decide, by decide⟩⟩

/-! ## Empty streams -/

theorem bytesReader_nil_ReadAt (buff : List Nat) (off : Int) :
    (bytesReaderReadAt [] buff off).n = 0 ∧ (bytesReaderReadAt [] buff off).buf = buff := by
  unfold bytesReaderReadAt
  split
  · exact ⟨rfl, rfl⟩
  · rename_i h
    rw [if_pos (by simp only [List.length_nil, Nat.cast_zero]; omega)]
    exact ⟨rfl, rfl⟩

/-- C12 (amended): for every context with `MiniSectorCutoff = 4096` and mini
sectors of 64 bytes and every valid directory index `i` with
`Directories[i].Size = 0` whose walk over the MiniFAT from `FirstSector`
succeeds (and whose mini stream, unless the chain is empty, is a reader with a
positive sector size), `OpenDirectoryStream(i)` returns a reader of size 0 whose
`ReadAt` yields zero bytes at every offset and leaves the buffer as it was. -/
theorem OpenDirectoryStream_empty (M : Nat) (self : OLEContext) (i : Nat) (d : DirectoryEntry)
    (chain : List Nat)
    (hcut : self.MiniSectorCutoff = 4096) (hMSS : self.MiniSectorSize = 64)
    (hd : self.Directories[i]? = some d) (hsize : d.Size = 0)
    (hfirst : d.FirstSector < 4294967296) (hfat : ∀ x ∈ self.MiniFat, x < 4294967296)
    (hchain : self.getMiniChain M d.FirstSector = .ret (chain, none))
    (hms : chain = [] ∨ ∃ ms, self.Ministream = some ms ∧ 0 < ms.SectorSize ∧
      IsInt64 ms.SectorSize ∧ IsInt64 ms.Size) :
    ∃ rd, self.OpenDirectoryStream M i = .ret (.ok (rd, 0)) ∧
      ∀ (buff : List Nat) (off : Int), ∃ out, rd.ReadAt buff off = .ret out ∧ out.n = 0 ∧
        out.buf = buff := by
  have hu : ∀ m ∈ chain, m < 4294967296 := by
    intro m hm
    rcases getMiniChain_mem M self _ chain none hchain m hm with e | e
    · rw [e]; exact hfirst
    · exact hfat m e
  have hret : ∃ res, OLEContext.OpenDirectoryStream.loop self chain
      (List.replicate self.MiniSectorSize.toNat 0) [] = .ret res := by
    rcases hms with hnil | ⟨ms, h1, h2, h3, h4⟩
    · subst hnil; exact ⟨[], rfl⟩
    · exact OpenDirectoryStream_loop_returns self ms hMSS h1 h2 h3 h4 chain _ _ hu
  obtain ⟨res, hres⟩ := hret
  have hods := OpenDirectoryStream_mini M self i d chain res hd (by omega) (by omega)
    (by rw [hsize]; exact Nat.zero_le _) (by rw [hMSS]; decide) hchain hres
  rw [hsize] at hods
  refine ⟨.bytesReader (res.take 0), hods, ?_⟩
  intro buff off
  refine ⟨_, rfl, ?_⟩
  rw [List.take_zero]
  exact bytesReader_nil_ReadAt buff off

/-- Witness of `OpenDirectoryStream_empty`: the root entry of a context with an
empty mini stream (size 0, `FirstSector = ENDOFCHAIN`). -/
theorem OpenDirectoryStream_empty_witness :
    ∃ rd, emptyRootContext.OpenDirectoryStream 1048576 0 = .ret (.ok (rd, 0)) ∧
      ∀ (buff : List Nat) (off : Int), ∃ out, rd.ReadAt buff off = .ret out ∧ out.n = 0 ∧
        out.buf = buff :=
  OpenDirectoryStream_empty 1048576 emptyRootContext 0
    { (sampleEntry "Root Entry" 0 0 ENDOFCHAIN) with IsDir := true } [] rfl rfl rfl rfl
    (by decide) (by decide) (by decide) (Or.inl rfl)

/-- C12 as stated fails: a valid directory index with `Size = 0` whose first
sector lies beyond the MiniFAT gets the reference error of the chain walk and
no reader. -/
theorem OpenDirectoryStream_empty_stray :
    strayEmptyContext.Directories[0]? = some (sampleEntry "Empty" 0 0 5) ∧
    (sampleEntry "Empty" 0 0 5).Size = 0 ∧
    strayEmptyContext.OpenDirectoryStream 1048576 0 =
      .ret (.error (.miniFatReferenceExceeded [5])) := by
  refine ⟨rfl, rfl, ?_⟩
  rfl

/-! ## Declared size and chain size -/

/-- The size of the reader that `OpenStream` returns is the size of its chain. -/
theorem OpenStream_size (M : Nat) (self : OLEContext) (s : Nat) (r : StreamReader)
    (hSS : self.SectorSize < 4294967296) (hM : M < 2147483648)
    (h : self.OpenStream M s = .ret (.ok r)) :
    r.Size = ((r.Sectors.length * self.SectorSize : Nat) : Int) ∧
    r.Sectors.length * self.SectorSize < 9223372036854775808 := by
  obtain ⟨chain, hc, hr⟩ := OpenStream_ok M self s r h
  have hlen := getChain_length M self s chain none hc
  have h1 : self.SectorSize * chain.length ≤ 4294967295 * 2147483648 :=
    Nat.mul_le_mul (by omega) (by omega)
  have h2 : ((self.SectorSize * chain.length : Nat) : Int) ≤ 4294967295 * 2147483648 := by
    exact_mod_cast h1
  push_cast at h2
  have h0 : 0 ≤ (self.SectorSize : Int) * (chain.length : Int) :=
    mul_nonneg (Int.natCast_nonneg _) (Int.natCast_nonneg _)
  rw [hr]
  simp only []
  rw [wrap64_of_IsInt64 _ ⟨by omega, by omega⟩, Nat.mul_comm]
  refine ⟨by push_cast; rfl, ?_⟩
  omega

/-- The size after the test `Size > 0 && Size < uint64(res.Size)` of
`OpenDirectoryStream` and `loadMiniFat`. -/
theorem clamped_size (r : StreamReader) (declared n : Nat)
    (hr : r.Size = (n : Int)) (hn : n < 9223372036854775808) :
    (if declared > 0 ∧ declared < toUint64 r.Size then
        { r with Size := wrap64 declared } else r).Size =
      ((if 0 < declared then min declared n else n : Nat) : Int) ∧
    (if declared > 0 ∧ declared < toUint64 r.Size then
        { r with Size := wrap64 declared } else r).Sectors = r.Sectors := by
  have hU : toUint64 r.Size = n := by
    rw [hr]
    unfold toUint64
    omega
  rw [hU]
  by_cases h0 : 0 < declared
  · by_cases hlt : declared < n
    · rw [if_pos ⟨h0, hlt⟩, if_pos h0]
      simp only []
      rw [wrap64_of_IsInt64 _ ⟨by omega, by omega⟩, Nat.min_eq_left (Nat.le_of_lt hlt)]
      exact ⟨rfl, trivial⟩
    · rw [if_neg (fun h => hlt h.2), if_pos h0, Nat.min_eq_right (Nat.le_of_not_lt hlt)]
      exact ⟨hr, rfl⟩
  · rw [if_neg (fun h => h0 h.1), if_neg h0]
    exact ⟨hr, rfl⟩

/-- C11 (amended): for a stream over a FAT chain the reported size is never
larger than `sector_count * SectorSize`: it is `sector_count * SectorSize` for
`OpenStream`, `min(declared_size, sector_count * SectorSize)` on the regular-FAT
path of `OpenDirectoryStream`, and for the mini stream built in `loadMiniFat`
`min(declared_size, sector_count * SectorSize)` when the declared size is
positive and `sector_count * SectorSize` when it is 0.  On the MiniFAT path of
`OpenDirectoryStream` the reported size is the declared size, and the reader
returned holds at most `min(declared_size, sector_count * 64)` bytes.
(`SectorSize` a `uint32`, cap below `2^31`, cutoff 4096, mini sectors of 64
bytes, declared sizes `uint64`.) -/
theorem reported_size (M : Nat) (self : OLEContext)
    (hSS : self.SectorSize < 4294967296) (hM : M < 2147483648)
    (hcut : self.MiniSectorCutoff = 4096) (hMSS : self.MiniSectorSize = 64) :
    (∀ s r, self.OpenStream M s = .ret (.ok r) →
      r.Size = ((r.Sectors.length * self.SectorSize : Nat) : Int)) ∧
    (∀ i d rd size, self.Directories[i]? = some d → 4096 ≤ d.Size →
      self.OpenDirectoryStream M i = .ret (.ok (rd, size)) →
      ∃ r, rd = .readAdapter r ∧ size = r.Size ∧
        r.Size = ((min d.Size (r.Sectors.length * self.SectorSize) : Nat) : Int)) ∧
    (∀ d ms, self.Directories[0]? = some d →
      OLEContext.loadMiniFat.ministream M self = .ret (.ok ms) →
      ms.Size = ((if 0 < d.Size then min d.Size (ms.Sectors.length * self.SectorSize)
        else ms.Sectors.length * self.SectorSize : Nat) : Int)) ∧
    (∀ i d rd size, self.Directories[i]? = some d → d.Size < 4096 →
      self.OpenDirectoryStream M i = .ret (.ok (rd, size)) →
      size = (d.Size : Int) ∧
      ∃ content chain, rd = .bytesReader content ∧
        self.getMiniChain M d.FirstSector = .ret (chain, none) ∧
        content.length ≤ min d.Size (chain.length * 64)) := by
  refine ⟨fun s r h => (OpenStream_size M self s r hSS hM h).1, ?_, ?_, ?_⟩
  · intro i d rd size hd hbig hok
    obtain ⟨res, ho, hrd, hsize⟩ := OpenDirectoryStream_regular_inv M self i d rd size hd
      (by omega) hok
    obtain ⟨h1, h2⟩ := OpenStream_size M self _ res hSS hM ho
    obtain ⟨c1, c2⟩ := clamped_size res d.Size _ h1 h2
    refine ⟨_, hrd, hsize, ?_⟩
    rw [c1, c2, if_pos (by omega)]
  · intro d ms hd hok
    unfold OLEContext.loadMiniFat.ministream at hok
    rw [GetDirentry_of_getElem? self 0 d hd] at hok
    simp only [] at hok
    split at hok
    · simp at hok
    · simp at hok
    · simp at hok
    · rename_i res ho
      obtain ⟨h1, h2⟩ := OpenStream_size M self _ res hSS hM ho
      obtain ⟨c1, c2⟩ := clamped_size res d.Size _ h1 h2
      have hms : ms = (if d.Size > 0 ∧ d.Size < toUint64 res.Size then
          { res with Size := wrap64 d.Size } else res) := by
        split at hok <;> rename_i hc
        · rw [if_pos hc]; simpa using hok.symm
        · rw [if_neg hc]; simpa using hok.symm
      rw [hms, c1, c2]
  · intro i d rd size hd hsmall hok
    obtain ⟨_, chain, res, hc, hl, hrd, hsize⟩ := OpenDirectoryStream_mini_inv M self i d rd size
      hd (by omega) hok
    refine ⟨?_, res.take d.Size, chain, hrd, hc, ?_⟩
    · rw [hsize]
      exact wrap64_of_IsInt64 _ ⟨by omega, by omega⟩
    · have := OpenDirectoryStream_loop_length self chain _ [] res hl
      rw [hMSS] at this
      simp only [List.length_nil, Nat.zero_add, List.length_replicate] at this
      rw [List.length_take]
      have h64 : (64 : Int).toNat = 64 := rfl
      rw [h64] at this
      omega

/-- Witness of `reported_size` in the sample context: the stream opened at
sector 0 has the size of its ten sectors, and entry 2, which declares 5000
bytes, is reported with 5000. -/
theorem reported_size_witness :
    (∃ r, sampleContext.OpenStream 1048576 0 = .ret (.ok r) ∧
      r.Size = ((r.Sectors.length * 512 : Nat) : Int)) ∧
    (∃ rd size, sampleContext.OpenDirectoryStream 1048576 2 = .ret (.ok (rd, size)) ∧
      ∃ r, rd = .readAdapter r ∧ size = r.Size ∧
        r.Size = ((min 5000 (r.Sectors.length * 512) : Nat) : Int)) := by
  have h := reported_size 1048576 sampleContext (by decide) (by decide) rfl rfl
  have ho : ∃ r, sampleContext.OpenStream 1048576 0 = .ret (.ok r) := ⟨_, rfl⟩
  have hd : ∃ rd size, sampleContext.OpenDirectoryStream 1048576 2 = .ret (.ok (rd, size)) :=
    ⟨_, _, rfl⟩
  obtain ⟨r, hr⟩ := ho
  obtain ⟨rd, size, hrd⟩ := hd
  exact ⟨⟨r, hr, h.1 0 r hr⟩,
    ⟨rd, size, hrd, h.2.1 2 (sampleEntry "Big" 2 5000 0) rd size rfl (by decide) hrd⟩⟩

/-- C11 as stated fails.  On the MiniFAT path the reported size is the declared
size whatever the chain: an entry that declares 100 bytes and has no mini
sector is reported with size 100, not `min(100, 0 * 64)`.  And the mini stream
of `loadMiniFat` for a root entry that declares size 0 over a chain of one
sector has size 512, not `min(0, 1 * 512)`. -/
theorem reported_size_not_min :
    declaredOnlyContext.getMiniChain 1048576 ENDOFCHAIN = .ret ([], none) ∧
    declaredOnlyContext.OpenDirectoryStream 1048576 0 = .ret (.ok (.bytesReader [], 100)) ∧
    (100 : Int) ≠ ((min 100 (([] : List Nat).length * 64) : Nat) : Int) ∧
    OLEContext.loadMiniFat.ministream 1048576 zeroRootContext =
      .ret (.ok { Reader := emptyReader, Size := 512, ReaderOffset := 512, Sectors := [0],
                  SectorSize := 512 }) ∧
    (512 : Int) ≠ ((min 0 (([0] : List Nat).length * 512) : Nat) : Int) := by
  refine ⟨by decide, rfl, by decide, rfl, by decide⟩

/-! ## The walk over the DIFAT sectors -/

theorem binaryRead_ok (count : Nat) (data : List Nat) (h : 4 * count ≤ data.length) :
    binaryRead count data = .ok ((List.range count).map (fun (i : Nat) => le32 data i)) := by
  unfold binaryRead
  rw [if_neg (by omega)]

theorem length_difValues (self : OLEContext) (sector : Nat) (h : self.readsInFull sector) :
    binaryRead (self.SectorSize / 4) (self.ReadSector sector).1 =
      .ok (self.difValues sector) ∧
    (self.difValues sector).length = self.SectorSize / 4 := by
  have hb := binaryRead_ok (self.SectorSize / 4) (self.ReadSector sector).1
    (by rw [h.2]; omega)
  unfold OLEContext.difValues
  rw [hb]
  simp

/-- A round of the loop on a sector that is read in full: the entries of the
sector are appended, and then the walk fails when the link has been seen or
more than `MAX_SECTORS` links are stored, and goes on to the link otherwise. -/
theorem loadDIFSectors_body_full (M : Nat) (base : OLEContext) (fs : List Nat)
    (sector : Nat) (seen reads : List Nat)
    (hfull : base.readsInFull sector) (hSS : 2 ≤ base.SectorSize / 4) :
    OLEContext.loadDIFSectors.body M
        { self := { base with FatSectors := fs }, sector := sector, seen := seen,
          reads := reads } =
      if seen.contains (base.difLink sector) ∨ seen.length > M then
        .done { self := { base with FatSectors := fs ++ base.difEntries sector },
                err := some (.difLoop sector (base.difLink sector)), seen := seen,
                reads := reads ++ [sector] }
      else
        .next { self := { base with FatSectors := fs ++ base.difEntries sector },
                sector := base.difLink sector, seen := seen ++ [base.difLink sector],
                reads := reads ++ [sector] } := by
  obtain ⟨hb, hl⟩ := length_difValues base sector hfull
  have hrs : ({ base with FatSectors := fs } : OLEContext).ReadSector sector =
      base.ReadSector sector := rfl
  have hlast : (base.difValues sector)[(base.difValues sector).length - 1]? =
      some (base.difLink sector) := by
    unfold OLEContext.difLink
    rw [hl, List.getD_eq_getElem?_getD, List.getElem?_eq_getElem (by omega)]
    rfl
  unfold OLEContext.loadDIFSectors.body
  simp only [hrs]
  rw [if_neg (by
    intro h
    rcases h with h | h
    · exact h hfull.1
    · rw [hfull.2] at h; exact absurd h (lt_irrefl _))]
  simp only [hb, hlast]
  rw [if_neg (by omega), hl]
  rfl

/-- A round of the loop on a sector whose read is short or fails: the walk
ends with the error of the read, which is `nil` for a short read without error,
and `FatSectors` stays as it is. -/
theorem loadDIFSectors_body_short (M : Nat) (st : DIFState)
    (h : (st.self.ReadSector st.sector).2 ≠ none ∨
      (st.self.ReadSector st.sector).1.length < st.self.SectorSize) :
    OLEContext.loadDIFSectors.body M st =
      .done { self := st.self, err := (st.self.ReadSector st.sector).2, seen := st.seen,
              reads := st.reads ++ [st.sector] } := by
  unfold OLEContext.loadDIFSectors.body
  simp only []
  rw [if_pos h]

theorem loadDIFSectors_loop_stop (M : Nat) (fuel : Nat) (st : DIFState)
    (h : st.sector = FREESECT ∨ st.sector = ENDOFCHAIN) :
    OLEContext.loadDIFSectors.loop M (fuel + 1) st =
      .ret { self := st.self, err := none, seen := st.seen, reads := st.reads } := by
  rw [OLEContext.loadDIFSectors.loop, if_neg]
  intro hc
  rcases h with h | h
  · exact hc.1 h
  · exact hc.2 h

/-- The walk along a chain of DIFAT sectors that are read in full and whose
links are new: the entries of the sectors are appended in chain order. -/
theorem loadDIFSectors_loop_steps (M : Nat) (base : OLEContext)
    (hSS : 2 ≤ base.SectorSize / 4) :
    ∀ (ds : List Nat) (fuel : Nat) (fs : List Nat) (sector stop : Nat) (seen reads : List Nat),
      base.difChain sector ds stop →
      (seen ++ ds.map base.difLink).Nodup → seen.length + ds.length ≤ M + 1 →
      OLEContext.loadDIFSectors.loop M (fuel + ds.length)
          { self := { base with FatSectors := fs }, sector := sector, seen := seen,
            reads := reads } =
        OLEContext.loadDIFSectors.loop M fuel
          { self := { base with FatSectors := fs ++ ds.flatMap base.difEntries },
            sector := stop, seen := seen ++ ds.map base.difLink, reads := reads ++ ds } := by
  intro ds
  induction ds with
  | nil =>
    intro fuel fs sector stop seen reads hch _ _
    simp only [OLEContext.difChain] at hch
    subst hch
    simp
  | cons d rest ih =>
    intro fuel fs sector stop seen reads hch hnd hlen
    simp only [OLEContext.difChain] at hch
    obtain ⟨hs, h1, h2, hfull, hrest⟩ := hch
    subst hs
    simp only [List.map_cons, List.length_cons] at hnd hlen
    have hfuel : fuel + (rest.length + 1) = (fuel + rest.length) + 1 := by omega
    have hnot : ¬ (seen.contains (base.difLink sector) = true ∨ seen.length > M) := by
      intro h
      rcases h with h | h
      · have hmem : base.difLink sector ∈ seen := by simpa using h
        have := List.nodup_append.1 hnd
        exact this.2.2 hmem (List.mem_cons_self _ _)
      · omega
    simp only [List.length_cons]
    rw [hfuel, OLEContext.loadDIFSectors.loop, if_pos ⟨h1, h2⟩,
      loadDIFSectors_body_full M base fs sector seen reads hfull hSS, if_neg hnot]
    simp only []
    rw [ih fuel _ _ stop _ _ hrest (by simpa [List.append_assoc] using hnd)
      (by simp only [List.length_append, List.length_singleton]; omega)]
    simp [List.append_assoc]

/-- The walk along a chain of DIFAT sectors read in full, when it returns
without error: `FatSectors` holds the entries of the sectors in chain order. -/
theorem loadDIFSectors_loop_ok (M : Nat) (base : OLEContext)
    (hSS : 2 ≤ base.SectorSize / 4) :
    ∀ (ds : List Nat) (fuel : Nat) (fs : List Nat) (sector stop : Nat) (seen reads : List Nat)
      (res : DIFResult),
      base.difChain sector ds stop → (stop = FREESECT ∨ stop = ENDOFCHAIN) →
      OLEContext.loadDIFSectors.loop M fuel
          { self := { base with FatSectors := fs }, sector := sector, seen := seen,
            reads := reads } = .ret res →
      res.err = none →
      res.self.FatSectors = fs ++ ds.flatMap base.difEntries ∧ res.reads = reads ++ ds := by
  intro ds
  induction ds with
  | nil =>
    intro fuel fs sector stop seen reads res hch hstop hret _
    simp only [OLEContext.difChain] at hch
    subst hch
    cases fuel with
    | zero => simp [OLEContext.loadDIFSectors.loop] at hret
    | succ fuel =>
      rw [loadDIFSectors_loop_stop M fuel _ hstop] at hret
      cases hret
      simp
  | cons d rest ih =>
    intro fuel fs sector stop seen reads res hch hstop hret herr
    simp only [OLEContext.difChain] at hch
    obtain ⟨hs, h1, h2, hfull, hrest⟩ := hch
    subst hs
    cases fuel with
    | zero => simp [OLEContext.loadDIFSectors.loop] at hret
    | succ fuel =>
      rw [OLEContext.loadDIFSectors.loop, if_pos ⟨h1, h2⟩,
        loadDIFSectors_body_full M base fs sector seen reads hfull hSS] at hret
      by_cases hc : (seen.contains (base.difLink sector) = true ∨ seen.length > M)
      · rw [if_pos hc] at hret
        cases hret
        simp at herr
      · rw [if_neg hc] at hret
        obtain ⟨e1, e2⟩ := ih fuel _ _ stop _ _ res hrest hstop hret herr
        rw [e1, e2]
        simp [List.append_assoc]

theorem binaryRead_length (count : Nat) (data values : List Nat)
    (h : binaryRead count data = .ok values) : values.length = count := by
  unfold binaryRead at h
  split at h
  · split at h <;> simp at h
  · simp at h
    rw [← h]
    simp

/-- What a round of the loop of `loadDIFSectors` does, for sectors of at least
8 bytes: it returns, after one more read, or it goes on, after one more read,
with a link that was not in `seen` and is now stored there. -/
theorem loadDIFSectors_body_cases (M : Nat) (st : DIFState)
    (hSS : 2 ≤ st.self.SectorSize / 4) :
    (∃ res, OLEContext.loadDIFSectors.body M st = .done res ∧
      res.reads = st.reads ++ [st.sector] ∧ res.seen = st.seen) ∨
    (∃ st', OLEContext.loadDIFSectors.body M st = .next st' ∧
      st'.reads = st.reads ++ [st.sector] ∧ st'.seen = st.seen ++ [st'.sector] ∧
      st'.sector ∉ st.seen ∧ st.seen.length ≤ M ∧
      st'.self.SectorSize = st.self.SectorSize ∧ st'.self.Header = st.self.Header) := by
  unfold OLEContext.loadDIFSectors.body
  simp only []
  split
  · exact Or.inl ⟨_, rfl, rfl, rfl⟩
  · cases hb : binaryRead (st.self.SectorSize / 4) (st.self.ReadSector st.sector).1 with
    | error e => exact Or.inl ⟨_, rfl, rfl, rfl⟩
    | ok values =>
      have hl := binaryRead_length _ _ _ hb
      simp only []
      rw [List.getElem?_eq_getElem (by omega)]
      simp only []
      rw [if_neg (by omega)]
      split
      · exact Or.inl ⟨_, rfl, rfl, rfl⟩
      · rename_i hc
        refine Or.inr ⟨_, rfl, rfl, rfl, ?_, ?_, rfl, rfl⟩
        · intro hmem
          exact hc (Or.inl (by simpa using hmem))
        · by_contra hlen
          exact hc (Or.inr (by omega))

/-- The loop of `loadDIFSectors` returns, and with at most `MAX_SECTORS + 2`
sector reads, of which every one but the last stored a new link. -/
theorem loadDIFSectors_loop_returns (M : Nat) :
    ∀ (fuel : Nat) (st : DIFState), 2 ≤ st.self.SectorSize / 4 →
      st.reads.length ≤ st.seen.length → st.seen.length ≤ M + 1 →
      M + 3 ≤ fuel + st.seen.length →
      ∃ res, OLEContext.loadDIFSectors.loop M fuel st = .ret res ∧
        res.reads.length ≤ M + 2 ∧ res.reads.length ≤ res.seen.length + 1 := by
  intro fuel
  induction fuel with
  | zero => intro st _ _ h1 h2; omega
  | succ fuel ih =>
    intro st hSS hr hs hf
    rw [OLEContext.loadDIFSectors.loop]
    split
    · rcases loadDIFSectors_body_cases M st hSS with ⟨res, hb, h1, h2⟩ |
        ⟨st', hb, h1, h2, _, h4, h5, _⟩
      · rw [hb]
        refine ⟨res, rfl, ?_, ?_⟩
        · rw [h1, List.length_append, List.length_singleton]; omega
        · rw [h1, h2, List.length_append, List.length_singleton]; omega
      · rw [hb]
        simp only []
        apply ih st' (by rw [h5]; exact hSS)
        · rw [h1, h2, List.length_append, List.length_append]; simp; omega
        · rw [h2, List.length_append, List.length_singleton]; omega
        · rw [h2, List.length_append, List.length_singleton]; omega
    · exact ⟨_, rfl, by simp only []; omega, by simp only []; omega⟩

theorem loadDIFSectors_loop_full (M : Nat) (base : OLEContext) (fuel : Nat) (fs : List Nat)
    (sector : Nat) (seen reads : List Nat)
    (h1 : sector ≠ FREESECT) (h2 : sector ≠ ENDOFCHAIN)
    (hfull : base.readsInFull sector) (hSS : 2 ≤ base.SectorSize / 4) :
    OLEContext.loadDIFSectors.loop M (fuel + 1)
        { self := { base with FatSectors := fs }, sector := sector, seen := seen,
          reads := reads } =
      if seen.contains (base.difLink sector) ∨ seen.length > M then
        .ret { self := { base with FatSectors := fs ++ base.difEntries sector },
               err := some (.difLoop sector (base.difLink sector)), seen := seen,
               reads := reads ++ [sector] }
      else
        OLEContext.loadDIFSectors.loop M fuel
          { self := { base with FatSectors := fs ++ base.difEntries sector },
            sector := base.difLink sector, seen := seen ++ [base.difLink sector],
            reads := reads ++ [sector] } := by
  rw [OLEContext.loadDIFSectors.loop, if_pos ⟨h1, h2⟩,
    loadDIFSectors_body_full M base fs sector seen reads hfull hSS]
  by_cases hc : (seen.contains (base.difLink sector) = true ∨ seen.length > M)
  · rw [if_pos hc, if_pos hc]
  · rw [if_neg hc, if_neg hc]

/-- A DIFAT sector that links to itself: the second round finds the link in
`seen` and the walk fails, after two reads of the sector. -/
theorem loadDIFSectors_self_link (M : Nat) (self : OLEContext) (d : Nat)
    (hSS : 2 ≤ self.SectorSize / 4) (hstart : self.Header.DIFATSectorLoc = d)
    (h1 : d ≠ FREESECT) (h2 : d ≠ ENDOFCHAIN)
    (hfull : self.readsInFull d) (hlink : self.difLink d = d) :
    (self.loadDIFSectors M).map DIFResult.observed =
      .ret (some (.difLoop d d), self.FatSectors ++ self.difEntries d ++ self.difEntries d,
        [d, d]) := by
  have e0 : self.loadDIFSectors M = OLEContext.loadDIFSectors.loop M (M + 2 + 1)
      { self := { self with FatSectors := self.FatSectors }, sector := d, seen := [],
        reads := [] } := by
    unfold OLEContext.loadDIFSectors
    rw [hstart]
  rw [e0, loadDIFSectors_loop_full M self _ _ d [] [] h1 h2 hfull hSS, hlink,
    if_neg (by simp)]
  have hf : M + 2 = (M + 1) + 1 := rfl
  rw [hf, loadDIFSectors_loop_full M self _ _ d _ _ h1 h2 hfull hSS, hlink,
    if_pos (Or.inl (by simp))]
  rfl

/-- A DIFAT sector that links back to the start sector: the third round finds
the link in `seen` and the walk fails, after three reads. -/
theorem loadDIFSectors_back_link (M : Nat) (self : OLEContext) (d0 d1 : Nat) (hM : 1 ≤ M)
    (hSS : 2 ≤ self.SectorSize / 4) (hstart : self.Header.DIFATSectorLoc = d0)
    (h01 : d0 ≠ FREESECT ∧ d0 ≠ ENDOFCHAIN) (h11 : d1 ≠ FREESECT ∧ d1 ≠ ENDOFCHAIN)
    (hne : d0 ≠ d1)
    (hfull0 : self.readsInFull d0) (hfull1 : self.readsInFull d1)
    (hlink0 : self.difLink d0 = d1) (hlink1 : self.difLink d1 = d0) :
    (self.loadDIFSectors M).map DIFResult.observed =
      .ret (some (.difLoop d0 d1),
        self.FatSectors ++ self.difEntries d0 ++ self.difEntries d1 ++ self.difEntries d0,
        [d0, d1, d0]) := by
  have e0 : self.loadDIFSectors M = OLEContext.loadDIFSectors.loop M (M + 2 + 1)
      { self := { self with FatSectors := self.FatSectors }, sector := d0, seen := [],
        reads := [] } := by
    unfold OLEContext.loadDIFSectors
    rw [hstart]
  rw [e0, loadDIFSectors_loop_full M self _ _ d0 [] [] h01.1 h01.2 hfull0 hSS, hlink0,
    if_neg (by simp)]
  have hf : M + 2 = (M + 1) + 1 := rfl
  rw [hf, loadDIFSectors_loop_full M self _ _ d1 _ _ h11.1 h11.2 hfull1 hSS, hlink1,
    if_neg (by
      simp only [List.nil_append, List.contains_cons, List.contains_nil, Bool.or_false,
        beq_iff_eq, List.length_singleton, gt_iff_lt, not_or, not_lt]
      exact ⟨hne, hM⟩),
    loadDIFSectors_loop_full M self _ _ d0 _ _ h01.1 h01.2 hfull0 hSS, hlink0,
    if_pos (Or.inl (by simp))]
  rfl

/-- C19: the walk of `loadDIFSectors` terminates on every input (sectors of 512
or 4096 bytes, as `GetOLEContext` sets them).  Each round of the loop either
returns or stores in `seen` a link value that was not there (and fewer than
`MAX_SECTORS + 1` were); on a sector read in full the walk fails with the
infinite-loop error as soon as the link is one already stored or more than
`MAX_SECTORS` links are stored; so `loadDIFSectors` returns after at most
`MAX_SECTORS + 2` sector reads.  A DIFAT sector that links to itself makes the
walk fail in the second round, one that links back to the start sector in the
third. -/
theorem loadDIFSectors_terminates (M : Nat) (self : OLEContext)
    (hSS : self.SectorSize = 512 ∨ self.SectorSize = 4096) :
    (∀ st st', 2 ≤ st.self.SectorSize / 4 →
      OLEContext.loadDIFSectors.body M st = .next st' →
      st'.seen = st.seen ++ [st'.sector] ∧ st'.sector ∉ st.seen ∧ st.seen.length ≤ M ∧
      st'.reads = st.reads ++ [st.sector]) ∧
    (∀ (fs : List Nat) (sector : Nat) (seen reads : List Nat),
      self.readsInFull sector →
      (self.difLink sector ∈ seen ∨ seen.length > M) →
      ∃ res, OLEContext.loadDIFSectors.body M
          { self := { self with FatSectors := fs }, sector := sector, seen := seen,
            reads := reads } = .done res ∧
        res.err = some (.difLoop sector (self.difLink sector))) ∧
    (∃ res, self.loadDIFSectors M = .ret res ∧ res.reads.length ≤ M + 2) ∧
    (∀ d, self.Header.DIFATSectorLoc = d → d ≠ FREESECT → d ≠ ENDOFCHAIN →
      self.readsInFull d → self.difLink d = d →
      (self.loadDIFSectors M).map DIFResult.observed =
        .ret (some (.difLoop d d),
          self.FatSectors ++ self.difEntries d ++ self.difEntries d, [d, d])) ∧
    (∀ d0 d1, 1 ≤ M → self.Header.DIFATSectorLoc = d0 →
      d0 ≠ FREESECT ∧ d0 ≠ ENDOFCHAIN → d1 ≠ FREESECT ∧ d1 ≠ ENDOFCHAIN → d0 ≠ d1 →
      self.readsInFull d0 → self.readsInFull d1 →
      self.difLink d0 = d1 → self.difLink d1 = d0 →
      (self.loadDIFSectors M).map DIFResult.observed =
        .ret (some (.difLoop d0 d1),
          self.FatSectors ++ self.difEntries d0 ++ self.difEntries d1 ++ self.difEntries d0,
          [d0, d1, d0])) := by
  have h2' : 2 ≤ self.SectorSize / 4 := by
    rcases hSS with h | h <;> rw [h] <;> decide
  refine ⟨?_, ?_, ?_,
    fun d hs h1 h2 hf hl => loadDIFSectors_self_link M self d h2' hs h1 h2 hf hl,
    fun d0 d1 hM hs h0 h1 hne hf0 hf1 hl0 hl1 =>
      loadDIFSectors_back_link M self d0 d1 hM h2' hs h0 h1 hne hf0 hf1 hl0 hl1⟩
  · intro st st' hss hb
    rcases loadDIFSectors_body_cases M st hss with ⟨res, hb', _, _⟩ |
      ⟨st'', hb', h1, h3, h4, h5, _, _⟩
    · rw [hb'] at hb; cases hb
    · rw [hb'] at hb
      cases hb
      exact ⟨h3, h4, h5, h1⟩
  · intro fs sector seen reads hfull hc
    rw [loadDIFSectors_body_full M self fs sector seen reads hfull h2', if_pos (by
      rcases hc with h | h
      · exact Or.inl (by simpa using h)
      · exact Or.inr h)]
    exact ⟨_, rfl, rfl⟩
  · obtain ⟨res, hres, hlen, _⟩ := loadDIFSectors_loop_returns M (M + 3)
      { self := self, sector := self.Header.DIFATSectorLoc, seen := [], reads := [] }
      h2' (by simp) (by simp) (by simp)
    exact ⟨res, hres, hlen⟩

set_option maxRecDepth 100000 in
theorem selfLinked_data :
    (selfLinkedContext.ReadSector 0).1 = List.take 512 ((List.range 512).map
      (fun (i : Nat) => if 1020 ≤ (512 : Int) + (i : Int) ∧ (512 : Int) + (i : Int) < 1024
        then 0 else 255)) := rfl

theorem selfLinked_readsInFull : selfLinkedContext.readsInFull 0 := by
  constructor
  · rfl
  · rw [selfLinked_data, List.length_take, List.length_map, List.length_range]
    rfl

theorem selfLinked_byte (j : Nat) (hj : j < 512) :
    (selfLinkedContext.ReadSector 0).1.getD j 0 =
      if 1020 ≤ (512 : Int) + (j : Int) ∧ (512 : Int) + (j : Int) < 1024 then 0 else 255 := by
  rw [selfLinked_data, List.getD_eq_getElem?_getD, List.getElem?_take, if_pos hj,
    List.getElem?_map, List.getElem?_range hj]
  rfl

theorem difValues_full (self : OLEContext) (sector : Nat) (h : self.readsInFull sector) :
    self.difValues sector =
      (List.range (self.SectorSize / 4)).map
        (fun (i : Nat) => le32 (self.ReadSector sector).1 i) := by
  unfold OLEContext.difValues
  rw [binaryRead_ok _ _ (by rw [h.2]; omega)]

theorem difLink_full (self : OLEContext) (sector : Nat) (h : self.readsInFull sector)
    (hSS : 0 < self.SectorSize / 4) :
    self.difLink sector = le32 (self.ReadSector sector).1 (self.SectorSize / 4 - 1) := by
  unfold OLEContext.difLink
  rw [difValues_full _ _ h, List.getD_eq_getElem?_getD, List.getElem?_map,
    List.getElem?_range (by omega)]
  rfl

theorem selfLinked_difLink : selfLinkedContext.difLink 0 = 0 := by
  rw [difLink_full _ _ selfLinked_readsInFull (by decide)]
  show le32 (selfLinkedContext.ReadSector 0).1 127 = 0
  unfold le32
  rw [selfLinked_byte _ (by decide), selfLinked_byte _ (by decide),
    selfLinked_byte _ (by decide), selfLinked_byte _ (by decide)]
  decide

/-- Witness of `loadDIFSectors_terminates`: over a DIFAT sector that links to
itself the walk reads the sector twice and fails with the infinite-loop error. -/
theorem loadDIFSectors_terminates_witness :
    (∃ res, selfLinkedContext.loadDIFSectors 1048576 = .ret res ∧
      res.reads.length ≤ 1048576 + 2) ∧
    (selfLinkedContext.loadDIFSectors 1048576).map DIFResult.observed =
      .ret (some (.difLoop 0 0),
        selfLinkedContext.FatSectors ++ selfLinkedContext.difEntries 0 ++
          selfLinkedContext.difEntries 0, [0, 0]) :=
  ⟨(loadDIFSectors_terminates 1048576 selfLinkedContext (Or.inl rfl)).2.2.1,
    (loadDIFSectors_terminates 1048576 selfLinkedContext (Or.inl rfl)).2.2.2.1 0 rfl
      (by decide) (by decide) selfLinked_readsInFull selfLinked_difLink⟩

/-! ## The list of FAT sectors -/

/-- What the header stage of `GetOLEContext` leaves in the context it returns. -/
theorem GetOLEContext_header_ok (reader : ReaderAt) (header : CFHeader) (base : OLEContext)
    (h : GetOLEContext.header reader header = .ok base) :
    base.Reader = reader ∧ base.Header = header ∧
      (base.SectorSize = 512 ∨ base.SectorSize = 4096) ∧ base.FatSectors = [] := by
  unfold GetOLEContext.header at h
  by_cases hsig : header.Signature = 0xe11ab1a1e011cfd0
  · by_cases hs : shl64 header.MiniSectorShift = 64
    · by_cases hcut : header.MiniSectorCutoff = 4096
      · by_cases h9 : header.SectorSize = 9
        · simp [hsig, hs, hcut, h9] at h
          subst h
          exact ⟨rfl, rfl, Or.inl rfl, rfl⟩
        · by_cases h12 : header.SectorSize = 12
          · simp [hsig, hs, hcut, h12] at h
            subst h
            exact ⟨rfl, rfl, Or.inr rfl, rfl⟩
          · simp [hsig, hs, hcut, h9, h12] at h
      · simp [hsig, hs, hcut] at h
    · simp [hsig, hs] at h
  · simp [hsig] at h

theorem loadFat_loop_FatSectors :
    ∀ (l : List Nat) (self : OLEContext),
      (OLEContext.loadFat.loop l self).1.FatSectors = self.FatSectors := by
  intro l
  induction l with
  | nil => intro self; rfl
  | cons a rest ih =>
    intro self
    rw [OLEContext.loadFat.loop]
    split
    · rfl
    · split
      · rfl
      · rw [ih]

theorem loadDirectories_FatSectors (M : Nat) (decode : StreamReader → Int → DirectoryHeader)
    (self : OLEContext) (r : OLEContext × Option Error)
    (h : self.loadDirectories M decode = .ret r) : r.1.FatSectors = self.FatSectors := by
  unfold OLEContext.loadDirectories at h
  split at h
  · cases h
  · cases h
  · cases h; rfl
  · split at h
    · cases h
    · cases h
    · cases h; rfl

theorem loadMiniFat_FatSectors (M : Nat) (self : OLEContext) (r : OLEContext × Option Error)
    (h : self.loadMiniFat M = .ret r) : r.1.FatSectors = self.FatSectors := by
  unfold OLEContext.loadMiniFat at h
  split at h
  · cases h
  · cases h
  · cases h; rfl
  · simp only [] at h
    split at h
    · cases h
    · cases h
    · cases h; rfl
    · split at h
      · cases h
      · cases h
      · cases h; rfl

/-- The steps of `GetOLEContext` after `loadDIFSectors` leave `FatSectors` as it is. -/
theorem tables_FatSectors (M : Nat) (decode : StreamReader → Int → DirectoryHeader)
    (self ctx : OLEContext) (h : GetOLEContext.tables M decode self = .ret (.ok ctx)) :
    ctx.FatSectors = self.FatSectors := by
  unfold GetOLEContext.tables at h
  split at h
  · cases h
  · rename_i self1 hfat
    have e1 : self1.FatSectors = self.FatSectors := by
      have := loadFat_loop_FatSectors self.FatSectors self
      unfold OLEContext.loadFat at hfat
      rw [hfat] at this
      exact this
    split at h
    · cases h
    · cases h
    · cases h
    · rename_i self2 hdir
      have e2 := loadDirectories_FatSectors M decode self1 _ hdir
      split at h
      · cases h
      · cases h
      · cases h
      · rename_i self3 hmini
        have e3 := loadMiniFat_FatSectors M self2 _ hmini
        cases h
        rw [e3, e2, e1]

/-- The entries of a DIFAT sector that is read in full, from its bytes: the
little-endian values at the positions `[0, SectorSize / 4 - 2)` other than `FREESECT`. -/
theorem difEntries_full (self : OLEContext) (sector : Nat) (h : self.readsInFull sector) :
    self.difEntries sector =
      ((List.range (self.SectorSize / 4 - 2)).map
        (fun (i : Nat) => le32 (self.ReadSector sector).1 i)).filter
          (fun value => value ≠ FREESECT) := by
  unfold OLEContext.difEntries
  rw [difValues_full _ _ h, ← List.map_take, List.take_range,
    Nat.min_eq_left (Nat.sub_le _ _)]

/-- The call of `loadDIFSectors` in `GetOLEContext`, as a run of the loop. -/
theorem loadDIFSectors_inline (M : Nat) (base : OLEContext) (hfs : base.FatSectors = []) :
    (GetOLEContext.inline base).loadDIFSectors M =
      OLEContext.loadDIFSectors.loop M (M + 3)
        { self := { base with
            FatSectors := base.Header.InitialDIFATs.filter (fun e => e ≠ FREESECT) },
          sector := base.Header.DIFATSectorLoc, seen := [], reads := [] } := by
  unfold OLEContext.loadDIFSectors GetOLEContext.inline
  rw [hfs]
  rfl

theorem GetOLEContext_of_header (M : Nat) (decode : StreamReader → Int → DirectoryHeader)
    (reader : ReaderAt) (header : CFHeader) (base : OLEContext)
    (h : GetOLEContext.header reader header = .ok base) :
    GetOLEContext M decode reader header =
      match (GetOLEContext.inline base).loadDIFSectors M with
      | .panic => .panic
      | .timeout => .timeout
      | .ret res =>
        match res.err with
        | some err => .ret (.error err)
        | none => GetOLEContext.tables M decode res.self := by
  unfold GetOLEContext
  simp only [h]
  try rfl

/-- The list `FatSectors` that `GetOLEContext` builds, in terms of what
`ReadSector` returns for the DIFAT sectors.  Let the header stage accept the
header, and let `ds` be the chain of DIFAT sectors from `DIFATSectorLoc`, each
read in full by `ReadSector`, up to the end mark.  Then the context that
`GetOLEContext` returns has as `FatSectors` the inline DIFAT entries other than
`FREESECT`, in order, followed by the entries read for the sectors of `ds` in
chain order, where the entries read for a sector are the values other than
`FREESECT` at the positions `[0, SectorSize/4 - 2)` of the bytes that
`ReadSector` returns: the value at `SectorSize/4 - 2` is not among them and the
one at `SectorSize/4 - 1` is the link.  When the links are pairwise different
and at most `MAX_SECTORS + 1` sectors are in the chain, `loadDIFSectors` does
return that list without error, having read the sectors of `ds` in order, and
`GetOLEContext` goes on with it. -/
theorem GetOLEContext_FatSectors (M : Nat) (decode : StreamReader → Int → DirectoryHeader)
    (reader : ReaderAt) (header : CFHeader) (base : OLEContext) (ds : List Nat) (stop : Nat)
    (hhead : GetOLEContext.header reader header = .ok base)
    (hch : base.difChain header.DIFATSectorLoc ds stop)
    (hstop : stop = FREESECT ∨ stop = ENDOFCHAIN) :
    (∀ ctx, GetOLEContext M decode reader header = .ret (.ok ctx) →
      ctx.FatSectors =
        header.InitialDIFATs.filter (fun e => e ≠ FREESECT) ++ ds.flatMap base.difEntries) ∧
    (∀ d ∈ ds, base.difEntries d =
      ((List.range (base.SectorSize / 4 - 2)).map
        (fun (i : Nat) => le32 (base.ReadSector d).1 i)).filter
          (fun value => value ≠ FREESECT) ∧
      base.difLink d = le32 (base.ReadSector d).1 (base.SectorSize / 4 - 1)) ∧
    ((ds.map base.difLink).Nodup → ds.length ≤ M + 1 →
      ∃ res, (GetOLEContext.inline base).loadDIFSectors M = .ret res ∧ res.err = none ∧
        res.self.FatSectors =
          header.InitialDIFATs.filter (fun e => e ≠ FREESECT) ++ ds.flatMap base.difEntries ∧
        res.reads = ds ∧
        GetOLEContext M decode reader header = GetOLEContext.tables M decode res.self) := by
  obtain ⟨_, hH, hSS, hfs⟩ := GetOLEContext_header_ok reader header base hhead
  have h2 : 2 ≤ base.SectorSize / 4 := by
    rcases hSS with h | h <;> rw [h] <;> decide
  subst hH
  refine ⟨?_, ?_, ?_⟩
  · intro ctx hctx
    rw [GetOLEContext_of_header M decode reader _ base hhead,
      loadDIFSectors_inline M base hfs] at hctx
    split at hctx
    · cases hctx
    · cases hctx
    · rename_i res hres
      split at hctx
      · cases hctx
      · rename_i herr
        obtain ⟨e1, _⟩ := loadDIFSectors_loop_ok M base h2 ds _ _ _ stop _ _ res hch hstop
          hres herr
        rw [tables_FatSectors M decode res.self ctx hctx, e1]
  · intro d hd
    have hfull : ∀ (l : List Nat) (s : Nat), base.difChain s l stop → d ∈ l →
        base.readsInFull d := by
      intro l
      induction l with
      | nil => intro s _ hm; cases hm
      | cons a rest ih =>
        intro s hc hm
        simp only [OLEContext.difChain] at hc
        rcases List.mem_cons.1 hm with hda | hdr
        · rw [hda]; exact hc.2.2.2.1
        · exact ih _ hc.2.2.2.2 hdr
    have hf := hfull ds _ hch hd
    exact ⟨difEntries_full base d hf, difLink_full base d hf (by omega)⟩
  · intro hnd hlen
    have hsteps := loadDIFSectors_loop_steps M base h2 ds (M + 2 - ds.length + 1)
      (base.Header.InitialDIFATs.filter (fun e => e ≠ FREESECT)) _ stop [] [] hch
      (by simpa using hnd) (by simpa using hlen)
    rw [loadDIFSectors_loop_stop M (M + 2 - ds.length) _ hstop] at hsteps
    have hfuel : M + 3 = M + 2 - ds.length + 1 + ds.length := by omega
    have hrun := loadDIFSectors_inline M base hfs
    rw [hfuel, hsteps] at hrun
    refine ⟨_, hrun, rfl, rfl, by simp, ?_⟩
    rw [GetOLEContext_of_header M decode reader _ base hhead, hrun]

theorem singleDif_header :
    GetOLEContext.header singleDifReader singleDifHeader = .ok singleDifContext := rfl

set_option maxRecDepth 100000 in
theorem singleDif_data :
    (singleDifContext.ReadSector 0).1 = List.take 512 ((List.range 512).map
      (fun (i : Nat) =>
        if (512 : Int) + (i : Int) = 512 then 7
        else if 513 ≤ (512 : Int) + (i : Int) ∧ (512 : Int) + (i : Int) < 516 then 0
        else if (512 : Int) + (i : Int) = 1016 then 9
        else if 1017 ≤ (512 : Int) + (i : Int) ∧ (512 : Int) + (i : Int) < 1020 then 0
        else if (512 : Int) + (i : Int) = 1020 then 254
        else 255)) := rfl

theorem singleDif_readsInFull : singleDifContext.readsInFull 0 := by
  constructor
  · rfl
  · rw [singleDif_data, List.length_take, List.length_map, List.length_range]
    rfl

theorem singleDif_byte (j : Nat) (hj : j < 512) :
    (singleDifContext.ReadSector 0).1.getD j 0 =
      if (512 : Int) + (j : Int) = 512 then 7
      else if 513 ≤ (512 : Int) + (j : Int) ∧ (512 : Int) + (j : Int) < 516 then 0
      else if (512 : Int) + (j : Int) = 1016 then 9
      else if 1017 ≤ (512 : Int) + (j : Int) ∧ (512 : Int) + (j : Int) < 1020 then 0
      else if (512 : Int) + (j : Int) = 1020 then 254
      else 255 := by
  rw [singleDif_data, List.getD_eq_getElem?_getD, List.getElem?_take, if_pos hj,
    List.getElem?_map, List.getElem?_range hj]
  rfl

theorem singleDif_difLink : singleDifContext.difLink 0 = ENDOFCHAIN := by
  rw [difLink_full _ _ singleDif_readsInFull (by decide)]
  show le32 (singleDifContext.ReadSector 0).1 127 = ENDOFCHAIN
  unfold le32
  rw [singleDif_byte _ (by decide), singleDif_byte _ (by decide),
    singleDif_byte _ (by decide), singleDif_byte _ (by decide)]
  decide

theorem singleDif_byte_free (j : Nat) (h1 : 4 ≤ j) (h2 : j < 504) :
    (singleDifContext.ReadSector 0).1.getD j 0 = 255 := by
  rw [singleDif_byte j (by omega)]
  split_ifs <;> omega

theorem singleDif_le32 (i : Nat) (hi : i < 126) :
    le32 (singleDifContext.ReadSector 0).1 i = if i = 0 then 7 else FREESECT := by
  unfold le32
  by_cases h0 : i = 0
  · subst h0
    rw [singleDif_byte _ (by omega), singleDif_byte _ (by omega), singleDif_byte _ (by omega),
      singleDif_byte _ (by omega)]
    decide
  · rw [if_neg h0, singleDif_byte_free _ (by omega) (by omega),
      singleDif_byte_free _ (by omega) (by omega), singleDif_byte_free _ (by omega) (by omega),
      singleDif_byte_free _ (by omega) (by omega)]
    decide

theorem singleDif_difEntries : singleDifContext.difEntries 0 = [7] := by
  rw [difEntries_full _ _ singleDif_readsInFull]
  have hmap : (List.range (singleDifContext.SectorSize / 4 - 2)).map
      (fun (i : Nat) => le32 (singleDifContext.ReadSector 0).1 i) =
      (List.range 126).map (fun (i : Nat) => if i = 0 then 7 else FREESECT) := by
    apply List.map_congr_left
    intro i hi
    exact singleDif_le32 i (List.mem_range.1 hi)
  rw [hmap]
  decide

/-- An instance of `GetOLEContext_FatSectors`: a header whose inline entries are 3,
`FREESECT`, 4 and whose single DIFAT sector holds 7 at position 0, 9 at position
126 and the end mark as its link gives the list 3, 4, 7. -/
theorem GetOLEContext_FatSectors_single :
    ∃ res, (GetOLEContext.inline singleDifContext).loadDIFSectors 1048576 = .ret res ∧
      res.err = none ∧
      res.self.FatSectors = [3, 4, 7] ∧
      res.reads = [0] ∧
      le32 (singleDifContext.ReadSector 0).1 126 = 9 :=
  have h := (GetOLEContext_FatSectors 1048576 emptyDecode singleDifReader
    singleDifHeader singleDifContext [0] ENDOFCHAIN singleDif_header
    ⟨rfl, by decide, by decide, singleDif_readsInFull, singleDif_difLink⟩ (Or.inr rfl)).2.2
    (by simp) (by decide)
  h.imp (fun _ hr => ⟨hr.1, hr.2.1, by
    rw [hr.2.2.1, List.flatMap_singleton, singleDif_difEntries]
    rfl, hr.2.2.2.1, by
    unfold le32
    rw [singleDif_byte _ (by decide), singleDif_byte _ (by decide),
      singleDif_byte _ (by decide), singleDif_byte _ (by decide)]
    decide⟩)

/-! ## A DIFAT sector that is not read in full -/

/-- A round of the loop on a sector other than the end marks whose read is
short or fails ends the walk with the error of the read. -/
theorem loadDIFSectors_loop_short (M : Nat) (fuel : Nat) (st : DIFState)
    (h1 : st.sector ≠ FREESECT) (h2 : st.sector ≠ ENDOFCHAIN)
    (h : (st.self.ReadSector st.sector).2 ≠ none ∨
      (st.self.ReadSector st.sector).1.length < st.self.SectorSize) :
    OLEContext.loadDIFSectors.loop M (fuel + 1) st =
      .ret { self := st.self, err := (st.self.ReadSector st.sector).2, seen := st.seen,
             reads := st.reads ++ [st.sector] } := by
  rw [OLEContext.loadDIFSectors.loop, if_pos ⟨h1, h2⟩, loadDIFSectors_body_short M st h]

/-- The walk of `loadDIFSectors` in `GetOLEContext` along a chain of DIFAT
sectors read in full that leads to a sector whose read is short or fails. -/
theorem loadDIFSectors_chain_short (M : Nat) (base : OLEContext) (ds : List Nat) (stop : Nat)
    (hSS : 2 ≤ base.SectorSize / 4) (hfs : base.FatSectors = [])
    (hch : base.difChain base.Header.DIFATSectorLoc ds stop)
    (hnd : (ds.map base.difLink).Nodup) (hlen : ds.length ≤ M + 1)
    (hstop : stop ≠ FREESECT ∧ stop ≠ ENDOFCHAIN)
    (hshort : (base.ReadSector stop).2 ≠ none ∨
      (base.ReadSector stop).1.length < base.SectorSize) :
    (GetOLEContext.inline base).loadDIFSectors M =
      .ret { self := { base with
               FatSectors := base.Header.InitialDIFATs.filter (fun e => e ≠ FREESECT) ++
                 ds.flatMap base.difEntries },
             err := (base.ReadSector stop).2, seen := ds.map base.difLink,
             reads := ds ++ [stop] } := by
  have hsteps := loadDIFSectors_loop_steps M base hSS ds (M + 2 - ds.length + 1)
    (base.Header.InitialDIFATs.filter (fun e => e ≠ FREESECT)) _ stop [] [] hch
    (by simpa using hnd) (by simpa using hlen)
  rw [loadDIFSectors_loop_short M (M + 2 - ds.length) _ hstop.1 hstop.2 hshort] at hsteps
  have hfuel : M + 3 = M + 2 - ds.length + 1 + ds.length := by omega
  rw [loadDIFSectors_inline M base hfs, hfuel, hsteps]
  rfl

/-- C20 (amended): a DIFAT sector whose read returns fewer than `SectorSize`
bytes.  Let the header stage accept the header and let the chain of DIFAT
sectors `ds` from `DIFATSectorLoc` (read in full, links pairwise different, at
most `MAX_SECTORS + 1` of them) lead to a sector `stop`, not an end mark, whose
read is short.  Then `loadDIFSectors` stops the walk there, leaves `FatSectors`
as collected so far (the inline entries and the entries of `ds`) and returns the
error of that read.  When the read returned no error, `loadDIFSectors` returns
`nil` and `GetOLEContext` goes on to load the tables with that list; when the
read returned an error, `GetOLEContext` fails with it. -/
theorem loadDIFSectors_short_read (M : Nat) (decode : StreamReader → Int → DirectoryHeader)
    (reader : ReaderAt) (header : CFHeader) (base : OLEContext) (ds : List Nat) (stop : Nat)
    (hhead : GetOLEContext.header reader header = .ok base)
    (hch : base.difChain header.DIFATSectorLoc ds stop)
    (hnd : (ds.map base.difLink).Nodup) (hlen : ds.length ≤ M + 1)
    (hstop : stop ≠ FREESECT ∧ stop ≠ ENDOFCHAIN)
    (hshort : (base.ReadSector stop).1.length < base.SectorSize) :
    (GetOLEContext.inline base).loadDIFSectors M =
      .ret { self := { base with
               FatSectors := header.InitialDIFATs.filter (fun e => e ≠ FREESECT) ++
                 ds.flatMap base.difEntries },
             err := (base.ReadSector stop).2, seen := ds.map base.difLink,
             reads := ds ++ [stop] } ∧
    ((base.ReadSector stop).2 = none →
      GetOLEContext M decode reader header =
        GetOLEContext.tables M decode
          { base with
            FatSectors := header.InitialDIFATs.filter (fun e => e ≠ FREESECT) ++
              ds.flatMap base.difEntries }) ∧
    (∀ err, (base.ReadSector stop).2 = some err →
      GetOLEContext M decode reader header = .ret (.error err)) := by
  obtain ⟨_, hH, hSS, hfs⟩ := GetOLEContext_header_ok reader header base hhead
  have h2 : 2 ≤ base.SectorSize / 4 := by
    rcases hSS with h | h <;> rw [h] <;> decide
  subst hH
  have hrun := loadDIFSectors_chain_short M base ds stop h2 hfs hch hnd hlen hstop
    (Or.inr hshort)
  refine ⟨hrun, ?_, ?_⟩
  · intro hnone
    rw [GetOLEContext_of_header M decode reader _ base hhead, hrun]
    simp only [hnone]
  · intro err herr
    rw [GetOLEContext_of_header M decode reader _ base hhead, hrun]
    simp only [herr]

theorem shortRead_header :
    GetOLEContext.header emptyReader difAtZeroHeader = .ok shortReadContext := rfl

/-- Witness of `loadDIFSectors_short_read`: over a byte source whose reads
return no byte and no error, the walk stops at the first DIFAT sector without
error and with the empty list, and `GetOLEContext` goes on to the tables. -/
theorem loadDIFSectors_short_read_witness :
    (GetOLEContext.inline shortReadContext).loadDIFSectors 1048576 =
      .ret { self := { shortReadContext with FatSectors := [] }, err := none, seen := [],
             reads := [0] } ∧
    GetOLEContext 1048576 emptyDecode emptyReader difAtZeroHeader =
      GetOLEContext.tables 1048576 emptyDecode { shortReadContext with FatSectors := [] } :=
  have h := loadDIFSectors_short_read 1048576 emptyDecode emptyReader difAtZeroHeader
    shortReadContext [] 0 shortRead_header rfl (by simp) (by decide)
    ⟨by decide, by decide⟩ (by decide)
  ⟨h.1, h.2.1 rfl⟩

theorem truncated_header :
    GetOLEContext.header truncatedReader difAtZeroHeader = .ok truncatedContext := rfl

set_option maxRecDepth 100000 in
theorem truncated_read :
    truncatedContext.ReadSector 0 = (List.replicate 488 255, some .EOF) := by
  decide

/-- C20 as stated fails: over a file of 1000 bytes the read of DIFAT sector 0
(bytes 512 to 1023) returns 488 bytes and `io.EOF`; `loadDIFSectors` returns
that error, and `GetOLEContext` fails with it instead of going on. -/
theorem loadDIFSectors_short_read_fails :
    (truncatedContext.ReadSector 0).1.length = 488 ∧ truncatedContext.SectorSize = 512 ∧
    (GetOLEContext.inline truncatedContext).loadDIFSectors 1048576 =
      .ret { self := { truncatedContext with FatSectors := [] }, err := some .EOF, seen := [],
             reads := [0] } ∧
    GetOLEContext 1048576 emptyDecode truncatedReader difAtZeroHeader = .ret (.error .EOF) := by
  have hshort : (truncatedContext.ReadSector 0).2 ≠ none ∨
      (truncatedContext.ReadSector 0).1.length < truncatedContext.SectorSize := by
    rw [truncated_read]
    exact Or.inl (by simp)
  have hrun := loadDIFSectors_chain_short 1048576 truncatedContext [] 0 (by decide) rfl rfl
    (by simp) (by decide) ⟨by decide, by decide⟩ hshort
  rw [truncated_read] at hrun
  refine ⟨?_, rfl, hrun, ?_⟩
  · rw [truncated_read, List.length_replicate]
  · rw [GetOLEContext_of_header 1048576 emptyDecode truncatedReader _ truncatedContext
      truncated_header, hrun]

/-! ## The fuel of the loops of `GetOLEContext` is never used up -/

theorem loadDIFSectors_body_SectorSize (M : Nat) (st : DIFState) :
    (∀ res, OLEContext.loadDIFSectors.body M st = .done res →
      res.self.SectorSize = st.self.SectorSize) ∧
    (∀ st', OLEContext.loadDIFSectors.body M st = .next st' →
      st'.self.SectorSize = st.self.SectorSize) := by
  unfold OLEContext.loadDIFSectors.body
  simp only []
  split
  · exact ⟨fun res h => (by cases h; rfl), fun st' h => (by cases h)⟩
  · split
    · exact ⟨fun res h => (by cases h; rfl), fun st' h => (by cases h)⟩
    · split
      · exact ⟨fun res h => (by cases h), fun st' h => (by cases h)⟩
      · split
        · exact ⟨fun res h => (by cases h), fun st' h => (by cases h)⟩
        · split
          · exact ⟨fun res h => (by cases h; rfl), fun st' h => (by cases h)⟩
          · exact ⟨fun res h => (by cases h), fun st' h => (by cases h; rfl)⟩

theorem loadDIFSectors_loop_SectorSize (M : Nat) :
    ∀ (fuel : Nat) (st : DIFState) (res : DIFResult),
      OLEContext.loadDIFSectors.loop M fuel st = .ret res →
      res.self.SectorSize = st.self.SectorSize := by
  intro fuel
  induction fuel with
  | zero => intro st res h; simp [OLEContext.loadDIFSectors.loop] at h
  | succ fuel ih =>
    intro st res h
    rw [OLEContext.loadDIFSectors.loop] at h
    by_cases hc : st.sector ≠ FREESECT ∧ st.sector ≠ ENDOFCHAIN
    · rw [if_pos hc] at h
      cases hb : OLEContext.loadDIFSectors.body M st with
      | done r =>
        rw [hb] at h
        cases h
        exact (loadDIFSectors_body_SectorSize M st).1 _ hb
      | panic =>
        rw [hb] at h
        cases h
      | next st' =>
        rw [hb] at h
        exact (ih st' res h).trans ((loadDIFSectors_body_SectorSize M st).2 _ hb)
    · rw [if_neg hc] at h
      cases h
      rfl

/-- The method `loadDIFSectors` returns, for sectors of at least 8 bytes. -/
theorem loadDIFSectors_returns (M : Nat) (self : OLEContext) (hSS : 2 ≤ self.SectorSize / 4) :
    ∃ res, self.loadDIFSectors M = .ret res ∧ res.self.SectorSize = self.SectorSize := by
  obtain ⟨res, hres, _, _⟩ := loadDIFSectors_loop_returns M (M + 3)
    { self := self, sector := self.Header.DIFATSectorLoc, seen := [], reads := [] }
    hSS (le_refl _) (by simp) (by simp)
  exact ⟨res, hres, loadDIFSectors_loop_SectorSize M _ _ res hres⟩

theorem loadFat_loop_SectorSize :
    ∀ (l : List Nat) (self : OLEContext),
      (OLEContext.loadFat.loop l self).1.SectorSize = self.SectorSize := by
  intro l
  induction l with
  | nil => intro self; rfl
  | cons a rest ih =>
    intro self
    rw [OLEContext.loadFat.loop]
    split
    · rfl
    · split
      · rfl
      · rw [ih]

theorem loadDirectories_loop_ne_timeout (decode : StreamReader → Int → DirectoryHeader)
    (dir_stream : StreamReader) (hsize : dir_stream.Size < 9223372036854775680) :
    ∀ (fuel : Nat) (offset : Int) (count : Nat) (Directories : List DirectoryEntry),
      0 ≤ offset → 1 ≤ fuel → dir_stream.Size ≤ offset + 128 * ((fuel : Int) - 1) →
      OLEContext.loadDirectories.loop decode dir_stream fuel offset count Directories ≠
        .timeout := by
  intro fuel
  induction fuel with
  | zero => intro offset count Directories _ h1 _; omega
  | succ fuel ih =>
    intro offset count Directories h0 _ hle
    rw [OLEContext.loadDirectories.loop]
    split
    · rename_i hlt
      have hw : wrap64 (offset + DirectoryHeader.Size) = offset + 128 := by
        unfold DirectoryHeader.Size
        exact wrap64_of_IsInt64 _ ⟨by omega, by omega⟩
      simp only []
      rw [hw]
      apply ih
      · omega
      · push_cast at hle
        omega
      · push_cast at hle
        omega
    · simp

theorem loadDirectories_ne_timeout (M : Nat) (decode : StreamReader → Int → DirectoryHeader)
    (self : OLEContext) (hSS : self.SectorSize < 4294967296) (hM : M < 2147483648) :
    self.loadDirectories M decode ≠ .timeout := by
  unfold OLEContext.loadDirectories
  split
  · simp
  · rename_i h
    exact absurd h (OpenStream_ne_timeout M self _)
  · simp
  · rename_i dir_stream ho
    obtain ⟨h1, h2⟩ := OpenStream_size M self _ dir_stream hSS hM ho
    have hlen : dir_stream.Sectors.length ≤ M + 1 := by
      obtain ⟨chain, hc, hr⟩ := OpenStream_ok M self _ dir_stream ho
      rw [hr]
      exact getChain_length M self _ chain none hc
    have hb : dir_stream.Sectors.length * self.SectorSize ≤ 2147483648 * 4294967295 :=
      Nat.mul_le_mul (by omega) (by omega)
    have hnt := loadDirectories_loop_ne_timeout decode dir_stream (by rw [h1]; omega)
      ((dir_stream.Size / DirectoryHeader.Size).toNat + 2) 0 0 [] (le_refl _) (by omega)
      (by
        unfold DirectoryHeader.Size
        have hnn : 0 ≤ dir_stream.Size := by rw [h1]; exact Int.natCast_nonneg _
        have hq : 0 ≤ dir_stream.Size / 128 := Int.ediv_nonneg hnn (by decide)
        push_cast
        rw [Int.toNat_of_nonneg hq]
        omega)
    split
    · simp
    · rename_i h
      exact absurd h hnt
    · simp

theorem loadDirectories_SectorSize (M : Nat) (decode : StreamReader → Int → DirectoryHeader)
    (self : OLEContext) (r : OLEContext × Option Error)
    (h : self.loadDirectories M decode = .ret r) : r.1.SectorSize = self.SectorSize := by
  unfold OLEContext.loadDirectories at h
  split at h
  · cases h
  · cases h
  · cases h; rfl
  · split at h
    · cases h
    · cases h
    · cases h; rfl

theorem loadMiniFat_loop_ne_timeout (self : OLEContext) (fat_stream : StreamReader)
    (hSS : 0 < self.SectorSize) (hSS2 : self.SectorSize ≤ 4096)
    (hsize : fat_stream.Size < 4611686018427387904) :
    ∀ (fuel : Nat) (offset : Int) (buffer MiniFat : List Nat),
      0 ≤ offset → 1 ≤ fuel →
      fat_stream.Size ≤ offset + (self.SectorSize : Int) * ((fuel : Int) - 1) →
      OLEContext.loadMiniFat.loop self fat_stream fuel offset buffer MiniFat ≠ .timeout := by
  intro fuel
  induction fuel with
  | zero => intro offset buffer MiniFat _ h1 _; omega
  | succ fuel ih =>
    intro offset buffer MiniFat h0 _ hle
    rw [OLEContext.loadMiniFat.loop]
    split
    · rename_i hlt
      have hw : wrap64 (offset + (self.SectorSize : Int)) = offset + (self.SectorSize : Int) :=
        wrap64_of_IsInt64 _ ⟨by omega, by omega⟩
      have hpos : (0 : Int) < (self.SectorSize : Int) := by exact_mod_cast hSS
      have hfuel : 1 ≤ fuel := by
        by_contra hc
        have : fuel = 0 := by omega
        subst this
        simp at hle
        omega
      split
      · simp
      · rename_i h
        exact absurd h (ReadAt_ne_timeout _ _ _)
      · split
        · simp
        · split
          · simp
          · rw [hw]
            apply ih _ _ _ (by omega) hfuel
            push_cast at hle
            have e : (self.SectorSize : Int) * ((fuel : Int) + 1 - 1) =
                (self.SectorSize : Int) + (self.SectorSize : Int) * ((fuel : Int) - 1) := by
              ring
            rw [e] at hle
            omega
    · simp

theorem loadMiniFat_ne_timeout (M : Nat) (self : OLEContext)
    (hSS : 0 < self.SectorSize) (hSS2 : self.SectorSize ≤ 4096) (hM : M < 2147483648) :
    self.loadMiniFat M ≠ .timeout := by
  unfold OLEContext.loadMiniFat
  split
  · simp
  · rename_i h
    unfold OLEContext.loadMiniFat.ministream at h
    split at h
    · cases h
    · rename_i hg
      exact absurd hg (GetDirentry_ne_timeout self 0)
    · cases h
    · split at h
      · cases h
      · rename_i ho
        exact absurd ho (OpenStream_ne_timeout M self _)
      · cases h
      · split at h <;> cases h
  · simp
  · rename_i ministream _
    simp only []
    split
    · simp
    · rename_i h
      exact absurd h (OpenStream_ne_timeout M _ _)
    · simp
    · rename_i fat_stream ho
      obtain ⟨h1, h2⟩ := OpenStream_size M { self with Ministream := some ministream } _
        fat_stream (Nat.lt_of_le_of_lt hSS2 (by decide)) hM ho
      have hlen : fat_stream.Sectors.length ≤ M + 1 := by
        obtain ⟨chain, hc, hr⟩ := OpenStream_ok M _ _ fat_stream ho
        rw [hr]
        exact getChain_length M _ _ chain none hc
      have hb : fat_stream.Sectors.length * self.SectorSize ≤ 2147483648 * 4096 :=
        Nat.mul_le_mul (by omega) hSS2
      have h1' : fat_stream.Size = ((fat_stream.Sectors.length * self.SectorSize : Nat) : Int) :=
        h1
      have hnt := loadMiniFat_loop_ne_timeout { self with Ministream := some ministream }
        fat_stream hSS hSS2 (by rw [h1']; omega) (fat_stream.Sectors.length + 2) 0
        (List.replicate self.SectorSize 0) self.MiniFat (le_refl _) (by omega)
        (by
          rw [h1']
          push_cast
          show (fat_stream.Sectors.length : Int) * (self.SectorSize : Int) ≤
            0 + (self.SectorSize : Int) * ((fat_stream.Sectors.length : Int) + 2 - 1)
          have hpos : (0 : Int) ≤ (self.SectorSize : Int) := Int.natCast_nonneg _
          have e : (self.SectorSize : Int) * ((fat_stream.Sectors.length : Int) + 2 - 1) =
              (fat_stream.Sectors.length : Int) * (self.SectorSize : Int) +
                (self.SectorSize : Int) := by ring
          rw [e]
          omega)
      split
      · simp
      · rename_i h
        exact absurd h hnt
      · simp

/-- The steps of `GetOLEContext` after `loadDIFSectors` return or panic, for
sectors of positive size. -/
theorem tables_ne_timeout (M : Nat) (decode : StreamReader → Int → DirectoryHeader)
    (self : OLEContext) (hSS : 0 < self.SectorSize) (hSS2 : self.SectorSize ≤ 4096)
    (hM : M < 2147483648) :
    GetOLEContext.tables M decode self ≠ .timeout := by
  unfold GetOLEContext.tables
  split
  · simp
  · rename_i self1 hfat
    have e1 : self1.SectorSize = self.SectorSize := by
      have := loadFat_loop_SectorSize self.FatSectors self
      unfold OLEContext.loadFat at hfat
      rw [hfat] at this
      exact this
    split
    · simp
    · rename_i h
      exact absurd h (loadDirectories_ne_timeout M decode self1 (by omega) hM)
    · simp
    · rename_i self2 hdir
      have e2 : self2.SectorSize = self1.SectorSize :=
        loadDirectories_SectorSize M decode self1 _ hdir
      split
      · simp
      · rename_i h
        exact absurd h (loadMiniFat_ne_timeout M self2 (by omega) (by omega) hM)
      · simp
      · simp

/-- `GetOLEContext` returns or panics: none of its loops uses up the fuel
(cap below `2^31`). -/
theorem GetOLEContext_ne_timeout (M : Nat) (decode : StreamReader → Int → DirectoryHeader)
    (reader : ReaderAt) (header : CFHeader) (hM : M < 2147483648) :
    GetOLEContext M decode reader header ≠ .timeout := by
  cases hh : GetOLEContext.header reader header with
  | error err =>
    unfold GetOLEContext
    simp only [hh]
    simp
  | ok base =>
    obtain ⟨_, _, hSS, _⟩ := GetOLEContext_header_ok reader header base hh
    have hb : 2 ≤ (GetOLEContext.inline base).SectorSize / 4 ∧
        0 < (GetOLEContext.inline base).SectorSize ∧
        (GetOLEContext.inline base).SectorSize ≤ 4096 := by
      show 2 ≤ base.SectorSize / 4 ∧ 0 < base.SectorSize ∧ base.SectorSize ≤ 4096
      rcases hSS with h | h <;> rw [h] <;> decide
    obtain ⟨res, hres, hs⟩ := loadDIFSectors_returns M (GetOLEContext.inline base) hb.1
    rw [GetOLEContext_of_header M decode reader header base hh, hres]
    simp only []
    split
    · simp
    · exact tables_ne_timeout M decode res.self (by omega) (by omega) hM


/-! ## The list of FAT sectors and the address of a DIFAT sector -/

/-- Where the offset of `ReadSector` does not wrap, `ReadSector` returns the
bytes of the sector. -/
theorem ReadSector_exact (self : OLEContext) (d : Nat)
    (h : (d + 1) * self.SectorSize < 4294967296) (hSS : 0 < self.SectorSize) :
    (self.ReadSector d).1 = self.sectorBytes d := by
  have h1 : d + 1 < 4294967296 :=
    Nat.lt_of_le_of_lt (Nat.le_mul_of_pos_right _ hSS) h
  unfold OLEContext.ReadSector OLEContext.sectorBytes
  rw [ReadSector_offset_exact self d h1 h]

/-- Where the offset of `ReadSector` does not wrap, the entries and the link
that `loadDIFSectors` takes from a DIFAT sector are those of the sector. -/
theorem difEntries_exact (self : OLEContext) (d : Nat) (hfull : self.readsInFull d)
    (h : (d + 1) * self.SectorSize < 4294967296) (hSS : 0 < self.SectorSize / 4) :
    self.difEntries d = self.sectorEntries d ∧ self.difLink d = self.sectorLink d := by
  have hpos : 0 < self.SectorSize := by omega
  constructor
  · rw [difEntries_full self d hfull, ReadSector_exact self d h hpos]
    rfl
  · rw [difLink_full self d hfull hSS, ReadSector_exact self d h hpos]
    rfl

theorem flatMap_congr_mem (f g : Nat → List Nat) :
    ∀ (l : List Nat), (∀ d ∈ l, f d = g d) → l.flatMap f = l.flatMap g := by
  intro l
  induction l with
  | nil => intro _; rfl
  | cons a rest ih =>
    intro h
    rw [List.flatMap_cons, List.flatMap_cons, h a (List.mem_cons_self _ _),
      ih (fun d hd => h d (List.mem_cons_of_mem _ hd))]

theorem difChain_readsInFull (self : OLEContext) (stop : Nat) :
    ∀ (l : List Nat) (s : Nat), self.difChain s l stop → ∀ d ∈ l, self.readsInFull d := by
  intro l
  induction l with
  | nil => intro s _ d hm; cases hm
  | cons a rest ih =>
    intro s hc d hm
    simp only [OLEContext.difChain] at hc
    rcases List.mem_cons.1 hm with hda | hdr
    · rw [hda]; exact hc.2.2.2.1
    · exact ih _ hc.2.2.2.2 d hdr

/-- The list `FatSectors` for a chain of DIFAT sectors that all lie in the first
4 GiB of the file (`(d + 1) * SectorSize < 2^32`): the context that
`GetOLEContext` returns has as `FatSectors` the inline DIFAT entries other than
`FREESECT` followed by the entries of the sectors of the chain, taken from the
bytes of the file at `(d + 1) * SectorSize`; and `loadDIFSectors` returns that
list when the links are pairwise different and at most `MAX_SECTORS + 1`. -/
theorem GetOLEContext_FatSectors_exact (M : Nat)
    (decode : StreamReader → Int → DirectoryHeader)
    (reader : ReaderAt) (header : CFHeader) (base : OLEContext) (ds : List Nat) (stop : Nat)
    (hhead : GetOLEContext.header reader header = .ok base)
    (hch : base.difChain header.DIFATSectorLoc ds stop)
    (hstop : stop = FREESECT ∨ stop = ENDOFCHAIN)
    (hlow : ∀ d ∈ ds, (d + 1) * base.SectorSize < 4294967296) :
    (∀ ctx, GetOLEContext M decode reader header = .ret (.ok ctx) →
      ctx.FatSectors =
        header.InitialDIFATs.filter (fun e => e ≠ FREESECT) ++
          ds.flatMap base.sectorEntries) ∧
    ((ds.map base.difLink).Nodup → ds.length ≤ M + 1 →
      ∃ res, (GetOLEContext.inline base).loadDIFSectors M = .ret res ∧ res.err = none ∧
        res.self.FatSectors =
          header.InitialDIFATs.filter (fun e => e ≠ FREESECT) ++
            ds.flatMap base.sectorEntries ∧
        res.reads = ds) := by
  obtain ⟨_, _, hSS, _⟩ := GetOLEContext_header_ok reader header base hhead
  have h4 : 0 < base.SectorSize / 4 := by
    rcases hSS with h | h <;> rw [h] <;> decide
  have hfull := difChain_readsInFull base stop ds _ hch
  have heq : ds.flatMap base.difEntries = ds.flatMap base.sectorEntries :=
    flatMap_congr_mem _ _ ds
      (fun d hd => (difEntries_exact base d (hfull d hd) (hlow d hd) h4).1)
  have hmain := GetOLEContext_FatSectors M decode reader header base ds stop hhead hch hstop
  rw [heq] at hmain
  refine ⟨hmain.1, fun hnd hlen => ?_⟩
  obtain ⟨res, h1, h2, h3, h4, _⟩ := hmain.2.2 hnd hlen
  exact ⟨res, h1, h2, h3, h4⟩

end Mscfb
